import Mathlib

/-!
# go-flow: shallow embedding and verification

This file embeds the core of the `go-flow` typed dataflow pipeline library
(packages `core`, `execution`) in Lean 4 and proves or refutes the frozen
claims about it.

Modelling conventions:
* Go `reflect.Type` descriptors become the inductive `GoType`; the `nil`
  reflect type (obtained from `reflect.TypeOf` of a zero interface value)
  is the constructor `GoType.tnil`.
* Go maps from strings are modelled as association lists (`SMap`): lookup
  finds the first matching key, update replaces in place, insertion appends.
  Where Go map *iteration order* is observable (the Kahn queue
  initialization, worker scheduling) the order is an explicit parameter.
* Values flowing through channels have Go type `interface`; they are
  modelled as `Option V` for an arbitrary payload type `V`, with `none`
  standing for a `nil` interface value.
* Durations and times are integers (nanosecond counts), as in Go's
  `time.Duration` / monotonic clock readings.
-/

set_option linter.unusedVariables false

namespace GoFlow

/-- A Go `reflect.Type` descriptor, with structural decidable equality.
`tnil` is the nil `reflect.Type` (e.g. `reflect.TypeOf` of an interface
zero value); `iface n` is an interface kind with `n` methods. -/
inductive GoType : Type where
  | tnil : GoType
  | tstr : GoType
  | tint : GoType
  | tbool : GoType
  | iface : Nat → GoType
  | ptr : GoType → GoType
  | slice : GoType → GoType
  | tmap : GoType → GoType → GoType
  | named : String → GoType
  deriving DecidableEq, Repr

/-- `BaseSchema.isCompatibleType` from `core/schema.go`: equal types are
compatible; an empty interface on either side is compatible with anything;
pointer, slice and map types recurse on their element types. -/
def isCompatibleType : GoType → GoType → Bool
  | t1, t2 =>
    if t1 = t2 then true
    else match t1, t2 with
      | GoType.iface 0, _ => true
      | _, GoType.iface 0 => true
      | GoType.ptr a, GoType.ptr b => isCompatibleType a b
      | GoType.slice a, GoType.slice b => isCompatibleType a b
      | GoType.tmap k1 v1, GoType.tmap k2 v2 =>
          isCompatibleType k1 k2 && isCompatibleType v1 v2
      | _, _ => false

/-- `BaseSchema` from `core/schema.go`, restricted to the data that the
validator consults (`schemaType`; constraints never influence validation
results at the pipeline level). -/
structure SchemaV : Type where
  schemaType : GoType
  deriving DecidableEq, Repr

/-- `BaseSchema.Compatible`: casts the other schema to `*BaseSchema` (all
schemas in the model are base schemas) and compares the two data types with
`isCompatibleType`. -/
def SchemaV.compatible (s o : SchemaV) : Bool :=
  isCompatibleType s.schemaType o.schemaType

/-- A component port (`BasePort`): name, reflect type, required flag and
optional schema. -/
structure Port : Type where
  name : String
  type : GoType
  required : Bool := false
  schema : Option SchemaV := none
  deriving DecidableEq, Repr

/-! ## String-keyed association maps (Go `map[string]T`) -/

/-- Go `map[string]T`, carried as an association list in a canonical
enumeration order.  Keys are unique in well-formed maps. -/
def SMap (α : Type) : Type := List (String × α)

namespace SMap

/-- The empty map. -/
def empty {α : Type} : SMap α := []

/-- Map lookup: value of the first entry with the given key. -/
def get? {α : Type} (m : SMap α) (k : String) : Option α :=
  match m with
  | [] => none
  | (k', v) :: rest => if k' = k then some v else get? rest k

/-- Map membership test (`_, ok := m[k]`). -/
def contains {α : Type} (m : SMap α) (k : String) : Bool :=
  (m.get? k).isSome

/-- Map update `m[k] = v`: replaces the entry in place when present,
appends otherwise. -/
def insert {α : Type} (m : SMap α) (k : String) (v : α) : SMap α :=
  match m with
  | [] => [(k, v)]
  | (k', v') :: rest =>
      if k' = k then (k, v) :: rest else (k', v') :: insert rest k v

/-- The list of keys in enumeration order. -/
def keys {α : Type} (m : SMap α) : List String :=
  match m with
  | [] => []
  | (k, _) :: rest => k :: keys rest

/-- Go `delete(m, k)`. -/
def erase {α : Type} (m : SMap α) (k : String) : SMap α :=
  match m with
  | [] => []
  | (k', v) :: rest => if k' = k then erase rest k else (k', v) :: erase rest k

theorem get?_insert_self {α : Type} (m : SMap α) (k : String) (v : α) :
    (m.insert k v).get? k = some v := by
  induction m with
  | nil => simp [insert, get?]
  | cons e rest ih =>
      obtain ⟨k', v'⟩ := e
      by_cases h : k' = k
      · simp [insert, h, get?]
      · simp [insert, h, get?, ih]

theorem get?_insert_ne {α : Type} (m : SMap α) (k k' : String) (v : α)
    (h : k ≠ k') : (m.insert k v).get? k' = m.get? k' := by
  induction m with
  | nil => simp [insert, get?, h]
  | cons e rest ih =>
      obtain ⟨k0, v0⟩ := e
      by_cases h0 : k0 = k
      · subst h0; simp [insert, get?, h]
      · simp [insert, h0, get?, ih]

end SMap

/-! ## Components, connections, pipelines (`core`, enhanced version) -/

/-- A component (the enhanced `Component` interface together with the data
of `BaseComponent`): name, typed ports, a process operation and the result
of its `Validate` hook.  The process operation is a pure function of the
input map (the claims under study restrict attention to pure components);
its Go signature `map[string]interface{} → (map[string]interface{}, error)`
becomes `SMap (Option V) → Except String (SMap (Option V))`, the output
association list carrying the map's enumeration order. -/
structure Component (V : Type) : Type where
  name : String
  inputs : List Port
  outputs : List Port
  process : SMap (Option V) → Except String (SMap (Option V))
  validateErr : Option String := none

/-- A backpressure configuration (recorded on connections; the engines in
`execution/engine.go` never read it). -/
structure BackpressureConfig : Type where
  strategy : Nat := 0
  bufferSize : Int := 0
  deriving DecidableEq, Repr

/-- A connection (enhanced `Connection` struct): endpoints, optional
transform (modelled by its name; the validator and the engines only test
its presence, never apply it), buffer size, optional backpressure config,
and name. -/
structure Connection : Type where
  fromComponent : String
  fromPort : String
  toComponent : String
  toPort : String
  transform : Option String := none
  bufferSize : Int := 0
  backpressure : Option BackpressureConfig := none
  name : String := ""
  deriving DecidableEq, Repr

/-- `PipelineConfig`.  `cpuLimit` is a float in Go; it is modelled as an
integer because it only feeds a sign test that produces warnings. -/
structure PipelineConfig : Type where
  maxConcurrency : Int
  timeout : Int
  memoryLimit : Int
  cpuLimit : Int
  strictValidation : Bool
  allowCycles : Bool
  defaultBufferSize : Int
  maxBufferSize : Int
  deriving DecidableEq, Repr

/-- `NewDefaultPipelineConfig` from `core` (pipeline.go, enhanced). -/
def NewDefaultPipelineConfig : PipelineConfig :=
  { maxConcurrency := 10
    timeout := 30 * 1000000000
    memoryLimit := 1024 * 1024 * 1024
    cpuLimit := 1
    strictValidation := true
    allowCycles := false
    defaultBufferSize := 100
    maxBufferSize := 1000 }

/-- The enhanced `Pipeline` struct: component map (as an association list
in a canonical enumeration order), connection list, construction errors and
configuration. -/
structure Pipeline (V : Type) : Type where
  name : String
  components : SMap (Component V)
  connections : List Connection
  errors : List String
  config : PipelineConfig

/-- `NewPipeline`. -/
def NewPipeline (V : Type) (name : String) : Pipeline V :=
  { name := name
    components := SMap.empty
    connections := []
    errors := []
    config := NewDefaultPipelineConfig }

/-- `Pipeline.AddComponent`: stamps the name onto the component
(`SetName`) and stores it in the component map. -/
def Pipeline.addComponent {V : Type} (p : Pipeline V) (n : String)
    (c : Component V) : Pipeline V :=
  { p with components := p.components.insert n { c with name := n } }

/-- `findPort` from pipeline.go: scan the port list for the name; if found
with a different type than expected, fail; if absent, fail. -/
def findPort (ports : List Port) (nm : String) (expected : GoType) :
    Except String Port :=
  match ports with
  | [] => Except.error ("port not found: " ++ nm)
  | pt :: rest =>
      if pt.name = nm then
        if pt.type = expected then Except.ok pt
        else Except.error ("port type unexpected: " ++ nm)
      else findPort rest nm expected

/-- `validatePortMatch[T]`: the expected type is `reflect.TypeOf` of `T`'s
zero value (`GoType.tnil` when `T` is an interface type).  Both ports must
be found with the expected type, and their types must then agree. -/
def validatePortMatch {V : Type} (src : Component V) (fromPort : String)
    (dst : Component V) (toPort : String) (expected : GoType) :
    Option String :=
  match findPort src.outputs fromPort expected with
  | Except.error e => some ("output port validation failed: " ++ e)
  | Except.ok outPort =>
    match findPort dst.inputs toPort expected with
    | Except.error e => some ("input port validation failed: " ++ e)
    | Except.ok inPort =>
      if outPort.type = inPort.type then none
      else some "type mismatch"

/-- `Connect[T]` from pipeline.go (enhanced version): validate that both
components exist and that the ports match the static type `T`; on any
failure append one construction error and leave the connections untouched;
on success append exactly one connection carrying the configured default
buffer size. -/
def Connect {V : Type} (T : GoType) (p : Pipeline V)
    (fromComponent fromPort toComponent toPort : String) : Pipeline V :=
  match p.components.get? fromComponent with
  | none =>
      { p with errors := p.errors ++ ["source component not found: " ++ fromComponent] }
  | some src =>
    match p.components.get? toComponent with
    | none =>
        { p with errors := p.errors ++ ["target component not found: " ++ toComponent] }
    | some dst =>
      match validatePortMatch src fromPort dst toPort T with
      | some e => { p with errors := p.errors ++ [e] }
      | none =>
          { p with connections := p.connections ++
              [{ fromComponent := fromComponent
                 fromPort := fromPort
                 toComponent := toComponent
                 toPort := toPort
                 transform := none
                 bufferSize := p.config.defaultBufferSize
                 backpressure := none
                 name := fromComponent ++ "." ++ fromPort ++ " -> " ++
                         toComponent ++ "." ++ toPort }] }

/-! ## Error model, default error handler, circuit breaker (`core`, errors file) -/

/-- `ErrorType` from the core package. -/
inductive ErrorType : Type where
  | validationError : ErrorType
  | runtimeError : ErrorType
  | configurationError : ErrorType
  | resourceError : ErrorType
  | networkError : ErrorType
  deriving DecidableEq, Repr

/-- `ErrorType.String()`. -/
def ErrorType.str : ErrorType → String
  | validationError => "VALIDATION"
  | runtimeError => "RUNTIME"
  | configurationError => "CONFIGURATION"
  | resourceError => "RESOURCE"
  | networkError => "NETWORK"

/-- `Severity` from the core package. -/
inductive Severity : Type where
  | info : Severity
  | warning : Severity
  | error : Severity
  | critical : Severity
  deriving DecidableEq, Repr

/-- `ErrorAction` from the core package (`Continue` is `cont` here). -/
inductive ErrorAction : Type where
  | cont : ErrorAction
  | retry : ErrorAction
  | skip : ErrorAction
  | abort : ErrorAction
  deriving DecidableEq, Repr

/-- `BasePipelineError`: the structured pipeline error (cause chain and
context map omitted; no claim consults them). -/
structure PipelineErrorV : Type where
  message : String
  component : String
  errorType : ErrorType
  severity : Severity
  recoverable : Bool
  deriving DecidableEq, Repr

/-- `DefaultErrorHandler`: retry counts keyed by the string
`component ++ ":" ++ errorType.String()`, plus the `maxRetries` bound. -/
structure DefaultErrorHandler : Type where
  retryAttempts : SMap Int
  maxRetries : Int

/-- `NewDefaultErrorHandler`. -/
def NewDefaultErrorHandler (maxRetries : Int) : DefaultErrorHandler :=
  { retryAttempts := SMap.empty, maxRetries := maxRetries }

/-- The retry-count key for a component and error type. -/
def retryKey (component : String) (errorType : ErrorType) : String :=
  component ++ ":" ++ errorType.str

/-- `DefaultErrorHandler.HandleError`: the decision table over severity,
recoverability and the per-key retry count; a missing map entry reads as 0
and a `Retry` decision increments the entry. -/
def DefaultErrorHandler.handleError (h : DefaultErrorHandler)
    (e : PipelineErrorV) : ErrorAction × DefaultErrorHandler :=
  let key := retryKey e.component e.errorType
  match e.severity with
  | Severity.critical => (ErrorAction.abort, h)
  | Severity.error =>
      if e.recoverable ∧ (h.retryAttempts.get? key).getD 0 < h.maxRetries then
        (ErrorAction.retry,
         { h with retryAttempts :=
             h.retryAttempts.insert key ((h.retryAttempts.get? key).getD 0 + 1) })
      else (ErrorAction.abort, h)
  | Severity.warning =>
      if e.recoverable then (ErrorAction.cont, h) else (ErrorAction.skip, h)
  | Severity.info => (ErrorAction.cont, h)

/-- `DefaultErrorHandler.ResetRetryCount`: deletes the key. -/
def DefaultErrorHandler.resetRetryCount (h : DefaultErrorHandler)
    (component : String) (errorType : ErrorType) : DefaultErrorHandler :=
  { h with retryAttempts :=
      h.retryAttempts.erase (retryKey component errorType) }

/-- Feeding a sequence of errors through the handler, collecting the
decisions in order. -/
def runHandler (h : DefaultErrorHandler) :
    List PipelineErrorV → List ErrorAction × DefaultErrorHandler
  | [] => ([], h)
  | e :: rest =>
      let r := h.handleError e
      let rr := runHandler r.2 rest
      (r.1 :: rr.1, rr.2)

/-- Number of `Retry` decisions produced for errors whose component and
kind match the given pair, over a sequence of handled errors. -/
def countRetries (h : DefaultErrorHandler) (es : List PipelineErrorV)
    (c : String) (k : ErrorType) : Nat :=
  match es with
  | [] => 0
  | e :: rest =>
      let r := h.handleError e
      (if r.1 = ErrorAction.retry ∧ e.component = c ∧ e.errorType = k
       then 1 else 0) + countRetries r.2 rest c k

/-- Current retry count read by the handler for a key. -/
def DefaultErrorHandler.cnt (h : DefaultErrorHandler) (key : String) : Int :=
  (h.retryAttempts.get? key).getD 0

theorem handleError_maxRetries (h : DefaultErrorHandler) (e : PipelineErrorV) :
    (h.handleError e).2.maxRetries = h.maxRetries := by
  obtain ⟨msg, comp, et, sev, rec⟩ := e
  cases sev
  case info => rfl
  case warning =>
    by_cases hr : rec = true <;> simp [DefaultErrorHandler.handleError, hr]
  case error =>
    by_cases hc : rec = true ∧
        (h.retryAttempts.get? (retryKey comp et)).getD 0 < h.maxRetries <;>
      simp [DefaultErrorHandler.handleError, hc]
  case critical => rfl

theorem handleError_of_ne_retry (h : DefaultErrorHandler) (e : PipelineErrorV)
    (hne : (h.handleError e).1 ≠ ErrorAction.retry) : (h.handleError e).2 = h := by
  obtain ⟨msg, comp, et, sev, rec⟩ := e
  cases sev
  case info => rfl
  case warning =>
    by_cases hr : rec = true <;> simp [DefaultErrorHandler.handleError, hr]
  case error =>
    by_cases hc : rec = true ∧
        (h.retryAttempts.get? (retryKey comp et)).getD 0 < h.maxRetries
    · exact absurd (by simp [DefaultErrorHandler.handleError, hc]) hne
    · simp [DefaultErrorHandler.handleError, hc]
  case critical => rfl

theorem handleError_retry_cond (h : DefaultErrorHandler) (e : PipelineErrorV)
    (hr : (h.handleError e).1 = ErrorAction.retry) :
    e.severity = Severity.error ∧ e.recoverable = true ∧
      h.cnt (retryKey e.component e.errorType) < h.maxRetries ∧
      (h.handleError e).2.retryAttempts =
        h.retryAttempts.insert (retryKey e.component e.errorType)
          (h.cnt (retryKey e.component e.errorType) + 1) := by
  obtain ⟨msg, comp, et, sev, rec⟩ := e
  cases sev
  case info => exact absurd hr (by simp [DefaultErrorHandler.handleError])
  case warning =>
    by_cases hrec : rec = true <;>
      exact absurd hr (by simp [DefaultErrorHandler.handleError, hrec])
  case error =>
    by_cases hc : rec = true ∧
        (h.retryAttempts.get? (retryKey comp et)).getD 0 < h.maxRetries
    · refine ⟨rfl, hc.1, hc.2, ?_⟩
      simp [DefaultErrorHandler.handleError, hc, DefaultErrorHandler.cnt]
    · exact absurd hr (by simp [DefaultErrorHandler.handleError, hc])
  case critical => exact absurd hr (by simp [DefaultErrorHandler.handleError])

theorem maxFacts (a : Int) :
    (max a 0 = a ∨ max a 0 = 0) ∧ a ≤ max a 0 ∧ 0 ≤ max a 0 :=
  ⟨max_choice a 0, le_max_left a 0, le_max_right a 0⟩

/-- Retry decisions for a fixed (component, kind) pair are bounded by the
remaining budget of that pair's key (collisions on the key only shrink the
budget faster). -/
theorem countRetries_le (es : List PipelineErrorV) (h : DefaultErrorHandler)
    (c : String) (k : ErrorType) :
    (countRetries h es c k : Int) ≤
      max (h.maxRetries - h.cnt (retryKey c k)) 0 := by
  induction es generalizing h with
  | nil => simp [countRetries]
  | cons e rest ih =>
      have hmax := handleError_maxRetries h e
      simp only [countRetries]
      by_cases hr : (h.handleError e).1 = ErrorAction.retry
      · obtain ⟨hsev, hrec, hlt, hins⟩ := handleError_retry_cond h e hr
        by_cases hkey : retryKey e.component e.errorType = retryKey c k
        · have hcnt' : (h.handleError e).2.cnt (retryKey c k) =
              h.cnt (retryKey c k) + 1 := by
            simp only [DefaultErrorHandler.cnt] at *
            rw [hins, hkey, SMap.get?_insert_self]
            simp
          have hlt' : h.cnt (retryKey c k) < h.maxRetries := hkey ▸ hlt
          have hb := ih ((h.handleError e).2)
          rw [hcnt', hmax] at hb
          obtain ⟨hc1, hc2, hc3⟩ := maxFacts (h.maxRetries - h.cnt (retryKey c k))
          obtain ⟨hd1, hd2, hd3⟩ :=
            maxFacts (h.maxRetries - (h.cnt (retryKey c k) + 1))
          by_cases hmatch : e.component = c ∧ e.errorType = k <;>
            simp only [hr, hmatch, and_self, true_and, if_true, if_false,
              and_false, if_neg, not_false_iff] <;> push_cast <;> omega
        · have hcnt' : (h.handleError e).2.cnt (retryKey c k) =
              h.cnt (retryKey c k) := by
            simp only [DefaultErrorHandler.cnt] at *
            rw [hins, SMap.get?_insert_ne _ _ _ _ hkey]
          have hb := ih ((h.handleError e).2)
          rw [hcnt', hmax] at hb
          have hmatch : ¬ (e.component = c ∧ e.errorType = k) := by
            intro hm
            exact hkey (by rw [hm.1, hm.2])
          simp only [hmatch, and_false, if_false]
          push_cast
          omega
      · have hunch := handleError_of_ne_retry h e hr
        have hzero : (if (h.handleError e).1 = ErrorAction.retry ∧
            e.component = c ∧ e.errorType = k then 1 else 0) = 0 := by
          simp [hr]
        rw [hzero, hunch]
        have hb := ih h
        push_cast
        omega

/-- `CircuitState` from the core package (`Open` is `opened` here, since
`open` is reserved). -/
inductive CircuitState : Type where
  | closed : CircuitState
  | opened : CircuitState
  | halfOpen : CircuitState
  deriving DecidableEq, Repr

/-- `BaseCircuitBreaker`: state, consecutive-failure and half-open success
counters, thresholds, timeout and the time of the last failure. -/
structure BaseCircuitBreaker : Type where
  state : CircuitState
  failureCount : Int
  successCount : Int
  failureThreshold : Int
  successThreshold : Int
  timeout : Int
  lastFailureTime : Int
  deriving DecidableEq, Repr

/-- `NewCircuitBreaker` (the zero time is modelled as 0). -/
def NewCircuitBreaker (failureThreshold successThreshold timeout : Int) :
    BaseCircuitBreaker :=
  { state := CircuitState.closed
    failureCount := 0
    successCount := 0
    failureThreshold := failureThreshold
    successThreshold := successThreshold
    timeout := timeout
    lastFailureTime := 0 }

/-- `onFailure`: bump the consecutive-failure count, stamp the failure
time, and open when in half-open state or at the failure threshold. -/
def BaseCircuitBreaker.onFailure (cb : BaseCircuitBreaker) (now : Int) :
    BaseCircuitBreaker :=
  let cb' := { cb with failureCount := cb.failureCount + 1, lastFailureTime := now }
  if cb'.state = CircuitState.halfOpen ∨ cb'.failureCount ≥ cb'.failureThreshold then
    { cb' with state := CircuitState.opened, successCount := 0 }
  else cb'

/-- `onSuccess`: clear the consecutive-failure count; in half-open state
count successes and close at the success threshold. -/
def BaseCircuitBreaker.onSuccess (cb : BaseCircuitBreaker) : BaseCircuitBreaker :=
  let cb' := { cb with failureCount := 0 }
  if cb'.state = CircuitState.halfOpen then
    let cb'' := { cb' with successCount := cb'.successCount + 1 }
    if cb''.successCount ≥ cb''.successThreshold then
      { cb'' with state := CircuitState.closed }
    else cb''
  else cb'

/-- Result of one `Execute` call: fail-fast with the synthetic breaker-open
error, or the wrapped function's success or failure. -/
inductive ExecResult : Type where
  | breakerOpen : ExecResult
  | ok : ExecResult
  | failed : ExecResult
  deriving DecidableEq, Repr

/-- Running the wrapped function and dispatching on its outcome
(the tail of `Execute` after the state check). -/
def BaseCircuitBreaker.runFn (cb : BaseCircuitBreaker) (now : Int)
    (fnSucceeds : Bool) : ExecResult × BaseCircuitBreaker :=
  if fnSucceeds then (ExecResult.ok, cb.onSuccess)
  else (ExecResult.failed, cb.onFailure now)

/-- `BaseCircuitBreaker.Execute` at a clock reading `now`, for a wrapped
function whose outcome is `fnSucceeds`: in open state, fail fast unless
strictly more than `timeout` has elapsed since the last failure, in which
case move to half-open (resetting the success count) and run the
function; otherwise run the function. -/
def BaseCircuitBreaker.execute (cb : BaseCircuitBreaker) (now : Int)
    (fnSucceeds : Bool) : ExecResult × BaseCircuitBreaker :=
  match cb.state with
  | CircuitState.opened =>
      if now - cb.lastFailureTime > cb.timeout then
        ({ cb with state := CircuitState.halfOpen, successCount := 0 }).runFn
          now fnSucceeds
      else (ExecResult.breakerOpen, cb)
  | _ => cb.runFn now fnSucceeds

/-- `BaseCircuitBreaker.Reset`: close and clear both counters. -/
def BaseCircuitBreaker.reset (cb : BaseCircuitBreaker) : BaseCircuitBreaker :=
  { cb with state := CircuitState.closed, failureCount := 0, successCount := 0 }

/-- Folding a sequence of (clock reading, function outcome) calls through
`Execute`. -/
def execSeq (cb : BaseCircuitBreaker) :
    List (Int × Bool) → BaseCircuitBreaker
  | [] => cb
  | (now, o) :: rest => execSeq (cb.execute now o).2 rest

/-- A sequence of failing calls at the given clock readings. -/
def allFailures (times : List Int) : List (Int × Bool) :=
  times.map (fun t => (t, false))

/-- A sequence of succeeding calls at the given clock readings. -/
def allSuccesses (times : List Int) : List (Int × Bool) :=
  times.map (fun t => (t, true))

theorem execute_opened_fail_stays (cb : BaseCircuitBreaker) (now : Int)
    (h : cb.state = CircuitState.opened) :
    ((cb.execute now false).2).state = CircuitState.opened := by
  by_cases ht : now - cb.lastFailureTime > cb.timeout <;>
    simp [BaseCircuitBreaker.execute, h, ht, BaseCircuitBreaker.runFn,
      BaseCircuitBreaker.onFailure]

theorem execute_closed_fail (cb : BaseCircuitBreaker) (now : Int)
    (h : cb.state = CircuitState.closed) :
    (cb.execute now false).2 =
      if cb.failureCount + 1 ≥ cb.failureThreshold then
        { cb with failureCount := cb.failureCount + 1, lastFailureTime := now,
                  state := CircuitState.opened, successCount := 0 }
      else
        { cb with failureCount := cb.failureCount + 1, lastFailureTime := now } := by
  by_cases hth : cb.failureThreshold ≤ cb.failureCount + 1 <;>
    simp [BaseCircuitBreaker.execute, h, BaseCircuitBreaker.runFn,
      BaseCircuitBreaker.onFailure, hth, ge_iff_le]

theorem execute_closed_succ (cb : BaseCircuitBreaker) (now : Int)
    (h : cb.state = CircuitState.closed) :
    (cb.execute now true).2 = { cb with failureCount := 0 } := by
  simp [BaseCircuitBreaker.execute, h, BaseCircuitBreaker.runFn,
    BaseCircuitBreaker.onSuccess]

theorem execute_halfOpen_succ (cb : BaseCircuitBreaker) (now : Int)
    (h : cb.state = CircuitState.halfOpen) :
    (cb.execute now true).2 =
      if cb.successCount + 1 ≥ cb.successThreshold then
        { cb with failureCount := 0, successCount := cb.successCount + 1,
                  state := CircuitState.closed }
      else
        { cb with failureCount := 0, successCount := cb.successCount + 1 } := by
  by_cases hth : cb.successThreshold ≤ cb.successCount + 1 <;>
    simp [BaseCircuitBreaker.execute, h, BaseCircuitBreaker.runFn,
      BaseCircuitBreaker.onSuccess, hth, ge_iff_le]

theorem execute_halfOpen_fail (cb : BaseCircuitBreaker) (now : Int)
    (h : cb.state = CircuitState.halfOpen) :
    (cb.execute now false).2.state = CircuitState.opened := by
  simp [BaseCircuitBreaker.execute, h, BaseCircuitBreaker.runFn,
    BaseCircuitBreaker.onFailure]

theorem execSeq_failures_opened (times : List Int) (cb : BaseCircuitBreaker)
    (h : cb.state = CircuitState.opened) :
    (execSeq cb (allFailures times)).state = CircuitState.opened := by
  induction times generalizing cb with
  | nil => exact h
  | cons t rest ih =>
      simp only [allFailures, List.map_cons, execSeq]
      exact ih _ (execute_opened_fail_stays cb t h)

theorem execSeq_successes_closed (times : List Int) (cb : BaseCircuitBreaker)
    (h : cb.state = CircuitState.closed) :
    (execSeq cb (allSuccesses times)).state = CircuitState.closed := by
  induction times generalizing cb with
  | nil => exact h
  | cons t rest ih =>
      simp only [allSuccesses, List.map_cons, execSeq]
      refine ih _ ?_
      rw [execute_closed_succ cb t h]
      exact h

/-- Consecutive failures from a closed breaker open it once the failure
count reaches the threshold. -/
theorem opens_after_failures (times : List Int) (cb : BaseCircuitBreaker)
    (hne : times ≠ []) (hcl : cb.state = CircuitState.closed)
    (hcount : cb.failureThreshold ≤ cb.failureCount + times.length) :
    (execSeq cb (allFailures times)).state = CircuitState.opened := by
  induction times generalizing cb with
  | nil => exact absurd rfl hne
  | cons t rest ih =>
      simp only [allFailures, List.map_cons, execSeq]
      by_cases hth : cb.failureCount + 1 ≥ cb.failureThreshold
      · have hst : (cb.execute t false).2.state = CircuitState.opened := by
          rw [execute_closed_fail cb t hcl]
          simp [hth]
        exact execSeq_failures_opened rest _ hst
      · have hrest : rest ≠ [] := by
          intro hr
          subst hr
          simp at hcount
          omega
        have hexec := execute_closed_fail cb t hcl
        rw [if_neg hth] at hexec
        refine ih _ hrest ?_ ?_
        · rw [hexec]
          simpa using hcl
        · rw [hexec]
          simp at hcount ⊢
          omega

/-- Consecutive successes from a half-open breaker close it once the
success count reaches the threshold. -/
theorem closes_after_successes (times : List Int) (cb : BaseCircuitBreaker)
    (hne : times ≠ []) (hho : cb.state = CircuitState.halfOpen)
    (hcount : cb.successThreshold ≤ cb.successCount + times.length) :
    (execSeq cb (allSuccesses times)).state = CircuitState.closed := by
  induction times generalizing cb with
  | nil => exact absurd rfl hne
  | cons t rest ih =>
      simp only [allSuccesses, List.map_cons, execSeq]
      by_cases hth : cb.successCount + 1 ≥ cb.successThreshold
      · have hst : (cb.execute t true).2.state = CircuitState.closed := by
          rw [execute_halfOpen_succ cb t hho]
          simp [hth]
        exact execSeq_successes_closed rest _ hst
      · have hrest : rest ≠ [] := by
          intro hr
          subst hr
          simp at hcount
          omega
        have hexec := execute_halfOpen_succ cb t hho
        rw [if_neg hth] at hexec
        refine ih _ hrest ?_ ?_
        · rw [hexec]
          simpa using hho
        · rw [hexec]
          simp at hcount ⊢
          omega

/-! ## Claim C8: default error handler policy -/

/-- C8: the default error handler returns Abort for Critical severity;
Retry for Error severity when the error is recoverable and the retry count
for the (component, kind) key is below `maxRetries`, and Abort for Error
severity otherwise; Continue for recoverable Warnings; Skip for
non-recoverable Warnings; Continue for Info.  Consequently, from a fresh
handler with budget `m ≥ 0`, any sequence of handled errors yields at most
`m` Retry decisions for a given (component, kind) pair until the count is
explicitly reset. -/
theorem C8_default_error_handler_policy
    (h : DefaultErrorHandler) (e : PipelineErrorV)
    (m : Int) (es : List PipelineErrorV) (c : String) (k : ErrorType)
    (hm : 0 ≤ m) :
    (e.severity = Severity.critical →
      (h.handleError e).1 = ErrorAction.abort) ∧
    (e.severity = Severity.error → e.recoverable = true →
      h.cnt (retryKey e.component e.errorType) < h.maxRetries →
      (h.handleError e).1 = ErrorAction.retry) ∧
    (e.severity = Severity.error →
      (e.recoverable = false ∨
        h.maxRetries ≤ h.cnt (retryKey e.component e.errorType)) →
      (h.handleError e).1 = ErrorAction.abort) ∧
    (e.severity = Severity.warning → e.recoverable = true →
      (h.handleError e).1 = ErrorAction.cont) ∧
    (e.severity = Severity.warning → e.recoverable = false →
      (h.handleError e).1 = ErrorAction.skip) ∧
    (e.severity = Severity.info → (h.handleError e).1 = ErrorAction.cont) ∧
    (countRetries (NewDefaultErrorHandler m) es c k : Int) ≤ m := by
  refine ⟨?_, ?_, ?_, ?_, ?_, ?_, ?_⟩
  · intro hs
    simp [DefaultErrorHandler.handleError, hs]
  · intro hs hrec hlt
    simp only [DefaultErrorHandler.cnt] at hlt
    simp [DefaultErrorHandler.handleError, hs, hrec, hlt]
  · intro hs hcond
    rcases hcond with hrec | hge
    · simp [DefaultErrorHandler.handleError, hs, hrec]
    · simp only [DefaultErrorHandler.cnt] at hge
      have hnc : ¬ (e.recoverable = true ∧
          (h.retryAttempts.get? (retryKey e.component e.errorType)).getD 0 <
            h.maxRetries) :=
        fun hc => absurd hc.2 (not_lt.mpr hge)
      simp [DefaultErrorHandler.handleError, hs, hnc]
  · intro hs hrec
    simp [DefaultErrorHandler.handleError, hs, hrec]
  · intro hs hrec
    simp [DefaultErrorHandler.handleError, hs, hrec]
  · intro hs
    simp [DefaultErrorHandler.handleError, hs]
  · have hb := countRetries_le es (NewDefaultErrorHandler m) c k
    have hz : (NewDefaultErrorHandler m).cnt (retryKey c k) = 0 := by
      simp [NewDefaultErrorHandler, DefaultErrorHandler.cnt, SMap.get?, SMap.empty]
    rw [hz] at hb
    have : (NewDefaultErrorHandler m).maxRetries = m := rfl
    rw [this] at hb
    obtain ⟨h1, h2, h3⟩ := maxFacts (m - 0)
    omega

/-- Witness for C8 at a concrete handler, error and error sequence. -/
theorem C8_default_error_handler_policy_witness :
    ((NewDefaultErrorHandler 2).handleError
        ⟨"boom", "comp", ErrorType.runtimeError, Severity.error, true⟩).1 =
      ErrorAction.retry ∧
    (countRetries (NewDefaultErrorHandler 2)
        (List.replicate 5
          ⟨"boom", "comp", ErrorType.runtimeError, Severity.error, true⟩)
        "comp" ErrorType.runtimeError : Int) ≤ 2 := by
  have h := C8_default_error_handler_policy (NewDefaultErrorHandler 2)
      ⟨"boom", "comp", ErrorType.runtimeError, Severity.error, true⟩ 2
      (List.replicate 5
        ⟨"boom", "comp", ErrorType.runtimeError, Severity.error, true⟩)
      "comp" ErrorType.runtimeError (by decide)
  exact ⟨h.2.1 rfl rfl (by decide), h.2.2.2.2.2.2⟩

/-! ## Claim C9: circuit breaker state machine -/

/-- C9 (amended): the circuit breaker follows the specified state machine,
except that the open-to-half-open transition requires *strictly more* than
`timeout` to have elapsed since the last failure; at elapsed time exactly
equal to `timeout` the breaker still fails fast.  Conjuncts: a fresh
breaker is Closed with zero counters; `failureThreshold` consecutive failed
calls open it; while Open with elapsed ≤ timeout, Execute fails fast with
the breaker-open error and leaves the breaker untouched; the first call
with elapsed > timeout runs the wrapped function from HalfOpen (a failure
reopens, a success closes once the success threshold is reached);
`successThreshold` consecutive successes in HalfOpen close it; any failure
in HalfOpen reopens it; Reset closes and clears both counters. -/
theorem C9_circuit_breaker_state_machine
    (ft st tmo : Int) (cb : BaseCircuitBreaker) (now : Int) (o : Bool)
    (times : List Int) :
    ((NewCircuitBreaker ft st tmo).state = CircuitState.closed ∧
      (NewCircuitBreaker ft st tmo).failureCount = 0 ∧
      (NewCircuitBreaker ft st tmo).successCount = 0) ∧
    (times ≠ [] → ft ≤ times.length →
      (execSeq (NewCircuitBreaker ft st tmo) (allFailures times)).state =
        CircuitState.opened) ∧
    (cb.state = CircuitState.opened → now - cb.lastFailureTime ≤ cb.timeout →
      cb.execute now o = (ExecResult.breakerOpen, cb)) ∧
    (cb.state = CircuitState.opened → now - cb.lastFailureTime > cb.timeout →
      (cb.execute now o).1 = (if o then ExecResult.ok else ExecResult.failed) ∧
      (cb.execute now o).2.state =
        (if o then
          (if cb.successThreshold ≤ 1 then CircuitState.closed
           else CircuitState.halfOpen)
         else CircuitState.opened)) ∧
    (cb.state = CircuitState.halfOpen → times ≠ [] →
      cb.successThreshold ≤ cb.successCount + times.length →
      (execSeq cb (allSuccesses times)).state = CircuitState.closed) ∧
    (cb.state = CircuitState.halfOpen →
      (cb.execute now false).2.state = CircuitState.opened) ∧
    (cb.reset.state = CircuitState.closed ∧ cb.reset.failureCount = 0 ∧
      cb.reset.successCount = 0) := by
  refine ⟨⟨rfl, rfl, rfl⟩, ?_, ?_, ?_, ?_, ?_, ⟨rfl, rfl, rfl⟩⟩
  · intro hne hlen
    refine opens_after_failures times _ hne rfl ?_
    show ft ≤ (0 : Int) + times.length
    omega
  · intro hop hle
    have hnot : ¬ (now - cb.lastFailureTime > cb.timeout) := by omega
    simp [BaseCircuitBreaker.execute, hop, hnot]
  · intro hop hgt
    cases o
    · constructor
      · simp [BaseCircuitBreaker.execute, hop, hgt, BaseCircuitBreaker.runFn]
      · simp [BaseCircuitBreaker.execute, hop, hgt, BaseCircuitBreaker.runFn,
          BaseCircuitBreaker.onFailure]
    · constructor
      · simp [BaseCircuitBreaker.execute, hop, hgt, BaseCircuitBreaker.runFn]
      · by_cases hst1 : cb.successThreshold ≤ 1 <;>
          simp [BaseCircuitBreaker.execute, hop, hgt, BaseCircuitBreaker.runFn,
            BaseCircuitBreaker.onSuccess, hst1]
  · intro hho hne hcount
    exact closes_after_successes times cb hne hho (by simpa using hcount)
  · intro hho
    exact execute_halfOpen_fail cb now hho

/-- Witness for C9 at concrete thresholds, clock readings and breakers. -/
theorem C9_circuit_breaker_state_machine_witness :
    (execSeq (NewCircuitBreaker 2 1 10) (allFailures [0, 1])).state =
      CircuitState.opened ∧
    ((NewCircuitBreaker 2 1 10).reset.state = CircuitState.closed) := by
  have h := C9_circuit_breaker_state_machine 2 1 10
      (NewCircuitBreaker 2 1 10) 0 false [0, 1]
  exact ⟨h.2.1 (by decide) (by decide), (h.2.2.2.2.2.2).1⟩

/-- C9 counterexample for the claim as stated: with failure threshold 1 and
timeout 10, a failure at time 0 opens the breaker; the first Execute call
at time 10 — at which point the timeout *has elapsed* (elapsed ≥ timeout,
as the spec words it) — still fails fast with the breaker-open error and
leaves the breaker Open instead of transitioning to HalfOpen. -/
theorem C9_boundary_counterexample :
    ((NewCircuitBreaker 1 1 10).execute 0 false).2.state =
        CircuitState.opened ∧
    ((NewCircuitBreaker 1 1 10).execute 0 false).2.lastFailureTime = 0 ∧
    (10 : Int) - ((NewCircuitBreaker 1 1 10).execute 0 false).2.lastFailureTime ≥
      ((NewCircuitBreaker 1 1 10).execute 0 false).2.timeout ∧
    ((((NewCircuitBreaker 1 1 10).execute 0 false).2).execute 10 true).1 =
      ExecResult.breakerOpen ∧
    ((((NewCircuitBreaker 1 1 10).execute 0 false).2).execute 10 true).2.state =
      CircuitState.opened := by
  refine ⟨rfl, rfl, by decide, rfl, rfl⟩

/-! ## Claim C10: atomicity of Connect -/

/-- The first port with a given name in a port list (the way `findPort`
scans). -/
def portNamed (ports : List Port) (nm : String) : Option Port :=
  match ports with
  | [] => none
  | pt :: rest => if pt.name = nm then some pt else portNamed rest nm

/-- The failure condition of `Connect[T]` in the claim's terms: a named
component or port is missing, or the port types are unequal or differ from
`T`. -/
def connectBad {V : Type} (T : GoType) (p : Pipeline V)
    (fc fp tc tp : String) : Bool :=
  match p.components.get? fc, p.components.get? tc with
  | none, _ => true
  | some _, none => true
  | some src, some dst =>
      match portNamed src.outputs fp, portNamed dst.inputs tp with
      | none, _ => true
      | some _, none => true
      | some op, some ip =>
          decide (op.type ≠ T ∨ ip.type ≠ T ∨ op.type ≠ ip.type)

theorem findPort_none (ports : List Port) (nm : String) (T : GoType)
    (h : portNamed ports nm = none) : ∃ e, findPort ports nm T = Except.error e := by
  induction ports with
  | nil => exact ⟨_, rfl⟩
  | cons pt rest ih =>
      simp only [portNamed] at h
      by_cases hn : pt.name = nm
      · rw [if_pos hn] at h
        exact absurd h (by simp)
      · rw [if_neg hn] at h
        simp only [findPort, if_neg hn]
        exact ih h

theorem findPort_some (ports : List Port) (nm : String) (T : GoType)
    (pt : Port) (h : portNamed ports nm = some pt) :
    (pt.type = T → findPort ports nm T = Except.ok pt) ∧
    (pt.type ≠ T → ∃ e, findPort ports nm T = Except.error e) := by
  induction ports with
  | nil => exact absurd h (by simp [portNamed])
  | cons p0 rest ih =>
      simp only [portNamed] at h
      by_cases hn : p0.name = nm
      · rw [if_pos hn] at h
        obtain rfl : p0 = pt := by injection h
        constructor
        · intro ht
          simp [findPort, hn, ht]
        · intro ht
          simp [findPort, hn, ht]
      · rw [if_neg hn] at h
        simp only [findPort, if_neg hn]
        exact ih h

/-- C10: `Connect[T]` is atomic with respect to failure.  When a named
component or port is missing, or the port types are unequal or differ from
`T`, the call appends one construction error and leaves the connection
list unchanged; otherwise it appends exactly one connection carrying the
configured default buffer size, and appends no error. -/
theorem C10_connect_atomicity {V : Type} (T : GoType) (p : Pipeline V)
    (fc fp tc tp : String) :
    (connectBad T p fc fp tc tp = true →
      (Connect T p fc fp tc tp).connections = p.connections ∧
      ∃ e, (Connect T p fc fp tc tp).errors = p.errors ++ [e]) ∧
    (connectBad T p fc fp tc tp = false →
      (Connect T p fc fp tc tp).errors = p.errors ∧
      (Connect T p fc fp tc tp).connections = p.connections ++
        [{ fromComponent := fc, fromPort := fp, toComponent := tc,
           toPort := tp, transform := none,
           bufferSize := p.config.defaultBufferSize, backpressure := none,
           name := fc ++ "." ++ fp ++ " -> " ++ tc ++ "." ++ tp }]) := by
  cases hsrc : p.components.get? fc with
  | none =>
      have hc : Connect T p fc fp tc tp =
          { p with errors := p.errors ++ ["source component not found: " ++ fc] } := by
        simp only [Connect, hsrc]
      constructor
      · intro _
        rw [hc]
        exact ⟨rfl, _, rfl⟩
      · intro hbad
        simp only [connectBad, hsrc] at hbad
        exact absurd hbad (by decide)
  | some src =>
  cases hdst : p.components.get? tc with
  | none =>
      have hc : Connect T p fc fp tc tp =
          { p with errors := p.errors ++ ["target component not found: " ++ tc] } := by
        simp only [Connect, hsrc, hdst]
      constructor
      · intro _
        rw [hc]
        exact ⟨rfl, _, rfl⟩
      · intro hbad
        simp only [connectBad, hsrc, hdst] at hbad
        exact absurd hbad (by decide)
  | some dst =>
  cases hop : portNamed src.outputs fp with
  | none =>
      obtain ⟨e, he⟩ := findPort_none src.outputs fp T hop
      have hvm : validatePortMatch src fp dst tp T =
          some ("output port validation failed: " ++ ("port not found: " ++ fp)) := by
        have : findPort src.outputs fp T = Except.error ("port not found: " ++ fp) := by
          clear he
          revert hop
          induction src.outputs with
          | nil => intro _; rfl
          | cons p0 rest ih =>
              intro hop
              simp only [portNamed] at hop
              by_cases hn : p0.name = fp
              · rw [if_pos hn] at hop
                exact absurd hop (by simp)
              · rw [if_neg hn] at hop
                simp only [findPort, if_neg hn]
                exact ih hop
        simp only [validatePortMatch, this]
      have hc : Connect T p fc fp tc tp =
          { p with errors := p.errors ++
              ["output port validation failed: " ++ ("port not found: " ++ fp)] } := by
        simp only [Connect, hsrc, hdst, hvm]
      constructor
      · intro _
        rw [hc]
        exact ⟨rfl, _, rfl⟩
      · intro hbad
        simp only [connectBad, hsrc, hdst, hop] at hbad
        exact absurd hbad (by decide)
  | some op =>
  cases hip : portNamed dst.inputs tp with
  | none =>
      constructor
      · intro _
        by_cases hot : op.type = T
        · have hfp := (findPort_some src.outputs fp T op hop).1 hot
          obtain ⟨e, he⟩ := findPort_none dst.inputs tp T hip
          have hvm : validatePortMatch src fp dst tp T =
              some ("input port validation failed: " ++ e) := by
            simp only [validatePortMatch, hfp, he]
          have hc : Connect T p fc fp tc tp =
              { p with errors := p.errors ++
                  ["input port validation failed: " ++ e] } := by
            simp only [Connect, hsrc, hdst, hvm]
          rw [hc]
          exact ⟨rfl, _, rfl⟩
        · obtain ⟨e, he⟩ := (findPort_some src.outputs fp T op hop).2 hot
          have hvm : validatePortMatch src fp dst tp T =
              some ("output port validation failed: " ++ e) := by
            simp only [validatePortMatch, he]
          have hc : Connect T p fc fp tc tp =
              { p with errors := p.errors ++
                  ["output port validation failed: " ++ e] } := by
            simp only [Connect, hsrc, hdst, hvm]
          rw [hc]
          exact ⟨rfl, _, rfl⟩
      · intro hbad
        simp only [connectBad, hsrc, hdst, hop, hip] at hbad
        exact absurd hbad (by decide)
  | some ip =>
      by_cases hot : op.type = T
      · by_cases hit : ip.type = T
        · have heq : op.type = ip.type := by rw [hot, hit]
          have hfp := (findPort_some src.outputs fp T op hop).1 hot
          have hfq := (findPort_some dst.inputs tp T ip hip).1 hit
          have hvm : validatePortMatch src fp dst tp T = none := by
            simp only [validatePortMatch, hfp, hfq, if_pos heq]
          have hc : Connect T p fc fp tc tp =
              { p with connections := p.connections ++
                  [{ fromComponent := fc, fromPort := fp, toComponent := tc,
                     toPort := tp, transform := none,
                     bufferSize := p.config.defaultBufferSize,
                     backpressure := none,
                     name := fc ++ "." ++ fp ++ " -> " ++ tc ++ "." ++ tp }] } := by
            simp only [Connect, hsrc, hdst, hvm]
          constructor
          · intro hbad
            simp only [connectBad, hsrc, hdst, hop, hip] at hbad
            simp [hot, hit, heq] at hbad
          · intro _
            rw [hc]
            exact ⟨rfl, rfl⟩
        · have hfp := (findPort_some src.outputs fp T op hop).1 hot
          obtain ⟨e, he⟩ := (findPort_some dst.inputs tp T ip hip).2 hit
          have hvm : validatePortMatch src fp dst tp T =
              some ("input port validation failed: " ++ e) := by
            simp only [validatePortMatch, hfp, he]
          have hc : Connect T p fc fp tc tp =
              { p with errors := p.errors ++
                  ["input port validation failed: " ++ e] } := by
            simp only [Connect, hsrc, hdst, hvm]
          constructor
          · intro _
            rw [hc]
            exact ⟨rfl, _, rfl⟩
          · intro hbad
            simp only [connectBad, hsrc, hdst, hop, hip] at hbad
            simp [hit] at hbad
      · obtain ⟨e, he⟩ := (findPort_some src.outputs fp T op hop).2 hot
        have hvm : validatePortMatch src fp dst tp T =
            some ("output port validation failed: " ++ e) := by
          simp only [validatePortMatch, he]
        have hc : Connect T p fc fp tc tp =
            { p with errors := p.errors ++
                ["output port validation failed: " ++ e] } := by
          simp only [Connect, hsrc, hdst, hvm]
        constructor
        · intro _
          rw [hc]
          exact ⟨rfl, _, rfl⟩
        · intro hbad
          simp only [connectBad, hsrc, hdst, hop, hip] at hbad
          simp [hot] at hbad

/-- Witness for C10: a concrete successful connect and a concrete failing
connect. -/
theorem C10_connect_atomicity_witness :
    (Connect GoType.tstr
        (((NewPipeline Unit "w").addComponent "s"
            { name := "", inputs := [],
              outputs := [{ name := "out", type := GoType.tstr }],
              process := fun _ => Except.ok [] }).addComponent "t"
            { name := "", inputs := [{ name := "in", type := GoType.tstr }],
              outputs := [],
              process := fun _ => Except.ok [] })
        "s" "out" "t" "in").connections.length = 1 ∧
    (Connect GoType.tstr
        (((NewPipeline Unit "w").addComponent "s"
            { name := "", inputs := [],
              outputs := [{ name := "out", type := GoType.tstr }],
              process := fun _ => Except.ok [] }).addComponent "t"
            { name := "", inputs := [{ name := "in", type := GoType.tstr }],
              outputs := [],
              process := fun _ => Except.ok [] })
        "s" "out" "t" "missing").errors.length = 1 := by
  constructor
  · have h := (C10_connect_atomicity (V := Unit) GoType.tstr
        (((NewPipeline Unit "w").addComponent "s"
            { name := "", inputs := [],
              outputs := [{ name := "out", type := GoType.tstr }],
              process := fun _ => Except.ok [] }).addComponent "t"
            { name := "", inputs := [{ name := "in", type := GoType.tstr }],
              outputs := [],
              process := fun _ => Except.ok [] })
        "s" "out" "t" "in").2 (by rfl)
    rw [h.2]
    rfl
  · have h := (C10_connect_atomicity (V := Unit) GoType.tstr
        (((NewPipeline Unit "w").addComponent "s"
            { name := "", inputs := [],
              outputs := [{ name := "out", type := GoType.tstr }],
              process := fun _ => Except.ok [] }).addComponent "t"
            { name := "", inputs := [{ name := "in", type := GoType.tstr }],
              outputs := [],
              process := fun _ => Except.ok [] })
        "s" "out" "t" "missing").1 (by rfl)
    obtain ⟨hconn, e, he⟩ := h
    rw [he]
    simp [NewPipeline, Pipeline.addComponent]

/-! ## Claim C2: concurrent engine channel allocation -/

/-- The channel-map key of a connection in `ConcurrentEngine.Run`:
`fmt.Sprintf("%s.%s", conn.FromComponent, conn.FromPort)`. -/
def chanKey (c : Connection) : String :=
  c.fromComponent ++ "." ++ c.fromPort

/-- The channel-allocation loop of `ConcurrentEngine.Run` (engine.go): for
each connection, store an unbuffered channel — recorded here by its
capacity, 0 — under the source-endpoint key.  A later connection with the
same source endpoint overwrites the map entry, so fan-out connections
share one key. -/
def allocChannels (conns : List Connection) : SMap Int :=
  conns.foldl (fun m c => m.insert (chanKey c) 0) SMap.empty

/-- First-occurrence deduplication of a key list (the key set of repeated
map insertion, in insertion order). -/
def dedupFirst (l : List String) : List String :=
  l.foldl (fun acc k => if k ∈ acc then acc else acc ++ [k]) []

theorem SMap.keys_insert {α : Type} (m : SMap α) (k : String) (v : α) :
    (m.insert k v).keys =
      if k ∈ m.keys then m.keys else m.keys ++ [k] := by
  induction m with
  | nil => simp [SMap.insert, SMap.keys]
  | cons e rest ih =>
      obtain ⟨k0, v0⟩ := e
      by_cases h0 : k0 = k
      · subst h0
        simp [SMap.insert, SMap.keys]
      · simp only [SMap.insert, if_neg h0, SMap.keys, ih]
        have hmem : (k ∈ SMap.keys ((k0, v0) :: rest)) ↔ k ∈ SMap.keys rest := by
          simp only [SMap.keys, List.mem_cons]
          constructor
          · rintro (h | h)
            · exact absurd h.symm h0
            · exact h
          · exact Or.inr
        by_cases hm : k ∈ SMap.keys rest
        · rw [if_pos hm, if_pos (by simp [SMap.keys]; exact Or.inr hm)]
        · rw [if_neg hm, if_neg (by
            simp only [SMap.keys, List.mem_cons]
            rintro (h | h)
            · exact h0 h.symm
            · exact hm h)]
          simp [SMap.keys]

theorem allocChannels_get?_aux (cs : List Connection) (m : SMap Int)
    (k : String) :
    ((cs.foldl (fun m c => m.insert (chanKey c) 0) m).get? k) =
      (if k ∈ cs.map chanKey then some 0 else m.get? k) := by
  induction cs generalizing m with
  | nil => simp
  | cons c rest ih =>
      simp only [List.foldl_cons, List.map_cons, List.mem_cons]
      rw [ih]
      by_cases hk : k ∈ rest.map chanKey
      · simp [hk]
      · by_cases he : k = chanKey c
        · subst he
          simp [hk, SMap.get?_insert_self]
        · rw [if_neg hk, SMap.get?_insert_ne _ _ _ _
            (fun h => he (Eq.symm h))]
          rw [if_neg (by
            rintro (h | h)
            · exact he h
            · exact hk h)]

theorem allocChannels_keys_aux (cs : List Connection) (m : SMap Int) :
    (cs.foldl (fun m c => m.insert (chanKey c) 0) m).keys =
      (cs.map chanKey).foldl
        (fun acc k => if k ∈ acc then acc else acc ++ [k]) m.keys := by
  induction cs generalizing m with
  | nil => simp
  | cons c rest ih =>
      simp only [List.foldl_cons, List.map_cons]
      rw [ih, SMap.keys_insert]

/-- C2 (amended): the concurrent engine allocates exactly one channel per
*distinct source endpoint* `(FromComponent, FromPort)` among the
connections — fan-out connections from the same source output port share a
single channel — and every allocated channel is unbuffered (capacity 0);
the connection's `BufferSize` and backpressure configuration are never
consulted. -/
theorem C2_concurrent_channel_allocation (conns : List Connection)
    (k : String) :
    ((allocChannels conns).get? k =
      (if k ∈ conns.map chanKey then some 0 else none)) ∧
    (allocChannels conns).keys = dedupFirst (conns.map chanKey) := by
  constructor
  · rw [allocChannels, allocChannels_get?_aux]
    rfl
  · rw [allocChannels, allocChannels_keys_aux]
    rfl

/-- C2 counterexample for the claim as stated: two connections fanning out
from `s.out`, each with buffer size 100, produce a single shared channel
(one map entry, not two) whose capacity is 0, not `max(100, 1)`. -/
theorem C2_counterexample :
    (allocChannels
        [{ fromComponent := "s", fromPort := "out", toComponent := "a",
           toPort := "in", bufferSize := 100 },
         { fromComponent := "s", fromPort := "out", toComponent := "b",
           toPort := "in", bufferSize := 100 }]).keys.length = 1 ∧
    ¬ ((allocChannels
        [{ fromComponent := "s", fromPort := "out", toComponent := "a",
           toPort := "in", bufferSize := 100 },
         { fromComponent := "s", fromPort := "out", toComponent := "b",
           toPort := "in", bufferSize := 100 }]).keys.length = 2) ∧
    (allocChannels
        [{ fromComponent := "s", fromPort := "out", toComponent := "a",
           toPort := "in", bufferSize := 100 },
         { fromComponent := "s", fromPort := "out", toComponent := "b",
           toPort := "in", bufferSize := 100 }]).get? "s.out" = some 0 ∧
    (0 : Int) ≠ max 100 1 := by
  refine ⟨rfl, by decide, rfl, by decide⟩

/-! ## Validator data model (`core/validation.go`) -/

/-- `ValidationErrorType`. -/
inductive ValidationErrorType : Type where
  | unknown : ValidationErrorType
  | missingComponent : ValidationErrorType
  | missingPort : ValidationErrorType
  | typeMismatch : ValidationErrorType
  | cycle : ValidationErrorType
  | disconnectedComponent : ValidationErrorType
  | invalidConfiguration : ValidationErrorType
  | resourceLimit : ValidationErrorType
  deriving DecidableEq, Repr

/-- `ValidationWarningType`. -/
inductive ValidationWarningType : Type where
  | unused : ValidationWarningType
  | performance : ValidationWarningType
  | configuration : ValidationWarningType
  deriving DecidableEq, Repr

/-- `PipelineValidationError`. -/
structure PipelineValidationError : Type where
  type : ValidationErrorType
  component : String := ""
  port : String := ""
  connection : String := ""
  message : String := ""
  severity : Severity
  deriving DecidableEq, Repr

/-- `ValidationWarning`. -/
structure ValidationWarning : Type where
  type : ValidationWarningType
  component : String := ""
  message : String := ""
  deriving DecidableEq, Repr

/-- `GraphNode`: a component node with its dependency and dependent lists
(the `Level` field is written only after a successful topological sort and
read by nothing; it is omitted). -/
structure GraphNode (V : Type) : Type where
  name : String
  component : Component V
  dependencies : List String
  dependents : List String

/-- `GraphEdge` (the weight is always 1). -/
structure GraphEdge : Type where
  src : String
  dst : String
  conn : Connection
  weight : Int := 1

/-- `ComponentGraph`. -/
structure ComponentGraph (V : Type) : Type where
  nodes : SMap (GraphNode V)
  edges : List GraphEdge
  topologyOrder : List String
  criticalPath : List String

/-- `PipelineValidator` (`NewPipelineValidator` hard-codes
`strictMode = true`, `allowCycles = false`; the pipeline configuration is
never copied into it). -/
structure PipelineValidator : Type where
  strictMode : Bool
  allowCycles : Bool
  deriving DecidableEq, Repr

/-- `NewPipelineValidator`. -/
def NewPipelineValidator : PipelineValidator :=
  { strictMode := true, allowCycles := false }

/-- `ValidationResult` (`buildComponentGraph` in the source can never
return a non-nil error, so the graph is always present). -/
structure ValidationResult (V : Type) : Type where
  valid : Bool
  errors : List PipelineValidationError
  warnings : List ValidationWarning
  componentGraph : ComponentGraph V

/-! ## Graph construction (`buildComponentGraph`) -/

/-- Node creation: one `GraphNode` per component, in map order. -/
def initNodes {V : Type} : SMap (Component V) → SMap (GraphNode V)
  | [] => []
  | (n, c) :: rest =>
      (n, { name := n, component := c, dependencies := [], dependents := [] })
        :: initNodes rest

/-- Edge creation: for each connection append a `GraphEdge` and, when the
endpoint components exist as nodes, extend their dependent/dependency
lists. -/
def graphAfterConns {V : Type} (nodes : SMap (GraphNode V))
    (conns : List Connection) : SMap (GraphNode V) × List GraphEdge :=
  conns.foldl
    (fun st c =>
      let ns := st.1
      let es := st.2 ++ [{ src := c.fromComponent, dst := c.toComponent,
                           conn := c, weight := 1 }]
      let ns1 := match ns.get? c.fromComponent with
        | some nd => ns.insert c.fromComponent
            { nd with dependents := nd.dependents ++ [c.toComponent] }
        | none => ns
      let ns2 := match ns1.get? c.toComponent with
        | some nd => ns1.insert c.toComponent
            { nd with dependencies := nd.dependencies ++ [c.fromComponent] }
        | none => ns1
      (ns2, es))
    (nodes, [])

/-- In-degree map used by `calculateTopologyOrder`: zero for each node, then
one increment per edge target (creating missing entries, so a target that is
not a node gets its own entry). -/
def initInDegree {V : Type} (nodes : SMap (GraphNode V))
    (edges : List GraphEdge) : SMap Int :=
  let base := nodes.foldl (fun m e => m.insert e.1 0) SMap.empty
  edges.foldl (fun m e => m.insert e.dst ((m.get? e.dst).getD 0 + 1)) base

/-- One Kahn dequeue step: decrement every dependent of the dequeued node
(missing entries read as zero), enqueueing each dependent whose count
reaches exactly zero. -/
def kahnStepDecs (deps : List String) (inDeg : SMap Int)
    (queue : List String) : SMap Int × List String :=
  deps.foldl
    (fun st dep =>
      let nv := (st.1.get? dep).getD 0 - 1
      (st.1.insert dep nv, if nv = 0 then st.2 ++ [dep] else st.2))
    (inDeg, queue)

/-- The Kahn worklist loop, parameterized by the dependents lookup
(`depf`).  Fuel-based; the fuel passed by callers strictly exceeds the
number of possible iterations, so the zero-fuel branch is unreachable. -/
def kahnLoop (depf : String → List String) :
    Nat → List String → SMap Int → List String → List String
  | 0, _, _, acc => acc
  | _ + 1, [], _, acc => acc
  | fuel + 1, cur :: rest, inDeg, acc =>
      let st := kahnStepDecs (depf cur) inDeg rest
      kahnLoop depf fuel st.2 st.1 (acc ++ [cur])

/-- The dependents lookup of `calculateTopologyOrder`: the `Dependents`
list of the node, or nothing when the dequeued name is not a node. -/
def validatorDepf {V : Type} (nodes : SMap (GraphNode V)) :
    String → List String :=
  fun n => match nodes.get? n with
    | some nd => nd.dependents
    | none => []

/-- `calculateTopologyOrder`: Kahn's algorithm.  `qEnum` is the iteration
order of the in-degree map used to seed the queue (Go map iteration order,
randomized per run); `none` models the "cycle detected" error return.
After the loop, an order shorter (or longer) than the node count reports a
cycle. -/
def calculateTopologyOrder {V : Type} (nodes : SMap (GraphNode V))
    (edges : List GraphEdge) (qEnum : List String) : Option (List String) :=
  let inDeg := initInDegree nodes edges
  let queue := qEnum.filter (fun n => (inDeg.get? n).getD 0 = 0)
  let order := kahnLoop (validatorDepf nodes)
    (qEnum.length + edges.length + 1) queue inDeg []
  if order.length = nodes.keys.length then some order else none

/-- Critical-path reconstruction: walk the predecessor map backwards,
prepending each node; the empty string (Go's zero value for a missing
predecessor entry) terminates the walk.  Fuel exceeds the walk length at
every call site. -/
def walkPreds (preds : SMap String) : Nat → String → List String → List String
  | 0, _, acc => acc
  | fuel + 1, cur, acc =>
      if cur = "" then acc
      else walkPreds preds fuel ((preds.get? cur).getD "") (cur :: acc)

/-- `calculateCriticalPath`: relax unit edge weights along the topological
order, find the node of maximum distance (first maximum in the distance
map's enumeration order; the zero value "" when every distance is 0), and
reconstruct backwards through the predecessor map. -/
def calculateCriticalPath {V : Type} (nodes : SMap (GraphNode V))
    (order : List String) : List String :=
  if order.isEmpty then []
  else
    let dist0 : SMap Int := nodes.foldl (fun m e => m.insert e.1 0) SMap.empty
    let st := order.foldl
      (fun (st : SMap Int × SMap String) cur =>
        match nodes.get? cur with
        | some nd =>
            nd.dependents.foldl
              (fun (st : SMap Int × SMap String) dep =>
                let nd' := (st.1.get? cur).getD 0 + 1
                if nd' > (st.1.get? dep).getD 0 then
                  (st.1.insert dep nd', st.2.insert dep cur)
                else st)
              st
        | none => st)
      (dist0, SMap.empty)
    let endNode := (st.1.foldl
      (fun (best : Int × String) e =>
        if e.2 > best.1 then (e.2, e.1) else best) (0, "")).2
    walkPreds st.2 (st.2.length + st.1.length + 2) endNode []

/-- `buildComponentGraph`: nodes from components, edges from connections;
a failed topological sort (a cycle) leaves the topology order empty and
skips the critical path, but never fails the build. -/
def buildComponentGraph {V : Type} (p : Pipeline V) (qEnum : List String) :
    ComponentGraph V :=
  let nodes0 := initNodes p.components
  let st := graphAfterConns nodes0 p.connections
  match calculateTopologyOrder st.1 st.2 qEnum with
  | none =>
      { nodes := st.1, edges := st.2, topologyOrder := [], criticalPath := [] }
  | some order =>
      { nodes := st.1, edges := st.2, topologyOrder := order,
        criticalPath := calculateCriticalPath st.1 order }

/-! ## Validation passes -/

/-- Whether some connection feeds the given (component, input port). -/
def hasInbound (conns : List Connection) (name port : String) : Bool :=
  conns.any (fun c => c.toComponent == name && c.toPort == port)

/-- Whether some connection leaves the given (component, output port). -/
def hasOutbound (conns : List Connection) (name port : String) : Bool :=
  conns.any (fun c => c.fromComponent == name && c.fromPort == port)

/-- `validateComponents`, restricted to one component: its `Validate`
error if any, a MissingPort error for each required input port with no
inbound connection, and an Unused warning for each output port with no
outbound connection. -/
def componentDiags {V : Type} (p : Pipeline V) (name : String)
    (comp : Component V) :
    List PipelineValidationError × List ValidationWarning :=
  let vErrs : List PipelineValidationError :=
    match comp.validateErr with
    | some e =>
        [{ type := ValidationErrorType.invalidConfiguration, component := name,
           message := "Component validation failed: " ++ e,
           severity := Severity.error }]
    | none => []
  let portErrs := comp.inputs.foldl
    (fun acc port =>
      if port.required && !(hasInbound p.connections name port.name) then
        acc ++ [{ type := ValidationErrorType.missingPort, component := name,
                  port := port.name,
                  message := "Required input port is not connected: " ++ port.name,
                  severity := Severity.error }]
      else acc) []
  let warns := comp.outputs.foldl
    (fun acc port =>
      if !(hasOutbound p.connections name port.name) then
        acc ++ [{ type := ValidationWarningType.unused, component := name,
                  message := "Output port is not connected: " ++ port.name }]
      else acc) []
  (vErrs ++ portErrs, warns)

/-- `validateComponents`: accumulate per-component diagnostics in the
component map's enumeration order. -/
def validateComponents {V : Type} (p : Pipeline V) :
    List PipelineValidationError × List ValidationWarning :=
  p.components.foldl
    (fun acc e =>
      let d := componentDiags p e.1 e.2
      (acc.1 ++ d.1, acc.2 ++ d.2)) ([], [])

/-- `validateConnections`, restricted to one connection: Critical errors
for missing endpoint components (stopping further checks on this
connection), Error for missing ports (likewise), an Error TypeMismatch
when the port reflect types differ, and a Configuration warning for a
non-positive buffer size. -/
def connectionDiags {V : Type} (p : Pipeline V) (conn : Connection) :
    List PipelineValidationError × List ValidationWarning :=
  match p.components.get? conn.fromComponent with
  | none =>
      ([{ type := ValidationErrorType.missingComponent,
          component := conn.fromComponent, connection := conn.name,
          message := "Source component not found: " ++ conn.fromComponent,
          severity := Severity.critical }], [])
  | some fromComp =>
  match p.components.get? conn.toComponent with
  | none =>
      ([{ type := ValidationErrorType.missingComponent,
          component := conn.toComponent, connection := conn.name,
          message := "Target component not found: " ++ conn.toComponent,
          severity := Severity.critical }], [])
  | some toComp =>
  match portNamed fromComp.outputs conn.fromPort with
  | none =>
      ([{ type := ValidationErrorType.missingPort,
          component := conn.fromComponent, port := conn.fromPort,
          connection := conn.name,
          message := "Output port not found: " ++ conn.fromPort,
          severity := Severity.error }], [])
  | some fromPort =>
  match portNamed toComp.inputs conn.toPort with
  | none =>
      ([{ type := ValidationErrorType.missingPort,
          component := conn.toComponent, port := conn.toPort,
          connection := conn.name,
          message := "Input port not found: " ++ conn.toPort,
          severity := Severity.error }], [])
  | some toPort =>
      ((if fromPort.type ≠ toPort.type then
          [{ type := ValidationErrorType.typeMismatch,
             component := conn.fromComponent, port := conn.fromPort,
             connection := conn.name,
             message := "Type mismatch", severity := Severity.error }]
        else []),
       (if conn.bufferSize ≤ 0 then
          [{ type := ValidationWarningType.configuration,
             component := conn.fromComponent,
             message := "Connection has invalid buffer size" }]
        else []))

/-- `validateConnections`: accumulate per-connection diagnostics in
connection order. -/
def validateConnections {V : Type} (p : Pipeline V) :
    List PipelineValidationError × List ValidationWarning :=
  p.connections.foldl
    (fun acc c =>
      let d := connectionDiags p c
      (acc.1 ++ d.1, acc.2 ++ d.2)) ([], [])

/-- `validateTypes`, restricted to one connection: when both endpoint
components and ports exist and both ports declare schemas, an Error
TypeMismatch if the schemas are not compatible. -/
def typeDiags {V : Type} (p : Pipeline V) (conn : Connection) :
    List PipelineValidationError :=
  match p.components.get? conn.fromComponent,
        p.components.get? conn.toComponent with
  | some fromComp, some toComp =>
      (match portNamed fromComp.outputs conn.fromPort,
             portNamed toComp.inputs conn.toPort with
       | some fromPort, some toPort =>
           (match fromPort.schema, toPort.schema with
            | some s1, some s2 =>
                if !(s1.compatible s2) then
                  [{ type := ValidationErrorType.typeMismatch,
                     component := conn.fromComponent, port := conn.fromPort,
                     connection := conn.name,
                     message := "Schema incompatibility",
                     severity := Severity.error }]
                else []
            | _, _ => [])
       | _, _ => [])
  | _, _ => []

/-- `validateTypes` over all connections. -/
def validateTypes {V : Type} (p : Pipeline V) :
    List PipelineValidationError :=
  p.connections.foldl (fun acc c => acc ++ typeDiags p c) []

/-! ## Cycle detection DFS (`detectCycles` / `hasCycle`) -/

/-- The directed adjacency built from connections:
`graph[from] = append(graph[from], to)` in connection order. -/
def cycleAdj (conns : List Connection) : String → List String :=
  fun n => (conns.filter (fun c => c.fromComponent == n)).map
    (fun c => c.toComponent)

mutual
/-- One `hasCycle` call: mark the node visited, push it on the recursion
stack and scan its neighbors.  Fuel exhaustion conservatively reports a
cycle; the fuel used at every call site strictly exceeds the recursion
depth, so the zero branch is unreachable. -/
def dfsVisit (adj : String → List String) :
    Nat → String → List String → List String → Bool × List String
  | 0, _, vis, _ => (true, vis)
  | fuel + 1, v, vis, st => dfsNbrs adj fuel (adj v) (v :: vis) (v :: st)

/-- The neighbor scan of `hasCycle`: an unvisited neighbor is explored
recursively; a visited neighbor on the recursion stack reports a cycle. -/
def dfsNbrs (adj : String → List String) :
    Nat → List String → List String → List String → Bool × List String
  | 0, _, vis, _ => (true, vis)
  | _ + 1, [], vis, _ => (false, vis)
  | fuel + 1, n :: rest, vis, st =>
      if n ∈ vis then
        if n ∈ st then (true, vis) else dfsNbrs adj fuel rest vis st
      else
        match dfsVisit adj fuel n vis st with
        | (true, vis') => (true, vis')
        | (false, vis') => dfsNbrs adj fuel rest vis' st
end

/-- The DFS fuel used by `detectCycles`: strictly larger than any
reachable recursion depth for the pipeline at hand. -/
def cycleFuel {V : Type} (p : Pipeline V) : Nat :=
  (p.components.length + p.connections.length + 1) *
    (p.connections.length + 2)

/-- `detectCycles`: run the DFS from every component (sharing the visited
set), reporting whether any run finds a cycle.  The Go version returns an
error naming a component; only the presence of the error is modelled. -/
def detectCycles {V : Type} (p : Pipeline V) : Bool :=
  (p.components.foldl
    (fun (st : Bool × List String) e =>
      if st.1 then st
      else if e.1 ∈ st.2 then st
      else dfsVisit (cycleAdj p.connections) (cycleFuel p) e.1 st.2 [])
    (false, [])).1

/-! ## Connectivity analysis (warnings only) -/

/-- The undirected adjacency of `validateConnectivity`: each connection
appends its target to the source's list and its source to the target's
list, in connection order. -/
def undirAdj (conns : List Connection) : String → List String :=
  fun n => conns.foldl
    (fun acc c =>
      (acc ++ (if c.fromComponent == n then [c.toComponent] else [])) ++
        (if c.toComponent == n then [c.fromComponent] else []))
    []

mutual
/-- One `dfsConnectivity` call: mark visited, append to the group, scan
neighbors. -/
def connVisit (adj : String → List String) :
    Nat → String → List String → List String → List String × List String
  | 0, _, vis, grp => (vis, grp)
  | fuel + 1, v, vis, grp => connNbrs adj fuel (adj v) (v :: vis) (grp ++ [v])

/-- The neighbor scan of `dfsConnectivity`. -/
def connNbrs (adj : String → List String) :
    Nat → List String → List String → List String → List String × List String
  | 0, _, vis, grp => (vis, grp)
  | _ + 1, [], vis, grp => (vis, grp)
  | fuel + 1, n :: rest, vis, grp =>
      if n ∈ vis then connNbrs adj fuel rest vis grp
      else
        let st := connVisit adj fuel n vis grp
        connNbrs adj fuel rest st.1 st.2
end

/-- `validateConnectivity`: find undirected connected components; when
there is more than one, warn per group (naming the component for
singleton groups). -/
def validateConnectivity {V : Type} (p : Pipeline V) :
    List ValidationWarning :=
  if p.components.isEmpty then []
  else
    let adj := undirAdj p.connections
    let fuel := (p.components.length + 2 * p.connections.length + 2) *
      (2 * p.connections.length + 2)
    let groups := (p.components.foldl
      (fun (st : List String × List (List String)) e =>
        if e.1 ∈ st.1 then st
        else
          let r := connVisit adj fuel e.1 st.1 []
          (r.1, st.2 ++ [r.2]))
      ([], [])).2
    if groups.length > 1 then
      groups.foldl
        (fun acc grp =>
          acc ++ (match grp with
            | [single] =>
                [{ type := ValidationWarningType.configuration,
                   component := single,
                   message := "Component is disconnected from the main pipeline" }]
            | _ =>
                [{ type := ValidationWarningType.configuration,
                   message := "Disconnected component group" }]))
        []
    else []

/-- `validateGraph`: a Cycle error when cycles are not allowed and the DFS
finds one, plus the connectivity warnings. -/
def validateGraph {V : Type} (pv : PipelineValidator) (p : Pipeline V) :
    List PipelineValidationError × List ValidationWarning :=
  ((if !pv.allowCycles && detectCycles p then
      [{ type := ValidationErrorType.cycle,
         message := "cycle detected in pipeline graph",
         severity := Severity.error }]
    else []),
   validateConnectivity p)

/-- `validateConfiguration`. -/
def validateConfiguration {V : Type} (p : Pipeline V) :
    List PipelineValidationError × List ValidationWarning :=
  let c := p.config
  (((if c.maxConcurrency ≤ 0 then
      [{ type := ValidationErrorType.invalidConfiguration,
         message := "Invalid MaxConcurrency", severity := Severity.error }]
    else []) ++
    (if c.defaultBufferSize ≤ 0 then
      [{ type := ValidationErrorType.invalidConfiguration,
         message := "Invalid DefaultBufferSize", severity := Severity.error }]
    else []) ++
    (if c.maxBufferSize < c.defaultBufferSize then
      [{ type := ValidationErrorType.invalidConfiguration,
         message := "MaxBufferSize is less than DefaultBufferSize",
         severity := Severity.error }]
    else [])),
   (if c.timeout ≤ 0 then
      [{ type := ValidationWarningType.configuration,
         message := "Timeout may cause issues" }]
    else []))

/-- `validateResources` (warnings only). -/
def validateResources {V : Type} (p : Pipeline V) : List ValidationWarning :=
  let c := p.config
  (if c.memoryLimit ≤ 0 then
    [{ type := ValidationWarningType.configuration,
       message := "No memory limit set" }]
  else []) ++
  (if c.cpuLimit ≤ 0 then
    [{ type := ValidationWarningType.configuration,
       message := "No CPU limit set" }]
  else []) ++
  (let est : Int := p.components.length * 1024 * 1024
   if c.memoryLimit > 0 && est > c.memoryLimit then
     [{ type := ValidationWarningType.performance,
        message := "Estimated memory usage may exceed limit" }]
   else [])

/-- `ValidateComprehensive`: build the graph (total), run all passes, and
mark the result invalid when any accumulated error has severity Critical
or Error.  `qEnum` is the iteration order of the in-degree map inside the
topological sort. -/
def ValidateComprehensive {V : Type} (p : Pipeline V)
    (qEnum : List String) : ValidationResult V :=
  let graph := buildComponentGraph p qEnum
  let comp := validateComponents p
  let conn := validateConnections p
  let typ := validateTypes p
  let graphD := validateGraph NewPipelineValidator p
  let cfg := validateConfiguration p
  let res := validateResources p
  let errors := comp.1 ++ conn.1 ++ typ ++ graphD.1 ++ cfg.1
  let warnings := comp.2 ++ conn.2 ++ graphD.2 ++ cfg.2 ++ res
  { valid := !(errors.any (fun e =>
      e.severity == Severity.critical || e.severity == Severity.error))
    errors := errors
    warnings := warnings
    componentGraph := graph }

/-! ## Claim C5: TypeMismatch and transforms -/

theorem mem_pair_foldl_fst {α β γ : Type} (f : β → List α) (g : β → List γ)
    (l : List β) (acc : List α × List γ) (x : α) :
    (x ∈ (l.foldl (fun acc c => (acc.1 ++ f c, acc.2 ++ g c)) acc).1) ↔
      (x ∈ acc.1 ∨ ∃ b ∈ l, x ∈ f b) := by
  induction l generalizing acc with
  | nil => simp
  | cons c rest ih =>
      simp only [List.foldl_cons]
      rw [ih]
      simp only [List.mem_append, List.mem_cons]
      constructor
      · rintro ((h | h) | ⟨b, hb, hx⟩)
        · exact Or.inl h
        · exact Or.inr ⟨c, Or.inl rfl, h⟩
        · exact Or.inr ⟨b, Or.inr hb, hx⟩
      · rintro (h | ⟨b, (rfl | hb), hx⟩)
        · exact Or.inl (Or.inl h)
        · exact Or.inl (Or.inr hx)
        · exact Or.inr ⟨b, hb, hx⟩

theorem validateConnections_errors_mem {V : Type} (p : Pipeline V)
    (conn : Connection) (e : PipelineValidationError)
    (hc : conn ∈ p.connections) (he : e ∈ (connectionDiags p conn).1) :
    e ∈ (validateConnections p).1 := by
  unfold validateConnections
  rw [mem_pair_foldl_fst (fun c => (connectionDiags p c).1)
    (fun c => (connectionDiags p c).2)]
  exact Or.inr ⟨conn, hc, he⟩

theorem validateComprehensive_errors {V : Type} (p : Pipeline V)
    (qEnum : List String) :
    (ValidateComprehensive p qEnum).errors =
      (validateComponents p).1 ++ (validateConnections p).1 ++
        validateTypes p ++ (validateGraph NewPipelineValidator p).1 ++
        (validateConfiguration p).1 := rfl

/-- C5 (amended): for a connection whose endpoint components and ports
exist, the per-connection validator emits a TypeMismatch error **iff** the
two ports' reflect types differ — the declared transform is never
consulted (the result is invariant under changing the transform), so a
connection with unequal port types and a declared transform is still
rejected.  Any such per-connection error surfaces in the comprehensive
result. -/
theorem C5_type_mismatch_iff {V : Type} (p : Pipeline V) (conn : Connection)
    (fromComp toComp : Component V) (fromPort toPort : Port)
    (t : Option String) (qEnum : List String)
    (hf : p.components.get? conn.fromComponent = some fromComp)
    (ht : p.components.get? conn.toComponent = some toComp)
    (hfp : portNamed fromComp.outputs conn.fromPort = some fromPort)
    (htp : portNamed toComp.inputs conn.toPort = some toPort) :
    (((connectionDiags p conn).1.any
        (fun e => e.type == ValidationErrorType.typeMismatch)) = true ↔
      fromPort.type ≠ toPort.type) ∧
    connectionDiags p { conn with transform := t } = connectionDiags p conn ∧
    (conn ∈ p.connections →
      ∀ e ∈ (connectionDiags p conn).1,
        e ∈ (ValidateComprehensive p qEnum).errors) := by
  refine ⟨?_, rfl, ?_⟩
  · by_cases hty : fromPort.type = toPort.type
    · simp only [connectionDiags, hf, ht, hfp, htp, hty]
      simp
    · simp only [connectionDiags, hf, ht, hfp, htp, if_pos hty]
      simp [hty]
  · intro hc e he
    rw [validateComprehensive_errors]
    have hm := validateConnections_errors_mem p conn e hc he
    simp [List.mem_append, hm]

/-- Concrete components for the C5 instances: a string producer and an
int consumer. -/
def srcC5 : Component Unit :=
  { name := "src", inputs := [],
    outputs := [{ name := "out", type := GoType.tstr }],
    process := fun _ => Except.ok [] }

/-- Concrete int-consuming component for the C5 instances. -/
def dstC5 : Component Unit :=
  { name := "dst", inputs := [{ name := "in", type := GoType.tint }],
    outputs := [], process := fun _ => Except.ok [] }

/-- Concrete mismatched connection without a transform (C5 witness). -/
def connC5w : Connection :=
  { fromComponent := "src", fromPort := "out", toComponent := "dst",
    toPort := "in", bufferSize := 100, name := "c" }

/-- Concrete pipeline for the C5 witness. -/
def pC5w : Pipeline Unit :=
  { name := "w", components := [("src", srcC5), ("dst", dstC5)],
    connections := [connC5w], errors := [],
    config := NewDefaultPipelineConfig }

/-- Witness for C5 at a concrete pipeline with a genuine type mismatch. -/
theorem C5_type_mismatch_iff_witness :
    ((connectionDiags pC5w connC5w).1.any
      (fun e => e.type == ValidationErrorType.typeMismatch)) = true := by
  have h := (C5_type_mismatch_iff pC5w connC5w srcC5 dstC5
      { name := "out", type := GoType.tstr }
      { name := "in", type := GoType.tint }
      none ["src", "dst"] rfl rfl rfl rfl).1
  exact h.mpr (by decide)

/-- Concrete mismatched connection **with** a declared transform (C5
counterexample). -/
def connC5 : Connection :=
  { fromComponent := "src", fromPort := "out", toComponent := "dst",
    toPort := "in", transform := some "xform", bufferSize := 100,
    name := "c" }

/-- The concrete pipeline of the C5 counterexample: a string output
connected to an int input with a declared transform. -/
def pC5 : Pipeline Unit :=
  { name := "p", components := [("src", srcC5), ("dst", dstC5)],
    connections := [connC5], errors := [],
    config := NewDefaultPipelineConfig }

/-- C5 counterexample for the claim as stated: the connection of `pC5`
declares a transform and has unequal port types, yet the validator emits a
TypeMismatch error for it and the comprehensive result is invalid — the
transform does not exempt it. -/
theorem C5_counterexample :
    (pC5.connections.map (fun c => c.transform)) = [some "xform"] ∧
    ((connectionDiags pC5 connC5).1.map (fun e => e.type)) =
      [ValidationErrorType.typeMismatch] ∧
    (ValidateComprehensive pC5 ["src", "dst"]).valid = false := by
  refine ⟨rfl, rfl, rfl⟩

/-! ## Claim C4: fan-in at a sink input port -/

/-- A string-producing component for the C4 instance. -/
def srcC4 : Component Unit :=
  { name := "", inputs := [],
    outputs := [{ name := "out", type := GoType.tstr }],
    process := fun _ => Except.ok [] }

/-- A string-consuming component with a required input for the C4
instance. -/
def sinkC4 : Component Unit :=
  { name := "", inputs := [{ name := "in", type := GoType.tstr, required := true }],
    outputs := [], process := fun _ => Except.ok [] }

/-- The C4 pipeline: two sources both connected — via the public
`Connect` API — into the same sink input port `t.in`. -/
def pC4 : Pipeline Unit :=
  Connect GoType.tstr
    (Connect GoType.tstr
      ((((NewPipeline Unit "p").addComponent "s1" srcC4).addComponent
          "s2" srcC4).addComponent "t" sinkC4)
      "s1" "out" "t" "in")
    "s2" "out" "t" "in"

/-- C4 failing input, evaluated: the construction API accepts the second
connection into `(t, in)` (no construction error, both connections
recorded), and comprehensive validation reports **no diagnostics at all**
and marks the pipeline valid.  The claimed invariant — fan-in is refused
by `Connect` or flagged by the validator — holds in neither place. -/
theorem C4_fanin_accepted :
    pC4.errors = [] ∧
    (pC4.connections.map (fun c => (c.toComponent, c.toPort))) =
      [("t", "in"), ("t", "in")] ∧
    (ValidateComprehensive pC4 ["s1", "s2", "t"]).valid = true ∧
    (ValidateComprehensive pC4 ["s1", "s2", "t"]).errors = [] := by
  refine ⟨rfl, rfl, rfl, rfl⟩

/-! ## Execution engines (`execution/graph.go`, `execution/engine.go`) -/

/-- `Graph` from `execution/graph.go`: component nodes, adjacency lists
(appended per connection) and in-degrees. -/
structure ExecGraph (V : Type) : Type where
  nodes : SMap (Component V)
  edges : SMap (List String)
  inDegree : SMap Int

/-- `NewGraph`: nodes and zero in-degrees from the components; one
adjacency entry and one in-degree increment per connection (targets that
are not components get fresh in-degree entries). -/
def NewGraph {V : Type} (p : Pipeline V) : ExecGraph V :=
  let nodes := p.components.foldl (fun m e => m.insert e.1 e.2) SMap.empty
  let inDeg0 := p.components.foldl (fun m e => m.insert e.1 (0 : Int)) SMap.empty
  let st := p.connections.foldl
    (fun (st : SMap (List String) × SMap Int) c =>
      (st.1.insert c.fromComponent
         ((st.1.get? c.fromComponent).getD [] ++ [c.toComponent]),
       st.2.insert c.toComponent ((st.2.get? c.toComponent).getD 0 + 1)))
    (SMap.empty, inDeg0)
  { nodes := nodes, edges := st.1, inDegree := st.2 }

/-- Total number of adjacency entries of an `ExecGraph` (used only to size
the Kahn fuel). -/
def ExecGraph.totalAdj {V : Type} (g : ExecGraph V) : Nat :=
  (g.edges : List (String × List String)).foldl (fun a e => a + e.2.length) 0

/-- `Graph.TopologicalSort`: Kahn's algorithm over the adjacency map;
`qEnum` is the iteration order of the in-degree map seeding the queue;
`none` models the "graph has a cycle" error, returned when the produced
order does not cover every node. -/
def ExecGraph.topologicalSort {V : Type} (g : ExecGraph V)
    (qEnum : List String) : Option (List String) :=
  let queue := qEnum.filter (fun n => (g.inDegree.get? n).getD 0 = 0)
  let order := kahnLoop (fun n => (g.edges.get? n).getD [])
    (qEnum.length + g.totalAdj + 1) queue g.inDegree []
  if order.length = g.nodes.length then some order else none

/-- A snapshot of the sequential engine's run state: the shared value map
keyed `component.port`, the remaining external input streams, the log of
writes to external output channels, and the components whose `Process`
has been invoked, in order. -/
structure SeqState (V : Type) : Type where
  data : SMap (Option V)
  extIn : SMap (List (Option V))
  outLog : List (String × Option V)
  processed : List String

/-- Outcome of a sequential run: `blocked` models a read from an external
input channel that never delivers (the Go code blocks forever there);
`failed` carries Go's non-nil error return. -/
inductive SeqOutcome (V : Type) : Type where
  | blocked : SeqOutcome V
  | failed : String → SeqState V → SeqOutcome V
  | finished : SeqState V → SeqOutcome V

/-- The inner connection scan of the sequential gather for one input
port: every matching connection overwrites the entry (the last match
wins), reading the value map — a missing key reads as `nil`.  A port with
no matching connection leaves the input map without the key. -/
def seqGatherPort {V : Type} (conns : List Connection) (name : String)
    (data : SMap (Option V)) (acc : SMap (Option V)) (port : Port) :
    SMap (Option V) :=
  conns.foldl
    (fun acc c =>
      if c.toComponent == name && c.toPort == port.name then
        acc.insert port.name
          ((data.get? (c.fromComponent ++ "." ++ c.fromPort)).getD none)
      else acc)
    acc

/-- The gather loop of `DefaultEngine.Run` for one component: each input
port first consults the external input channel map (a blocking read of
one value — `none` result when the stream is empty and the read never
returns), else scans the connections. -/
def seqGatherPorts {V : Type} (conns : List Connection) (name : String)
    (data : SMap (Option V)) :
    List Port → SMap (Option V) → SMap (List (Option V)) →
      Option (SMap (Option V) × SMap (List (Option V)))
  | [], acc, ext => some (acc, ext)
  | port :: rest, acc, ext =>
      match ext.get? port.name with
      | some stream =>
          match stream with
          | [] => none
          | v :: vs =>
              seqGatherPorts conns name data rest (acc.insert port.name v)
                (ext.insert port.name vs)
      | none =>
          seqGatherPorts conns name data rest
            (seqGatherPort conns name data acc port) ext

/-- The publish loop of `DefaultEngine.Run`: write each output entry into
the value map under `name.port` and, when an external output channel of
that port name exists, append to its log (the channel is modelled as
always ready). -/
def seqEmit {V : Type} (extOutNames : List String) (name : String)
    (outs : List (String × Option V))
    (st : SMap (Option V) × List (String × Option V)) :
    SMap (Option V) × List (String × Option V) :=
  outs.foldl
    (fun st e =>
      (st.1.insert (name ++ "." ++ e.1) e.2,
       if e.1 ∈ extOutNames then st.2 ++ [(e.1, e.2)] else st.2))
    st

/-- The main loop of `DefaultEngine.Run` over the sorted component names.
A sorted name that is not a component dereferences a nil interface in Go
(a panic), modelled as a failure. -/
def seqLoop {V : Type} (components : SMap (Component V))
    (conns : List Connection) (extOutNames : List String) :
    List String → SeqState V → SeqOutcome V
  | [], st => SeqOutcome.finished st
  | name :: rest, st =>
      match components.get? name with
      | none => SeqOutcome.failed ("nil component: " ++ name) st
      | some comp =>
          match seqGatherPorts conns name st.data comp.inputs SMap.empty
              st.extIn with
          | none => SeqOutcome.blocked
          | some gathered =>
              match comp.process gathered.1 with
              | Except.error e =>
                  SeqOutcome.failed
                    ("error executing component " ++ name ++ ": " ++ e)
                    { st with extIn := gathered.2,
                              processed := st.processed ++ [name] }
              | Except.ok outs =>
                  let de := seqEmit extOutNames name outs (st.data, st.outLog)
                  seqLoop components conns extOutNames rest
                    { data := de.1, extIn := gathered.2, outLog := de.2,
                      processed := st.processed ++ [name] }

/-- `DefaultEngine.Run`: build the graph, topologically sort it (failing
with the sort error on a cycle, before touching any component), then
execute the components in order.  No validation of any kind happens
here. -/
def DefaultEngineRun {V : Type} (p : Pipeline V) (qEnum : List String)
    (extIn : SMap (List (Option V))) (extOutNames : List String) :
    SeqOutcome V :=
  match (NewGraph p).topologicalSort qEnum with
  | none =>
      SeqOutcome.failed "error sorting pipeline graph: graph has a cycle"
        { data := SMap.empty, extIn := extIn, outLog := [], processed := [] }
  | some sorted =>
      seqLoop p.components p.connections extOutNames sorted
        { data := SMap.empty, extIn := extIn, outLog := [], processed := [] }

/-! ## Claim C7: the sequential engine and validation -/

/-- C7 (amended): `DefaultEngine.Run` performs no validation.  It fails
before invoking any component's process exactly when the topological sort
fails (a cyclic graph); in that case the returned state records no
processed component, no published value and no external output. -/
theorem C7_sequential_engine_no_validation {V : Type} (p : Pipeline V)
    (qEnum : List String) (extIn : SMap (List (Option V)))
    (extOutNames : List String)
    (h : (NewGraph p).topologicalSort qEnum = none) :
    DefaultEngineRun p qEnum extIn extOutNames =
      SeqOutcome.failed "error sorting pipeline graph: graph has a cycle"
        { data := SMap.empty, extIn := extIn, outLog := [],
          processed := [] } := by
  unfold DefaultEngineRun
  rw [h]

/-- A two-component directed cycle (the ports are irrelevant to the
engine's sort). -/
def pC7cyc : Pipeline Unit :=
  { name := "cyc"
    components :=
      [("a", { name := "a", inputs := [], outputs := [],
               process := fun _ => Except.ok [] }),
       ("b", { name := "b", inputs := [], outputs := [],
               process := fun _ => Except.ok [] })]
    connections :=
      [{ fromComponent := "a", fromPort := "x", toComponent := "b",
         toPort := "y" },
       { fromComponent := "b", fromPort := "x", toComponent := "a",
         toPort := "y" }]
    errors := []
    config := NewDefaultPipelineConfig }

/-- Witness for C7 on the concrete cyclic pipeline. -/
theorem C7_sequential_engine_no_validation_witness :
    DefaultEngineRun pC7cyc ["a", "b"] SMap.empty [] =
      SeqOutcome.failed "error sorting pipeline graph: graph has a cycle"
        { data := SMap.empty, extIn := SMap.empty, outLog := [],
          processed := [] } :=
  C7_sequential_engine_no_validation pC7cyc ["a", "b"] SMap.empty [] rfl

/-- A producing component for the C7 counterexample. -/
def srcC7 : Component Unit :=
  { name := "src", inputs := [],
    outputs := [{ name := "out", type := GoType.tstr }],
    process := fun _ => Except.ok [("out", some Unit.unit)] }

/-- A consuming component (int-typed required input, mismatched against
the producer) for the C7 counterexample. -/
def dstC7 : Component Unit :=
  { name := "dst",
    inputs := [{ name := "in", type := GoType.tint, required := true }],
    outputs := [{ name := "res", type := GoType.tstr }],
    process := fun _ => Except.ok [("res", some Unit.unit)] }

/-- A pipeline whose comprehensive validation reports an Error-severity
TypeMismatch diagnostic, yet which is acyclic. -/
def pC7bad : Pipeline Unit :=
  { name := "bad"
    components := [("src", srcC7), ("dst", dstC7)]
    connections :=
      [{ fromComponent := "src", fromPort := "out", toComponent := "dst",
         toPort := "in", bufferSize := 100, name := "c" }]
    errors := []
    config := NewDefaultPipelineConfig }

/-- C7 counterexample for the claim as stated: `pC7bad` has an
Error-severity validation diagnostic, yet the sequential engine runs it to
completion, invoking both components' process operations and delivering
the sink's output — it validates nothing. -/
theorem C7_counterexample :
    ((ValidateComprehensive pC7bad ["src", "dst"]).errors.any
      (fun e => e.severity == Severity.error)) = true ∧
    DefaultEngineRun pC7bad ["src", "dst"] SMap.empty ["res"] =
      SeqOutcome.finished
        { data := [("src.out", some Unit.unit), ("dst.res", some Unit.unit)]
          extIn := SMap.empty
          outLog := [("res", some Unit.unit)]
          processed := ["src", "dst"] } := by
  refine ⟨rfl, rfl⟩

/-! ## Abstract correctness of the Kahn worklist loop

Both topological sorts (the validator's and the execution graph's) are
instances of `kahnLoop` over an edge list `E`; the lemmas here establish
that any output of the loop is duplicate-free, drawn from the node set,
and lists every edge's source before its target — and therefore omits
every node that lies on a directed cycle. -/

/-- Number of edges of `E` targeting `v`. -/
def indegE (E : List (String × String)) (v : String) : Nat :=
  (E.filter (fun e => decide (e.2 = v))).length

/-- Number of edges of `E` targeting `v` whose source is in `acc`. -/
def srcInCount (E : List (String × String)) (acc : List String)
    (v : String) : Nat :=
  (E.filter (fun e => decide (e.2 = v) && decide (e.1 ∈ acc))).length

/-- Number of parallel edges `u → v` in `E`. -/
def countEdge (E : List (String × String)) (u v : String) : Nat :=
  (E.filter (fun e => decide (e.1 = u) && decide (e.2 = v))).length

/-- The targets of `u`'s out-edges, in edge order. -/
def targetsOfE (E : List (String × String)) (u : String) : List String :=
  (E.filter (fun e => decide (e.1 = u))).map Prod.snd

theorem indegE_cons (e : String × String) (E : List (String × String))
    (v : String) :
    indegE (e :: E) v = (if e.2 = v then 1 else 0) + indegE E v := by
  by_cases h : e.2 = v <;>
    simp [indegE, List.filter_cons, h] <;> omega

theorem srcInCount_cons (e : String × String) (E : List (String × String))
    (acc : List String) (v : String) :
    srcInCount (e :: E) acc v =
      (if e.2 = v ∧ e.1 ∈ acc then 1 else 0) + srcInCount E acc v := by
  by_cases h2 : e.2 = v
  · by_cases hm : e.1 ∈ acc <;>
      simp [srcInCount, List.filter_cons, h2, hm] <;> omega
  · simp [srcInCount, List.filter_cons, h2]

theorem countEdge_cons (e : String × String) (E : List (String × String))
    (u v : String) :
    countEdge (e :: E) u v =
      (if e.1 = u ∧ e.2 = v then 1 else 0) + countEdge E u v := by
  by_cases h1 : e.1 = u
  · by_cases h2 : e.2 = v <;>
      simp [countEdge, List.filter_cons, h1, h2] <;> omega
  · simp [countEdge, List.filter_cons, h1]

theorem count_targetsOfE (E : List (String × String)) (u v : String) :
    (targetsOfE E u).count v = countEdge E u v := by
  induction E with
  | nil => rfl
  | cons e rest ih =>
      by_cases h1 : e.1 = u
      · by_cases h2 : e.2 = v
        · simp [targetsOfE, countEdge, h1, h2, List.count_cons] at ih ⊢
          omega
        · simp [targetsOfE, countEdge, h1, h2, List.count_cons] at ih ⊢
          exact ih
      · simp [targetsOfE, countEdge, h1] at ih ⊢
        exact ih

theorem srcInCount_le_indegE (E : List (String × String))
    (acc : List String) (v : String) :
    srcInCount E acc v ≤ indegE E v := by
  induction E with
  | nil => exact Nat.le_refl 0
  | cons e rest ih =>
      rw [srcInCount_cons, indegE_cons]
      by_cases h2 : e.2 = v
      · by_cases hm : e.1 ∈ acc <;> simp [h2, hm] <;> omega
      · simp [h2]
        exact ih

theorem srcInCount_add_countEdge_le (E : List (String × String))
    (acc : List String) (u v : String) (h : u ∉ acc) :
    srcInCount E acc v + countEdge E u v ≤ indegE E v := by
  induction E with
  | nil => exact Nat.le_refl 0
  | cons e rest ih =>
      rw [srcInCount_cons, countEdge_cons, indegE_cons]
      by_cases h2 : e.2 = v
      · by_cases hm : e.1 ∈ acc
        · have hne : ¬ e.1 = u := fun hh => h (hh ▸ hm)
          simp only [h2, hm, hne, and_self, and_false, false_and, if_true,
            if_false]
          omega
        · by_cases hu : e.1 = u <;>
            simp only [h2, hm, hu, h, and_self, and_false, false_and, and_true,
              true_and, if_true, if_false] <;> omega
      · simp only [h2, false_and, and_false, if_false, Nat.zero_add]
        have h2' : (if e.1 = u ∧ e.2 = v then 1 else 0) = 0 := by
          simp [h2]
        omega

theorem srcInCount_snoc (E : List (String × String)) (acc : List String)
    (u v : String) (h : u ∉ acc) :
    srcInCount E (acc ++ [u]) v = srcInCount E acc v + countEdge E u v := by
  induction E with
  | nil => rfl
  | cons e rest ih =>
      rw [srcInCount_cons, srcInCount_cons, countEdge_cons]
      have hmem : (e.1 ∈ acc ++ [u]) ↔ (e.1 ∈ acc ∨ e.1 = u) := by
        simp [List.mem_append]
      by_cases h2 : e.2 = v
      · by_cases hm : e.1 ∈ acc
        · have hne : ¬ e.1 = u := fun hh => h (hh ▸ hm)
          simp only [h2, hm, hne, hmem, true_and, and_true, and_false,
            or_false, if_true, if_false]
          omega
        · by_cases hu : e.1 = u
          · have humem : u ∈ acc ++ [u] :=
              List.mem_append_right _ (List.mem_singleton_self _)
            simp only [h2, hm, hu, hmem, humem, h, true_and, and_true,
              and_self, false_or, if_true, if_false]
            omega
          · simp only [h2, hm, hu, hmem, true_and, and_true, and_false,
              or_self, if_false]
            omega
      · simp only [h2, false_and, and_false, if_false, Nat.zero_add]
        have h2' : (if e.1 = u ∧ e.2 = v then 1 else 0) = 0 := by
          simp [h2]
        omega

theorem all_src_mem_of_srcInCount_eq (E : List (String × String))
    (acc : List String) (v : String)
    (h : srcInCount E acc v = indegE E v) :
    ∀ e ∈ E, e.2 = v → e.1 ∈ acc := by
  induction E with
  | nil => intro e he; exact absurd he (List.not_mem_nil e)
  | cons e0 rest ih =>
      rw [srcInCount_cons, indegE_cons] at h
      intro e he h2
      by_cases h02 : e0.2 = v
      · by_cases hm : e0.1 ∈ acc
        · simp only [h02, hm, and_self, if_true] at h
          rcases List.mem_cons.mp he with rfl | he'
          · exact hm
          · exact ih (by omega) e he' h2
        · simp only [h02, hm, and_false, if_true, if_false] at h
          have hle := srcInCount_le_indegE rest acc v
          omega
      · rcases List.mem_cons.mp he with rfl | he'
        · exact absurd h2 h02
        · simp only [h02, false_and, if_false] at h
          exact ih (by omega) e he' h2

/-- Membership in the target list of a node's out-edges. -/
theorem mem_targetsOfE (E : List (String × String)) (u v : String) :
    v ∈ targetsOfE E u ↔ ∃ e ∈ E, e.1 = u ∧ e.2 = v := by
  simp only [targetsOfE, List.mem_map, List.mem_filter, decide_eq_true_eq]
  constructor
  · rintro ⟨e, ⟨he, h1⟩, h2⟩
    exact ⟨e, he, h1, h2⟩
  · rintro ⟨e, he, h1, h2⟩
    exact ⟨e, ⟨he, h1⟩, h2⟩

theorem srcInCount_nil_acc (E : List (String × String)) (v : String) :
    srcInCount E [] v = 0 := by
  induction E with
  | nil => rfl
  | cons e rest ih =>
      rw [srcInCount_cons, ih]
      simp

/-- Unfolding one dependency of the Kahn decrement fold. -/
theorem kahnStepDecs_cons (d : String) (ds : List String) (inDeg : SMap Int)
    (queue : List String) :
    kahnStepDecs (d :: ds) inDeg queue =
      kahnStepDecs ds (inDeg.insert d ((inDeg.get? d).getD 0 - 1))
        (if (inDeg.get? d).getD 0 - 1 = 0 then queue ++ [d] else queue) :=
  rfl

/-- The in-degree map after one Kahn dequeue step: entries of the
dependency list drop by their multiplicity, others are untouched. -/
theorem kahnStepDecs_get? (deps : List String) (inDeg : SMap Int)
    (queue : List String) (v : String) :
    (kahnStepDecs deps inDeg queue).1.get? v =
      if v ∈ deps then
        some ((inDeg.get? v).getD 0 - (deps.count v : Int))
      else inDeg.get? v := by
  induction deps generalizing inDeg queue with
  | nil => simp [kahnStepDecs]
  | cons d ds ih =>
      rw [kahnStepDecs_cons, ih]
      by_cases hv : v = d
      · subst hv
        rw [SMap.get?_insert_self]
        by_cases hds : v ∈ ds
        · rw [if_pos hds, if_pos (List.mem_cons_self v ds)]
          have hcnt : (v :: ds).count v = ds.count v + 1 := by
            simp [List.count_cons]
          rw [hcnt]
          simp only [Option.getD_some]
          congr 1
          push_cast
          omega
        · rw [if_neg hds, if_pos (List.mem_cons_self v ds)]
          have hcnt : (v :: ds).count v = 1 := by
            simp [List.count_cons, List.count_eq_zero_of_not_mem hds]
          rw [hcnt]
          simp
      · rw [SMap.get?_insert_ne _ _ _ _ (fun h => hv h.symm)]
        have hcnt : (d :: ds).count v = ds.count v := by
          rw [List.count_cons]
          simp [hv, Ne.symm hv]
        by_cases hds : v ∈ ds
        · rw [if_pos hds, if_pos (List.mem_cons_of_mem d hds), hcnt]
        · rw [if_neg hds, if_neg (by
            intro h
            rcases List.mem_cons.mp h with h | h
            · exact hv h
            · exact hds h)]

/-- The queue after one Kahn dequeue step: a node is appended exactly when
its in-degree count is positive and does not exceed the number of
decrements it receives. -/
theorem kahnStepDecs_queue_count (deps : List String) (inDeg : SMap Int)
    (queue : List String) (v : String) :
    (kahnStepDecs deps inDeg queue).2.count v =
      queue.count v +
        (if 1 ≤ (inDeg.get? v).getD 0 ∧
            (inDeg.get? v).getD 0 ≤ (deps.count v : Int) then 1 else 0) := by
  induction deps generalizing inDeg queue with
  | nil =>
      simp only [kahnStepDecs, List.foldl_nil, List.count_nil]
      have : ¬ (1 ≤ (inDeg.get? v).getD 0 ∧ (inDeg.get? v).getD 0 ≤ (0 : Int)) := by
        rintro ⟨h1, h2⟩
        omega
      simp [this]
  | cons d ds ih =>
      rw [kahnStepDecs_cons, ih]
      by_cases hv : v = d
      · subst hv
        rw [SMap.get?_insert_self]
        have hcnt : ((v :: ds).count v : Int) = (ds.count v : Int) + 1 := by
          simp [List.count_cons]
        have hq : (if (inDeg.get? v).getD 0 - 1 = 0 then
            queue ++ [v] else queue).count v =
            queue.count v +
              (if (inDeg.get? v).getD 0 - 1 = 0 then 1 else 0) := by
          by_cases h0 : (inDeg.get? v).getD 0 - 1 = 0
          · simp [h0, List.count_append]
          · simp [h0]
        rw [hq, hcnt]
        simp only [Option.getD_some]
        split_ifs <;> omega
      · rw [SMap.get?_insert_ne _ _ _ _ (fun h => hv h.symm)]
        have hcnt : (d :: ds).count v = ds.count v := by
          rw [List.count_cons]
          simp [hv, Ne.symm hv]
        have hq : (if (inDeg.get? d).getD 0 - 1 = 0 then
            queue ++ [d] else queue).count v = queue.count v := by
          by_cases h0 : (inDeg.get? d).getD 0 - 1 = 0
          · simp [h0, List.count_append, List.count_cons, hv, Ne.symm hv]
          · simp [h0]
        rw [hq, hcnt]

/-- Every element of the stepped queue was queued before or is a
dependency of the dequeued node. -/
theorem kahnStepDecs_queue_sub (deps : List String) (inDeg : SMap Int)
    (queue : List String) (x : String)
    (hx : x ∈ (kahnStepDecs deps inDeg queue).2) :
    x ∈ queue ∨ x ∈ deps := by
  induction deps generalizing inDeg queue with
  | nil => exact Or.inl hx
  | cons d ds ih =>
      rw [kahnStepDecs_cons] at hx
      rcases ih _ _ hx with h | h
      · by_cases h0 : (inDeg.get? d).getD 0 - 1 = 0
        · rw [if_pos h0] at h
          rcases List.mem_append.mp h with h | h
          · exact Or.inl h
          · rcases List.mem_singleton.mp h with rfl
            exact Or.inr (List.mem_cons_self _ _)
        · rw [if_neg h0] at h
          exact Or.inl h
      · exact Or.inr (List.mem_cons_of_mem d h)

/-- Invariant of the Kahn worklist loop: duplicate-freeness of the
processed-plus-queued nodes, membership in the node universe, the
in-degree bookkeeping, zero residual degree for processed and queued
nodes, and the source-before-target ordering of the accumulated order. -/
structure KInv (E : List (String × String)) (nodeNames : List String)
    (inDeg : SMap Int) (queue acc : List String) : Prop where
  cnt : ∀ v, (acc ++ queue).count v ≤ 1
  sub : ∀ v ∈ acc ++ queue, v ∈ nodeNames
  deg : ∀ v ∈ nodeNames,
    (inDeg.get? v).getD 0 = (indegE E v : Int) - (srcInCount E acc v : Int)
  done : ∀ v ∈ acc ++ queue, srcInCount E acc v = indegE E v
  ord : ∀ n w, acc[n]? = some w → ∀ e ∈ E, e.2 = w → e.1 ∈ acc.take n

/-- One dequeue step of the Kahn loop preserves the invariant. -/
theorem KInv_step (E : List (String × String)) (nodeNames : List String)
    (hE : ∀ e ∈ E, e.1 ∈ nodeNames ∧ e.2 ∈ nodeNames)
    (inDeg : SMap Int) (cur : String) (rest acc : List String)
    (h : KInv E nodeNames inDeg (cur :: rest) acc) :
    KInv E nodeNames (kahnStepDecs (targetsOfE E cur) inDeg rest).1
      (kahnStepDecs (targetsOfE E cur) inDeg rest).2 (acc ++ [cur]) := by
  have hcurq : cur ∈ acc ++ cur :: rest := by simp
  have hcur_nn : cur ∈ nodeNames := h.sub cur hcurq
  have hdone_cur : srcInCount E acc cur = indegE E cur := h.done cur hcurq
  have hcur_nacc : cur ∉ acc := by
    intro hmem
    have h1 := h.cnt cur
    rw [List.count_append, List.count_cons_self] at h1
    have h2 : 0 < acc.count cur := List.count_pos_iff.mpr hmem
    omega
  have hoc : ∀ v, (acc ++ cur :: rest).count v =
      acc.count v + rest.count v + (if v = cur then 1 else 0) := by
    intro v
    rw [List.count_append, List.count_cons]
    simp only [beq_iff_eq]
    by_cases hvc : v = cur
    · subst hvc
      rw [if_pos rfl]
      omega
    · simp only [hvc, Ne.symm hvc, if_false]
      omega
  have hnac : ∀ v, (acc ++ [cur]).count v =
      acc.count v + (if v = cur then 1 else 0) := by
    intro v
    rw [List.count_append, List.count_cons, List.count_nil]
    simp only [beq_iff_eq]
    by_cases hvc : v = cur
    · subst hvc
      rw [if_pos rfl]
      try omega
    · simp only [hvc, Ne.symm hvc, if_false]
      try omega
  have hdeg0 : ∀ v, v ∈ acc ++ cur :: rest → (inDeg.get? v).getD 0 = 0 := by
    intro v hv
    rw [h.deg v (h.sub v hv)]
    have := h.done v hv
    omega
  refine ⟨?_, ?_, ?_, ?_, ?_⟩
  · intro v
    have hold := h.cnt v
    rw [hoc v] at hold
    rw [List.count_append, hnac v, kahnStepDecs_queue_count]
    by_cases hv : v ∈ acc ++ cur :: rest
    · have hind : (if 1 ≤ (inDeg.get? v).getD 0 ∧
          (inDeg.get? v).getD 0 ≤ ((targetsOfE E cur).count v : Int)
          then 1 else 0) = 0 := by
        rw [if_neg]
        rintro ⟨h1, h2⟩
        have hz := hdeg0 v hv
        omega
      rw [hind]
      by_cases hvc : v = cur
      · rw [if_pos hvc] at hold ⊢
        omega
      · rw [if_neg hvc] at hold ⊢
        omega
    · have hnm := List.count_eq_zero.mpr hv
      rw [hoc v] at hnm
      have hvc : ¬ v = cur := by
        rintro rfl
        exact hv hcurq
      rw [if_neg hvc] at hnm ⊢
      split_ifs <;> omega
  · intro v hv
    rcases List.mem_append.mp hv with hva | hvq
    · rcases List.mem_append.mp hva with hva | hvc
      · exact h.sub v (List.mem_append_left _ hva)
      · have hveq := List.mem_singleton.mp hvc
        subst hveq
        exact hcur_nn
    · rcases kahnStepDecs_queue_sub _ _ _ _ hvq with hvr | hvd
      · exact h.sub v (List.mem_append_right _ (List.mem_cons_of_mem _ hvr))
      · rcases (mem_targetsOfE E cur v).mp hvd with ⟨e, he, h1, h2⟩
        exact h2 ▸ (hE e he).2
  · intro v hvnn
    rw [kahnStepDecs_get?]
    have hsnoc := srcInCount_snoc E acc cur v hcur_nacc
    have hdv := h.deg v hvnn
    by_cases hvd : v ∈ targetsOfE E cur
    · rw [if_pos hvd, Option.getD_some]
      have hcv : (targetsOfE E cur).count v = countEdge E cur v :=
        count_targetsOfE E cur v
      rw [hcv, hsnoc]
      push_cast
      omega
    · rw [if_neg hvd]
      have hcv : countEdge E cur v = 0 := by
        have hct := count_targetsOfE E cur v
        rw [List.count_eq_zero.mpr hvd] at hct
        omega
      rw [hsnoc, hcv]
      omega
  · intro v hv
    have hsnoc := srcInCount_snoc E acc cur v hcur_nacc
    have hle := srcInCount_le_indegE E (acc ++ [cur]) v
    rcases List.mem_append.mp hv with hva | hvq
    · rcases List.mem_append.mp hva with hva | hvc
      · have := h.done v (List.mem_append_left _ hva)
        omega
      · have hveq := List.mem_singleton.mp hvc
        subst hveq
        omega
    · by_cases hvold : v ∈ acc ++ cur :: rest
      · have := h.done v hvold
        omega
      · have hvc : ¬ v = cur := by
          rintro rfl
          exact hvold hcurq
        have hq := kahnStepDecs_queue_count (targetsOfE E cur) inDeg rest v
        have hmemq : 0 < (kahnStepDecs (targetsOfE E cur) inDeg rest).2.count v :=
          List.count_pos_iff.mpr hvq
        rw [hq] at hmemq
        have hrest0 : rest.count v = 0 := by
          have hcnt := List.count_eq_zero.mpr hvold
          rw [hoc v, if_neg hvc] at hcnt
          omega
        have hind : 1 ≤ (inDeg.get? v).getD 0 ∧
            (inDeg.get? v).getD 0 ≤ ((targetsOfE E cur).count v : Int) := by
          by_contra hcon
          rw [if_neg hcon] at hmemq
          omega
        have hvtg : v ∈ targetsOfE E cur := by
          rcases hind with ⟨h1, h2⟩
          rw [← List.count_pos_iff]
          omega
        rcases (mem_targetsOfE E cur v).mp hvtg with ⟨e, he, h1e, h2e⟩
        have hvnn : v ∈ nodeNames := h2e ▸ (hE e he).2
        have hdv := h.deg v hvnn
        have hcv := count_targetsOfE E cur v
        rcases hind with ⟨h1, h2⟩
        rw [hcv] at h2
        omega
  · intro n w hget e he h2
    by_cases hn : n < acc.length
    · rw [List.getElem?_append_left hn] at hget
      have hold := h.ord n w hget e he h2
      have htk : (acc ++ [cur]).take n = acc.take n := by
        rw [List.take_append_eq_append_take]
        have hz : n - acc.length = 0 := by omega
        rw [hz]
        simp
      rw [htk]
      exact hold
    · by_cases hn2 : n = acc.length
      · subst hn2
        rw [List.getElem?_concat_length] at hget
        have hw : cur = w := by
          injection hget
        subst hw
        rw [List.take_left]
        exact all_src_mem_of_srcInCount_eq E acc cur hdone_cur e he h2
      · have hge : acc.length ≤ n := by omega
        rw [List.getElem?_append_right hge] at hget
        have hone : (1 : Nat) ≤ n - acc.length := by omega
        rw [List.getElem?_eq_none (by simpa using hone)] at hget
        exact absurd hget (by simp)

/-- Any stopping point of the Kahn loop under the invariant yields a
duplicate-free order of node names whose edge sources precede their
targets. -/
theorem kahnLoop_props (E : List (String × String)) (nodeNames : List String)
    (hE : ∀ e ∈ E, e.1 ∈ nodeNames ∧ e.2 ∈ nodeNames)
    (depf : String → List String)
    (hdepf : ∀ u ∈ nodeNames, depf u = targetsOfE E u) :
    ∀ (fuel : Nat) (queue : List String) (inDeg : SMap Int)
      (acc : List String), KInv E nodeNames inDeg queue acc →
      (∀ v, (kahnLoop depf fuel queue inDeg acc).count v ≤ 1) ∧
      (∀ v ∈ kahnLoop depf fuel queue inDeg acc, v ∈ nodeNames) ∧
      (∀ n w, (kahnLoop depf fuel queue inDeg acc)[n]? = some w →
        ∀ e ∈ E, e.2 = w → e.1 ∈ (kahnLoop depf fuel queue inDeg acc).take n) := by
  intro fuel
  induction fuel with
  | zero =>
      intro queue inDeg acc h
      refine ⟨?_, ?_, ?_⟩
      · intro v
        have hc := h.cnt v
        rw [List.count_append] at hc
        show acc.count v ≤ 1
        omega
      · intro v hv
        exact h.sub v (List.mem_append_left _ hv)
      · intro n w hget e he h2
        exact h.ord n w hget e he h2
  | succ fuel ih =>
      intro queue inDeg acc h
      cases queue with
      | nil =>
          refine ⟨?_, ?_, ?_⟩
          · intro v
            have hc := h.cnt v
            rw [List.count_append] at hc
            show acc.count v ≤ 1
            omega
          · intro v hv
            exact h.sub v (List.mem_append_left _ hv)
          · intro n w hget e he h2
            exact h.ord n w hget e he h2
      | cons cur rest =>
          have hcur_nn : cur ∈ nodeNames := h.sub cur (by simp)
          have hrw : depf cur = targetsOfE E cur := hdepf cur hcur_nn
          have hstep := KInv_step E nodeNames hE inDeg cur rest acc h
          have hunf : kahnLoop depf (fuel + 1) (cur :: rest) inDeg acc =
              kahnLoop depf fuel
                (kahnStepDecs (targetsOfE E cur) inDeg rest).2
                (kahnStepDecs (targetsOfE E cur) inDeg rest).1 (acc ++ [cur]) := by
            simp only [kahnLoop, hrw]
          rw [hunf]
          exact ih _ _ _ hstep

/-- The invariant at loop entry: an empty order and a duplicate-free
queue of zero-in-degree node names. -/
theorem KInv_init (E : List (String × String)) (nodeNames : List String)
    (inDeg : SMap Int)
    (hdeg0 : ∀ v ∈ nodeNames, inDeg.get? v = some ((indegE E v : Int)))
    (queue : List String) (hq1 : queue.Nodup)
    (hq2 : ∀ x ∈ queue, x ∈ nodeNames)
    (hq0 : ∀ x ∈ queue, (inDeg.get? x).getD 0 = 0) :
    KInv E nodeNames inDeg queue [] := by
  refine ⟨?_, ?_, ?_, ?_, ?_⟩
  · intro v
    simp only [List.nil_append]
    exact List.nodup_iff_count_le_one.mp hq1 v
  · intro v hv
    exact hq2 v (by simpa using hv)
  · intro v hvnn
    rw [hdeg0 v hvnn, srcInCount_nil_acc]
    simp
  · intro v hv
    have h0 := hq0 v (by simpa using hv)
    rw [hdeg0 v (hq2 v (by simpa using hv))] at h0
    rw [srcInCount_nil_acc]
    simp only [Option.getD_some] at h0
    omega
  · intro n w hget
    simp at hget

/-- A directed cycle in an edge list: a nonempty node sequence each of
whose consecutive pairs, wrapping from the last element back to the
first, is an edge. -/
def IsCycleE (E : List (String × String)) (c : List String) : Prop :=
  ∃ h : c ≠ [], List.Chain (fun a b => (a, b) ∈ E) (c.getLast h) c

theorem chain_pred {r : String → String → Prop} :
    ∀ (a : String) (l : List String), List.Chain r a l →
      ∀ v ∈ l, ∃ u ∈ a :: l, r u v := by
  intro a l
  induction l generalizing a with
  | nil =>
      intro _ v hv
      exact absurd hv (List.not_mem_nil v)
  | cons b l ih =>
      intro hch v hv
      rcases List.chain_cons.mp hch with ⟨hab, hbl⟩
      rcases List.mem_cons.mp hv with heq | hv
      · subst heq
        exact ⟨a, List.mem_cons_self _ _, hab⟩
      · rcases ih b hbl v hv with ⟨u, hu, hr⟩
        exact ⟨u, List.mem_cons_of_mem _ hu, hr⟩

/-- Every member of a directed cycle has an in-edge from the cycle. -/
theorem cycle_pred (E : List (String × String)) (c : List String)
    (hc : IsCycleE E c) : ∀ v ∈ c, ∃ u ∈ c, (u, v) ∈ E := by
  rcases hc with ⟨hne, hch⟩
  intro v hv
  rcases chain_pred _ _ hch v hv with ⟨u, hu, hr⟩
  rcases List.mem_cons.mp hu with heq | hu
  · subst heq
    exact ⟨c.getLast hne, List.getLast_mem hne, hr⟩
  · exact ⟨u, hu, hr⟩

/-- A list in which every edge source precedes its target omits every
member of a directed cycle. -/
theorem ord_omits_cycle (E : List (String × String)) (out : List String)
    (hord : ∀ (n : Nat) (w : String), out[n]? = some w →
      ∀ e ∈ E, e.2 = w → e.1 ∈ out.take n)
    (c : List String) (hc : IsCycleE E c) : ∀ v ∈ c, v ∉ out := by
  have hmain : ∀ (n : Nat) (w : String), out[n]? = some w → w ∈ c → False := by
    intro n
    induction n using Nat.strong_induction_on with
    | _ n ih =>
        intro w hget hwc
        rcases cycle_pred E c hc w hwc with ⟨u, huc, hedge⟩
        have hu := hord n w hget (u, w) hedge rfl
        rcases List.mem_iff_getElem.mp hu with ⟨m, hm, hgu⟩
        have hlen : (out.take n).length ≤ n := by
          rw [List.length_take]
          exact min_le_left _ _
        have hmlt : m < n := lt_of_lt_of_le hm hlen
        have hgu2 : out[m]? = some u := by
          have hg : (out.take n)[m]? = some u := by
            rw [List.getElem?_eq_getElem hm, hgu]
          rwa [List.getElem?_take_of_lt hmlt] at hg
        exact ih m hmlt u hgu2 huc
  intro v hvc hvout
  rcases List.mem_iff_getElem.mp hvout with ⟨n, hn, hg⟩
  exact hmain n v (by rw [List.getElem?_eq_getElem hn, hg]) hvc

/-- A duplicate-free, source-before-target order over the node names is
strictly shorter than the node list when a cycle exists among nodes. -/
theorem cycle_order_short (E : List (String × String))
    (nodeNames out : List String)
    (hcnt : ∀ v, out.count v ≤ 1)
    (hsub : ∀ v ∈ out, v ∈ nodeNames)
    (hord : ∀ (n : Nat) (w : String), out[n]? = some w →
      ∀ e ∈ E, e.2 = w → e.1 ∈ out.take n)
    (c : List String) (hc : IsCycleE E c)
    (hcn : ∀ v ∈ c, v ∈ nodeNames) :
    out.length < nodeNames.length := by
  have hne : c ≠ [] := hc.1
  have ha0c : c.getLast hne ∈ c := List.getLast_mem hne
  have ha0nn := hcn _ ha0c
  have ha0out : c.getLast hne ∉ out := ord_omits_cycle E out hord c hc _ ha0c
  have hnd : out.Nodup := List.nodup_iff_count_le_one.mpr hcnt
  have hsub2 : out ⊆ nodeNames.erase (c.getLast hne) := by
    intro x hx
    have hxnn := hsub x hx
    have hxne : x ≠ c.getLast hne := by
      rintro rfl
      exact ha0out hx
    rw [List.mem_erase_of_ne hxne]
    exact hxnn
  have hle : out.length ≤ (nodeNames.erase (c.getLast hne)).length :=
    (List.subperm_of_subset hnd hsub2).length_le
  have herase : (nodeNames.erase (c.getLast hne)).length =
      nodeNames.length - 1 := List.length_erase_of_mem ha0nn
  have hpos : 0 < nodeNames.length := List.length_pos_of_mem ha0nn
  omega

/-- Source/target name pairs of a connection list. -/
def connPairs (conns : List Connection) : List (String × String) :=
  conns.map (fun c => (c.fromComponent, c.toComponent))

/-- Source/target name pairs of an edge list. -/
def edgePairs (edges : List GraphEdge) : List (String × String) :=
  edges.map (fun e => (e.src, e.dst))

/-- The edge built from a connection by `buildComponentGraph`. -/
def gacEdge (c : Connection) : GraphEdge :=
  { src := c.fromComponent, dst := c.toComponent, conn := c, weight := 1 }

/-- The dependents update of one `graphAfterConns` step. -/
def upd1 {V : Type} (ns : SMap (GraphNode V)) (c : Connection) :
    SMap (GraphNode V) :=
  match ns.get? c.fromComponent with
  | some nd => ns.insert c.fromComponent
      { nd with dependents := nd.dependents ++ [c.toComponent] }
  | none => ns

/-- The dependencies update of one `graphAfterConns` step. -/
def upd2 {V : Type} (ns : SMap (GraphNode V)) (c : Connection) :
    SMap (GraphNode V) :=
  match ns.get? c.toComponent with
  | some nd => ns.insert c.toComponent
      { nd with dependencies := nd.dependencies ++ [c.fromComponent] }
  | none => ns

/-- The node-map update of one `graphAfterConns` step. -/
def gacStep {V : Type} (ns : SMap (GraphNode V)) (c : Connection) :
    SMap (GraphNode V) :=
  upd2 (upd1 ns c) c

/-- `graphAfterConns` in closed form: the node maps fold `gacStep` and the
edge list is the connection list mapped through `gacEdge`. -/
theorem graphAfterConns_eq {V : Type} :
    ∀ (conns : List Connection) (st : SMap (GraphNode V) × List GraphEdge),
      conns.foldl
        (fun st c =>
          let ns := st.1
          let es := st.2 ++ [{ src := c.fromComponent, dst := c.toComponent,
                               conn := c, weight := 1 }]
          let ns1 := match ns.get? c.fromComponent with
            | some nd => ns.insert c.fromComponent
                { nd with dependents := nd.dependents ++ [c.toComponent] }
            | none => ns
          let ns2 := match ns1.get? c.toComponent with
            | some nd => ns1.insert c.toComponent
                { nd with dependencies := nd.dependencies ++ [c.fromComponent] }
            | none => ns1
          (ns2, es)) st =
      (conns.foldl gacStep st.1, st.2 ++ conns.map gacEdge) := by
  intro conns
  induction conns with
  | nil =>
      intro st
      simp
  | cons c rest ih =>
      intro st
      rw [List.foldl_cons, ih]
      show (rest.foldl gacStep (gacStep st.1 c),
          (st.2 ++ [gacEdge c]) ++ rest.map gacEdge) =
        (rest.foldl gacStep (gacStep st.1 c),
          st.2 ++ (gacEdge c :: rest.map gacEdge))
      rw [List.append_assoc]
      rfl

/-- `graphAfterConns` through the closed form. -/
theorem graphAfterConns_def {V : Type} (nodes : SMap (GraphNode V))
    (conns : List Connection) :
    graphAfterConns nodes conns =
      (conns.foldl gacStep nodes, conns.map gacEdge) := by
  unfold graphAfterConns
  rw [graphAfterConns_eq]
  rfl

/-- A key is present exactly when lookup succeeds. -/
theorem SMap.mem_keys_iff {α : Type} (m : SMap α) (k : String) :
    k ∈ m.keys ↔ ∃ v, m.get? k = some v := by
  induction m with
  | nil => simp [SMap.keys, SMap.get?]
  | cons e rest ih =>
      obtain ⟨k0, v0⟩ := e
      by_cases h : k0 = k
      · subst h
        simp [SMap.keys, SMap.get?]
      · simp [SMap.keys, SMap.get?, h, Ne.symm h, ih]

theorem upd1_keys {V : Type} (ns : SMap (GraphNode V)) (c : Connection) :
    (upd1 ns c).keys = ns.keys := by
  unfold upd1
  split
  · rename_i nd hm
    rw [SMap.keys_insert,
      if_pos ((SMap.mem_keys_iff ns c.fromComponent).mpr ⟨nd, hm⟩)]
  · rfl

theorem upd2_keys {V : Type} (ns : SMap (GraphNode V)) (c : Connection) :
    (upd2 ns c).keys = ns.keys := by
  unfold upd2
  split
  · rename_i nd hm
    rw [SMap.keys_insert,
      if_pos ((SMap.mem_keys_iff ns c.toComponent).mpr ⟨nd, hm⟩)]
  · rfl

theorem gacStep_keys {V : Type} (ns : SMap (GraphNode V)) (c : Connection) :
    (gacStep ns c).keys = ns.keys := by
  unfold gacStep
  rw [upd2_keys, upd1_keys]

theorem validatorDepf_upd2 {V : Type} (ns : SMap (GraphNode V))
    (c : Connection) (u : String) :
    validatorDepf (upd2 ns c) u = validatorDepf ns u := by
  unfold upd2
  split
  · rename_i nd hm
    by_cases hu : c.toComponent = u
    · subst hu
      unfold validatorDepf
      rw [SMap.get?_insert_self, hm]
    · unfold validatorDepf
      rw [SMap.get?_insert_ne _ _ _ _ hu]
  · rfl

theorem validatorDepf_upd1 {V : Type} (ns : SMap (GraphNode V))
    (c : Connection) (hfrom : c.fromComponent ∈ ns.keys) (u : String) :
    validatorDepf (upd1 ns c) u =
      validatorDepf ns u ++
        (if c.fromComponent = u then [c.toComponent] else []) := by
  rcases (SMap.mem_keys_iff ns c.fromComponent).mp hfrom with ⟨nd, hm⟩
  unfold upd1
  rw [hm]
  by_cases hu : c.fromComponent = u
  · subst hu
    unfold validatorDepf
    rw [SMap.get?_insert_self, hm, if_pos rfl]
  · unfold validatorDepf
    rw [SMap.get?_insert_ne _ _ _ _ hu, if_neg hu]
    simp

theorem validatorDepf_gacStep {V : Type} (ns : SMap (GraphNode V))
    (c : Connection) (hfrom : c.fromComponent ∈ ns.keys) (u : String) :
    validatorDepf (gacStep ns c) u =
      validatorDepf ns u ++
        (if c.fromComponent = u then [c.toComponent] else []) := by
  unfold gacStep
  rw [validatorDepf_upd2, validatorDepf_upd1 ns c hfrom]

theorem targetsOfE_cons (e : String × String) (E : List (String × String))
    (u : String) :
    targetsOfE (e :: E) u =
      (if e.1 = u then [e.2] else []) ++ targetsOfE E u := by
  by_cases h : e.1 = u <;> simp [targetsOfE, List.filter_cons, h]

theorem targetsOfE_nil (u : String) : targetsOfE [] u = [] := rfl

theorem gacFold_keys {V : Type} :
    ∀ (conns : List Connection) (ns : SMap (GraphNode V)),
      (conns.foldl gacStep ns).keys = ns.keys := by
  intro conns
  induction conns with
  | nil => intro ns; rfl
  | cons c rest ih =>
      intro ns
      rw [List.foldl_cons, ih, gacStep_keys]

/-- After processing the connections, a node's dependents list is exactly
the targets of its out-edges in connection order — provided every
connection's source component exists. -/
theorem validatorDepf_gacFold {V : Type} :
    ∀ (conns : List Connection) (ns : SMap (GraphNode V)),
      (∀ c ∈ conns, c.fromComponent ∈ ns.keys) → ∀ u,
      validatorDepf (conns.foldl gacStep ns) u =
        validatorDepf ns u ++ targetsOfE (connPairs conns) u := by
  intro conns
  induction conns with
  | nil =>
      intro ns _ u
      simp [connPairs, targetsOfE]
  | cons c rest ih =>
      intro ns hEnd u
      rw [List.foldl_cons,
        ih (gacStep ns c) (fun x hx => by
          rw [gacStep_keys]
          exact hEnd x (List.mem_cons_of_mem _ hx)) u,
        validatorDepf_gacStep ns c (hEnd c (List.mem_cons_self _ _)) u,
        List.append_assoc]
      congr 1
      rw [show connPairs (c :: rest) =
        (c.fromComponent, c.toComponent) :: connPairs rest from rfl,
        targetsOfE_cons]

theorem initNodes_keys {V : Type} (comps : SMap (Component V)) :
    (initNodes comps).keys = comps.keys := by
  induction comps with
  | nil => rfl
  | cons e rest ih =>
      obtain ⟨n, c⟩ := e
      show n :: (initNodes rest).keys = n :: SMap.keys rest
      rw [ih]

theorem validatorDepf_initNodes {V : Type} (comps : SMap (Component V))
    (u : String) : validatorDepf (initNodes comps) u = [] := by
  induction comps with
  | nil => rfl
  | cons e rest ih =>
      obtain ⟨n, c⟩ := e
      unfold validatorDepf at ih ⊢
      show (match (if n = u then some
          { name := n, component := c, dependencies := [], dependents := [] }
        else (initNodes rest).get? u) with
        | some nd => nd.dependents
        | none => []) = []
      by_cases h : n = u
      · rw [if_pos h]
      · rw [if_neg h]
        exact ih

theorem indegE_zero (E : List (String × String)) (v : String)
    (h : ∀ e ∈ E, e.2 ≠ v) : indegE E v = 0 := by
  induction E with
  | nil => rfl
  | cons e rest ih =>
      rw [indegE_cons, if_neg (h e (List.mem_cons_self _ _)),
        ih (fun x hx => h x (List.mem_cons_of_mem _ hx))]

/-- The zero-initialisation fold of `initInDegree`. -/
theorem initInDegree_base_get? {V : Type} :
    ∀ (nodes : SMap (GraphNode V)) (m : SMap Int) (v : String),
      (nodes.foldl (fun m e => m.insert e.1 0) m).get? v =
        if v ∈ nodes.keys then some 0 else m.get? v := by
  intro nodes
  induction nodes with
  | nil =>
      intro m v
      show m.get? v = if v ∈ ([] : List String) then some 0 else m.get? v
      simp
  | cons e rest ih =>
      intro m v
      obtain ⟨k0, x0⟩ := e
      rw [List.foldl_cons, ih]
      have hk : SMap.keys ((k0, x0) :: rest) = k0 :: SMap.keys rest := rfl
      rw [hk]
      by_cases hr : v ∈ SMap.keys rest
      · rw [if_pos hr, if_pos (List.mem_cons_of_mem _ hr)]
      · rw [if_neg hr]
        by_cases hv : k0 = v
        · subst hv
          rw [if_pos (List.mem_cons_self _ _), SMap.get?_insert_self]
        · rw [SMap.get?_insert_ne _ _ _ _ hv, if_neg (by
            intro hmem
            rcases List.mem_cons.mp hmem with h | h
            · exact hv h.symm
            · exact hr h)]

theorem mem_edgePairs (edges : List GraphEdge) (x : String × String) :
    x ∈ edgePairs edges ↔ ∃ e ∈ edges, x = (e.src, e.dst) := by
  simp only [edgePairs, List.mem_map]
  constructor
  · rintro ⟨e, he, rfl⟩
    exact ⟨e, he, rfl⟩
  · rintro ⟨e, he, rfl⟩
    exact ⟨e, he, rfl⟩

/-- The increment fold of `initInDegree`. -/
theorem initInDegree_incr_get? :
    ∀ (edges : List GraphEdge) (m : SMap Int) (v : String),
      (edges.foldl
        (fun m e => m.insert e.dst ((m.get? e.dst).getD 0 + 1)) m).get? v =
      if v ∈ edges.map GraphEdge.dst then
        some ((m.get? v).getD 0 + (indegE (edgePairs edges) v : Int))
      else m.get? v := by
  intro edges
  induction edges with
  | nil =>
      intro m v
      show m.get? v = if v ∈ ([] : List String) then _ else m.get? v
      simp
  | cons e rest ih =>
      intro m v
      rw [List.foldl_cons, ih]
      have hpair : edgePairs (e :: rest) = (e.src, e.dst) :: edgePairs rest :=
        rfl
      rw [List.map_cons, hpair, indegE_cons]
      by_cases hv : e.dst = v
      · subst hv
        rw [if_pos (List.mem_cons_self _ _)]
        by_cases hm : e.dst ∈ rest.map GraphEdge.dst
        · rw [if_pos hm, SMap.get?_insert_self]
          rw [if_pos (show (e.src, e.dst).2 = e.dst from rfl)]
          simp only [Option.getD_some]
          congr 1
          push_cast
          omega
        · rw [if_neg hm, SMap.get?_insert_self]
          rw [if_pos (show (e.src, e.dst).2 = e.dst from rfl)]
          have hz : indegE (edgePairs rest) e.dst = 0 := by
            apply indegE_zero
            intro x hx hx2
            rcases (mem_edgePairs rest x).mp hx with ⟨ed, hed, rfl⟩
            exact hm (hx2 ▸ List.mem_map_of_mem GraphEdge.dst hed)
          rw [hz]
          congr 1
          try push_cast
          try omega
      · rw [if_neg (show ¬ (e.src, e.dst).2 = v from hv),
          SMap.get?_insert_ne _ _ _ _ hv]
        by_cases hm : v ∈ rest.map GraphEdge.dst
        · rw [if_pos hm, if_pos (List.mem_cons_of_mem _ hm)]
          congr 1
          push_cast
          try omega
        · rw [if_neg hm, if_neg (by
            intro hmem
            rcases List.mem_cons.mp hmem with h | h
            · exact hv h.symm
            · exact hm h)]

/-- `initInDegree` at an existing node: exactly the number of in-edges. -/
theorem initInDegree_get? {V : Type} (nodes : SMap (GraphNode V))
    (edges : List GraphEdge) (v : String) (hv : v ∈ nodes.keys) :
    (initInDegree nodes edges).get? v =
      some ((indegE (edgePairs edges) v : Int)) := by
  simp only [initInDegree]
  rw [initInDegree_incr_get?, initInDegree_base_get?]
  rw [if_pos hv]
  by_cases hm : v ∈ edges.map GraphEdge.dst
  · rw [if_pos hm]
    simp
  · rw [if_neg hm]
    have hz : indegE (edgePairs edges) v = 0 := by
      apply indegE_zero
      intro x hx hx2
      rcases (mem_edgePairs edges x).mp hx with ⟨ed, hed, rfl⟩
      exact hm (hx2 ▸ List.mem_map_of_mem GraphEdge.dst hed)
    rw [hz]
    rfl

/-- A directed cycle among the edges forces `calculateTopologyOrder` to
report a cycle, whenever every edge endpoint is a node, the dependents
lists agree with the edges, and the queue seed enumerates node names
without repetition. -/
theorem calculateTopologyOrder_cycle_none {V : Type}
    (nodes : SMap (GraphNode V)) (edges : List GraphEdge)
    (qEnum : List String) (c : List String)
    (hdepf : ∀ u ∈ nodes.keys,
      validatorDepf nodes u = targetsOfE (edgePairs edges) u)
    (hE : ∀ e ∈ edges, e.src ∈ nodes.keys ∧ e.dst ∈ nodes.keys)
    (hq1 : qEnum.Nodup) (hq2 : ∀ x ∈ qEnum, x ∈ nodes.keys)
    (hc : IsCycleE (edgePairs edges) c) :
    calculateTopologyOrder nodes edges qEnum = none := by
  have hE2 : ∀ e ∈ edgePairs edges,
      e.1 ∈ nodes.keys ∧ e.2 ∈ nodes.keys := by
    intro e he
    rcases (mem_edgePairs edges e).mp he with ⟨ed, hed, rfl⟩
    exact hE ed hed
  have hdeg0 : ∀ v ∈ nodes.keys, (initInDegree nodes edges).get? v =
      some ((indegE (edgePairs edges) v : Int)) :=
    fun v hv => initInDegree_get? nodes edges v hv
  have hinit : KInv (edgePairs edges) nodes.keys (initInDegree nodes edges)
      (qEnum.filter
        (fun n => ((initInDegree nodes edges).get? n).getD 0 = 0)) [] := by
    apply KInv_init _ _ _ hdeg0
    · exact hq1.filter _
    · intro x hx
      exact hq2 x (List.mem_of_mem_filter hx)
    · intro x hx
      exact of_decide_eq_true (List.mem_filter.mp hx).2
  obtain ⟨hcnt, hsub, hord⟩ := kahnLoop_props (edgePairs edges) nodes.keys
    hE2 (validatorDepf nodes) hdepf (qEnum.length + edges.length + 1)
    (qEnum.filter
      (fun n => ((initInDegree nodes edges).get? n).getD 0 = 0))
    (initInDegree nodes edges) [] hinit
  have hcn : ∀ v ∈ c, v ∈ nodes.keys := by
    intro v hv
    rcases cycle_pred (edgePairs edges) c hc v hv with ⟨u, hu, hedge⟩
    exact (hE2 (u, v) hedge).2
  have hshort := cycle_order_short (edgePairs edges) nodes.keys _
    hcnt hsub hord c hc hcn
  have hne : ¬ ((kahnLoop (validatorDepf nodes)
      (qEnum.length + edges.length + 1)
      (qEnum.filter
        (fun n => ((initInDegree nodes edges).get? n).getD 0 = 0))
      (initInDegree nodes edges) []).length = nodes.keys.length) := by
    omega
  simp only [calculateTopologyOrder]
  rw [if_neg hne]

theorem chain_succ_aux {r : String → String → Prop} :
    ∀ (a : String) (l : List String), List.Chain r a l →
      ∀ v ∈ a :: l,
        (∃ u ∈ l, r v u) ∨ v = (a :: l).getLast (List.cons_ne_nil a l) := by
  intro a l
  induction l generalizing a with
  | nil =>
      intro _ v hv
      right
      rcases List.mem_singleton.mp hv with rfl
      rfl
  | cons b l ih =>
      intro hch v hv
      rcases List.chain_cons.mp hch with ⟨hab, hbl⟩
      rcases List.mem_cons.mp hv with heq | hv2
      · subst heq
        exact Or.inl ⟨b, List.mem_cons_self _ _, hab⟩
      · rcases ih b hbl v hv2 with ⟨u, hu, hr⟩ | heq
        · exact Or.inl ⟨u, List.mem_cons_of_mem _ hu, hr⟩
        · right
          rw [heq, List.getLast_cons (List.cons_ne_nil b l)]

/-- Every member of a directed cycle has an out-edge into the cycle. -/
theorem cycle_succ (E : List (String × String)) (c : List String)
    (hc : IsCycleE E c) : ∀ v ∈ c, ∃ u ∈ c, (v, u) ∈ E := by
  rcases hc with ⟨hne, hch⟩
  intro v hv
  rcases chain_succ_aux _ _ hch v (List.mem_cons_of_mem _ hv)
    with ⟨u, hu, hr⟩ | heq
  · exact ⟨u, hu, hr⟩
  · have hveq : v = c.getLast hne := by
      rw [heq, List.getLast_cons hne]
    cases c with
    | nil => exact absurd rfl hne
    | cons c0 ctail =>
        rcases List.chain_cons.mp hch with ⟨h1, _⟩
        refine ⟨c0, List.mem_cons_self _ _, ?_⟩
        rw [hveq]
        exact h1

/-- No directed cycle touches the fully-explored (visited and popped)
region of the DFS. -/
def NoBlackCycle (E : List (String × String))
    (vis st : List String) : Prop :=
  ∀ c, IsCycleE E c → ∀ x ∈ c, x ∈ vis → x ∈ st

/-- Closure of a completed (cycle-free) DFS call: the visited set grows,
the explored node and all scanned neighbors are visited and off the
stack, and no cycle enters the visited region off the stack. -/
theorem dfs_false_spec (E : List (String × String))
    (adj : String → List String)
    (hadj : ∀ x y, y ∈ adj x ↔ (x, y) ∈ E) :
    ∀ fuel : Nat,
      (∀ v vis st vis', dfsVisit adj fuel v vis st = (false, vis') →
        st ⊆ vis → NoBlackCycle E vis st →
        (vis ⊆ vis') ∧ v ∈ vis' ∧ NoBlackCycle E vis' st) ∧
      (∀ l vis st vis', dfsNbrs adj fuel l vis st = (false, vis') →
        st ⊆ vis → NoBlackCycle E vis st →
        (vis ⊆ vis') ∧ (∀ n ∈ l, n ∈ vis' ∧ n ∉ st) ∧
          NoBlackCycle E vis' st) := by
  intro fuel
  induction fuel with
  | zero =>
      constructor
      · intro v vis st vis' heq
        exact absurd heq (by simp [dfsVisit])
      · intro l vis st vis' heq
        exact absurd heq (by simp [dfsNbrs])
  | succ fuel ih =>
      constructor
      · intro v vis st vis' heq hsv hnbc
        have heq2 : dfsNbrs adj fuel (adj v) (v :: vis) (v :: st) =
            (false, vis') := heq
        have hsv2 : (v :: st) ⊆ (v :: vis) := by
          intro x hx
          rcases List.mem_cons.mp hx with rfl | hx
          · exact List.mem_cons_self _ _
          · exact List.mem_cons_of_mem _ (hsv hx)
        have hnbc2 : NoBlackCycle E (v :: vis) (v :: st) := by
          intro c hc x hxc hxv
          rcases List.mem_cons.mp hxv with rfl | hxv
          · exact List.mem_cons_self _ _
          · exact List.mem_cons_of_mem _ (hnbc c hc x hxc hxv)
        obtain ⟨hsub, hnbrs, hnbc3⟩ := ih.2 (adj v) (v :: vis) (v :: st)
          vis' heq2 hsv2 hnbc2
        refine ⟨?_, hsub (List.mem_cons_self _ _), ?_⟩
        · intro x hx
          exact hsub (List.mem_cons_of_mem _ hx)
        · intro c hc x hxc hxv
          rcases List.mem_cons.mp (hnbc3 c hc x hxc hxv) with heqv | hxst
          · exfalso
            subst heqv
            rcases cycle_succ E c hc x hxc with ⟨u, huc, hedge⟩
            have huadj : u ∈ adj x := (hadj x u).mpr hedge
            obtain ⟨huv, hust⟩ := hnbrs u huadj
            exact hust (hnbc3 c hc u huc huv)
          · exact hxst
      · intro l vis st vis' heq hsv hnbc
        cases l with
        | nil =>
            have hv : vis = vis' := by
              have : (false, vis) = (false, vis') := heq
              exact (Prod.mk.injEq _ _ _ _).mp this |>.2
            subst hv
            exact ⟨fun x hx => hx, fun n hn => absurd hn (List.not_mem_nil n),
              hnbc⟩
        | cons n rest =>
            by_cases hn : n ∈ vis
            · by_cases hns : n ∈ st
              · exfalso
                have h2 : (true, vis) = ((false, vis') : Bool × List String) := by
                  simpa [dfsNbrs, hn, hns] using heq
                simpa using (Prod.mk.injEq _ _ _ _).mp h2 |>.1
              · have heq2 : dfsNbrs adj fuel rest vis st = (false, vis') := by
                  simpa [dfsNbrs, hn, hns] using heq
                obtain ⟨hsub, hnbrs, hnbc3⟩ := ih.2 rest vis st vis' heq2
                  hsv hnbc
                refine ⟨hsub, ?_, hnbc3⟩
                intro x hx
                rcases List.mem_cons.mp hx with rfl | hx
                · exact ⟨hsub hn, hns⟩
                · exact hnbrs x hx
            · cases hres : dfsVisit adj fuel n vis st with
              | mk b vis2 =>
                  cases b with
                  | true =>
                      exfalso
                      have : (true, vis2) = (false, vis') := by
                        simpa [dfsNbrs, hn, hres] using heq
                      simpa using (Prod.mk.injEq _ _ _ _).mp this |>.1
                  | false =>
                      have heq2 : dfsNbrs adj fuel rest vis2 st =
                          (false, vis') := by
                        simpa [dfsNbrs, hn, hres] using heq
                      obtain ⟨hsub1, hnv, hnbc1⟩ := ih.1 n vis st vis2 hres
                        hsv hnbc
                      obtain ⟨hsub2, hnbrs, hnbc3⟩ := ih.2 rest vis2 st vis'
                        heq2 (fun x hx => hsub1 (hsv hx)) hnbc1
                      refine ⟨fun x hx => hsub2 (hsub1 hx), ?_, hnbc3⟩
                      intro x hx
                      rcases List.mem_cons.mp hx with rfl | hx
                      · exact ⟨hsub2 hnv, fun hxst => hn (hsv hxst)⟩
                      · exact hnbrs x hx

/-- A found cycle is absorbing for the `detectCycles` fold. -/
theorem dfs_fold_absorb {V : Type} (adj : String → List String) (fuel : Nat) :
    ∀ (comps : SMap (Component V)) (st0 : Bool × List String),
      st0.1 = true →
      comps.foldl (fun st e => if st.1 then st
        else if e.1 ∈ st.2 then st
        else dfsVisit adj fuel e.1 st.2 []) st0 = st0 := by
  intro comps
  induction comps with
  | nil =>
      intro st0 h
      rfl
  | cons e rest ih =>
      intro st0 h
      rw [List.foldl_cons, if_pos h]
      exact ih st0 h

/-- When the `detectCycles` fold reports no cycle, the final visited set
contains every component name and meets no directed cycle. -/
theorem dfs_fold_false {V : Type} (E : List (String × String))
    (adj : String → List String) (fuel : Nat)
    (hadj : ∀ x y, y ∈ adj x ↔ (x, y) ∈ E) :
    ∀ (comps : SMap (Component V)) (st0 : Bool × List String),
      (comps.foldl (fun st e => if st.1 then st
        else if e.1 ∈ st.2 then st
        else dfsVisit adj fuel e.1 st.2 []) st0).1 = false →
      NoBlackCycle E st0.2 [] →
      NoBlackCycle E (comps.foldl (fun st e => if st.1 then st
        else if e.1 ∈ st.2 then st
        else dfsVisit adj fuel e.1 st.2 []) st0).2 [] ∧
      (∀ k ∈ comps.keys, k ∈ (comps.foldl (fun st e => if st.1 then st
        else if e.1 ∈ st.2 then st
        else dfsVisit adj fuel e.1 st.2 []) st0).2) ∧
      st0.2 ⊆ (comps.foldl (fun st e => if st.1 then st
        else if e.1 ∈ st.2 then st
        else dfsVisit adj fuel e.1 st.2 []) st0).2 := by
  intro comps
  induction comps with
  | nil =>
      intro st0 hfold hnbc
      exact ⟨hnbc, fun k hk => absurd hk (List.not_mem_nil k),
        fun x hx => hx⟩
  | cons e rest ih =>
      obtain ⟨en, ec⟩ := e
      intro st0 hfold hnbc
      cases hb : st0.1 with
      | true =>
          rw [dfs_fold_absorb adj fuel ((en, ec) :: rest) st0 hb] at hfold
          rw [hb] at hfold
          exact absurd hfold (by simp)
      | false =>
          rw [List.foldl_cons] at hfold ⊢
          dsimp only at hfold ⊢
          rw [if_neg (by rw [hb]; exact Bool.false_ne_true)] at hfold ⊢
          by_cases hmem : en ∈ st0.2
          · rw [if_pos hmem] at hfold ⊢
            obtain ⟨h1, h2, h3⟩ := ih st0 hfold hnbc
            refine ⟨h1, ?_, h3⟩
            intro x hx
            rcases List.mem_cons.mp hx with rfl | hx
            · exact h3 hmem
            · exact h2 x hx
          · rw [if_neg hmem] at hfold ⊢
            cases hres : dfsVisit adj fuel en st0.2 [] with
            | mk b1 vis1 =>
                rw [hres] at hfold
                cases b1 with
                | true =>
                    rw [dfs_fold_absorb adj fuel rest (true, vis1) rfl]
                      at hfold
                    exact absurd hfold (by simp)
                | false =>
                    obtain ⟨hsub1, hev, hnbc1⟩ :=
                      (dfs_false_spec E adj hadj fuel).1 en st0.2 [] vis1
                        hres (List.nil_subset _) hnbc
                    obtain ⟨h1, h2, h3⟩ := ih (false, vis1) hfold hnbc1
                    refine ⟨h1, ?_, fun x hx => h3 (hsub1 hx)⟩
                    intro x hx
                    rcases List.mem_cons.mp hx with rfl | hx
                    · exact h3 hev
                    · exact h2 x hx

/-- A directed cycle among the connections that touches at least one
component is always found by the DFS of `detectCycles`. -/
theorem detectCycles_complete {V : Type} (p : Pipeline V) (c : List String)
    (hc : IsCycleE (connPairs p.connections) c)
    (hcn : ∃ v ∈ c, v ∈ p.components.keys) :
    detectCycles p = true := by
  have hadj : ∀ x y, y ∈ cycleAdj p.connections x ↔
      (x, y) ∈ connPairs p.connections := by
    intro x y
    simp only [cycleAdj, connPairs, List.mem_map, List.mem_filter,
      beq_iff_eq, Prod.mk.injEq]
    constructor
    · rintro ⟨conn, ⟨h1, h2⟩, h3⟩
      exact ⟨conn, h1, h2, h3⟩
    · rintro ⟨conn, h1, h2, h3⟩
      exact ⟨conn, ⟨h1, h2⟩, h3⟩
  by_contra hfalse
  rw [Bool.not_eq_true] at hfalse
  unfold detectCycles at hfalse
  obtain ⟨hNBC, hnames, hsub⟩ := dfs_fold_false (connPairs p.connections)
    (cycleAdj p.connections) (cycleFuel p) hadj p.components (false, [])
    hfalse (by
      intro c2 hc2 x hx hxv
      exact absurd hxv (List.not_mem_nil x))
  rcases hcn with ⟨v, hvc, hvk⟩
  have hvvis := hnames v hvk
  exact absurd (hNBC c hc v hvc hvvis) (List.not_mem_nil v)

/-- With existing endpoints, a cycle among the connections empties the
built graph's topology order (and its critical path). -/
theorem buildComponentGraph_cycle_topo {V : Type} (p : Pipeline V)
    (qEnum : List String) (c : List String)
    (hEnd : ∀ conn ∈ p.connections,
      conn.fromComponent ∈ p.components.keys ∧
        conn.toComponent ∈ p.components.keys)
    (hq1 : qEnum.Nodup) (hq2 : ∀ x ∈ qEnum, x ∈ p.components.keys)
    (hc : IsCycleE (connPairs p.connections) c) :
    buildComponentGraph p qEnum =
      { nodes := (graphAfterConns (initNodes p.components) p.connections).1,
        edges := (graphAfterConns (initNodes p.components) p.connections).2,
        topologyOrder := [], criticalPath := [] } := by
  have hkeys : (p.connections.foldl gacStep (initNodes p.components)).keys =
      p.components.keys := by
    rw [gacFold_keys, initNodes_keys]
  have hpairs : edgePairs (p.connections.map gacEdge) =
      connPairs p.connections := by
    simp [edgePairs, connPairs, gacEdge, List.map_map]
  have hnone : calculateTopologyOrder
      (p.connections.foldl gacStep (initNodes p.components))
      (p.connections.map gacEdge) qEnum = none := by
    apply calculateTopologyOrder_cycle_none _ _ _ c
    · intro u hu
      rw [hpairs,
        validatorDepf_gacFold p.connections (initNodes p.components)
          (fun x hx => by
            rw [initNodes_keys]
            exact (hEnd x hx).1) u,
        validatorDepf_initNodes]
      rfl
    · intro e he
      rcases List.mem_map.mp he with ⟨conn, hconn, rfl⟩
      rw [hkeys]
      exact hEnd conn hconn
    · exact hq1
    · intro x hx
      rw [hkeys]
      exact hq2 x hx
    · rw [hpairs]
      exact hc
  simp only [buildComponentGraph, graphAfterConns_def]
  rw [hnone]

/-- The Cycle diagnostic emitted by `validateGraph`. -/
def cycleErr : PipelineValidationError :=
  { type := ValidationErrorType.cycle,
    message := "cycle detected in pipeline graph",
    severity := Severity.error }

/-- The comprehensive result's graph is the built graph (the build is
total: it cannot fail). -/
theorem validateComprehensive_graph {V : Type} (p : Pipeline V)
    (qEnum : List String) :
    (ValidateComprehensive p qEnum).componentGraph =
      buildComponentGraph p qEnum := rfl

/-- The valid flag is the absence of Critical- or Error-severity
diagnostics. -/
theorem validateComprehensive_valid {V : Type} (p : Pipeline V)
    (qEnum : List String) :
    (ValidateComprehensive p qEnum).valid =
      !((ValidateComprehensive p qEnum).errors.any (fun e =>
        e.severity == Severity.critical ||
          e.severity == Severity.error)) := rfl

/-- C6 (amended): for every pipeline containing a directed cycle among
its connections, comprehensive validation still builds the component
graph in full — every connection becomes an edge, with no failure — and
returns a result with valid == false containing at least one diagnostic
of type Cycle; provided additionally that every connection endpoint names
an existing component, the graph's topology order is empty for every
duplicate-free enumeration of the component names that seeds the
in-degree map (with phantom endpoints the order can be non-empty). -/
theorem C6_cycle_handling {V : Type} (p : Pipeline V) (qEnum c : List String)
    (hEnd : ∀ conn ∈ p.connections,
      conn.fromComponent ∈ p.components.keys ∧
        conn.toComponent ∈ p.components.keys)
    (hq1 : qEnum.Nodup) (hq2 : ∀ x ∈ qEnum, x ∈ p.components.keys)
    (hc : IsCycleE (connPairs p.connections) c) :
    (ValidateComprehensive p qEnum).componentGraph.edges =
        p.connections.map gacEdge ∧
      (ValidateComprehensive p qEnum).componentGraph.topologyOrder = [] ∧
      (ValidateComprehensive p qEnum).valid = false ∧
      ∃ e ∈ (ValidateComprehensive p qEnum).errors,
        e.type = ValidationErrorType.cycle := by
  have hbuild := buildComponentGraph_cycle_topo p qEnum c hEnd hq1 hq2 hc
  have hgraph := validateComprehensive_graph p qEnum
  have hv0 : ∃ v ∈ c, v ∈ p.components.keys := by
    have hm := List.getLast_mem hc.1
    rcases cycle_pred _ c hc _ hm with ⟨u, hu, hedge⟩
    rcases List.mem_map.mp hedge with ⟨conn, hconn, heqp⟩
    have h2 : conn.toComponent = c.getLast hc.1 := congrArg Prod.snd heqp
    exact ⟨_, hm, h2 ▸ (hEnd conn hconn).2⟩
  have hdet : detectCycles p = true := detectCycles_complete p c hc hv0
  have hgd : (validateGraph NewPipelineValidator p).1 = [cycleErr] := by
    simp [validateGraph, NewPipelineValidator, hdet, cycleErr]
  have hmem : cycleErr ∈ (ValidateComprehensive p qEnum).errors := by
    rw [validateComprehensive_errors, hgd]
    exact List.mem_append_left _ (List.mem_append_right _
      (List.mem_singleton_self _))
  refine ⟨?_, ?_, ?_, ?_⟩
  · rw [hgraph, hbuild]
    show (graphAfterConns (initNodes p.components) p.connections).2 = _
    rw [graphAfterConns_def]
  · rw [hgraph, hbuild]
  · have hany : (ValidateComprehensive p qEnum).errors.any (fun e =>
        e.severity == Severity.critical ||
          e.severity == Severity.error) = true := by
      rw [List.any_eq_true]
      exact ⟨_, hmem, rfl⟩
    rw [validateComprehensive_valid, hany]
    rfl
  · exact ⟨_, hmem, rfl⟩

/-- A cycle-member component for the C6 witness pipeline. -/
def nodeC6 (nm : String) : Component Unit :=
  { name := nm,
    inputs := [{ name := "in", type := GoType.tstr }],
    outputs := [{ name := "out", type := GoType.tstr }],
    process := fun _ => Except.ok [("out", some Unit.unit)] }

/-- An out-to-in connection for the C6 pipelines. -/
def connC6 (a b : String) : Connection :=
  { fromComponent := a, fromPort := "out", toComponent := b, toPort := "in",
    bufferSize := 100, name := a ++ "-" ++ b }

/-- Three components in a directed cycle a → b → c → a. -/
def pC6cyc : Pipeline Unit :=
  { name := "cyc",
    components := [("a", nodeC6 "a"), ("b", nodeC6 "b"), ("c", nodeC6 "c")],
    connections := [connC6 "a" "b", connC6 "b" "c", connC6 "c" "a"],
    errors := [],
    config := NewDefaultPipelineConfig }

theorem C6_cycle_handling_witness :
    (ValidateComprehensive pC6cyc ["a", "b", "c"]).componentGraph.edges =
        pC6cyc.connections.map gacEdge ∧
      (ValidateComprehensive pC6cyc
        ["a", "b", "c"]).componentGraph.topologyOrder = [] ∧
      (ValidateComprehensive pC6cyc ["a", "b", "c"]).valid = false ∧
      ∃ e ∈ (ValidateComprehensive pC6cyc ["a", "b", "c"]).errors,
        e.type = ValidationErrorType.cycle :=
  C6_cycle_handling pC6cyc ["a", "b", "c"] ["a", "b", "c"]
    (by decide) (by decide) (by decide)
    ⟨by decide, List.Chain.cons (by decide) (List.Chain.cons (by decide)
      (List.Chain.cons (by decide) List.Chain.nil))⟩

/-- The same cycle a → b → c → a together with three sources feeding
phantom components p1, p2, p3 that are not in the component map. -/
def pC6x : Pipeline Unit :=
  { name := "phantom",
    components := [("a", nodeC6 "a"), ("b", nodeC6 "b"), ("c", nodeC6 "c"),
      ("s1", nodeC6 "s1"), ("s2", nodeC6 "s2"), ("s3", nodeC6 "s3")],
    connections := [connC6 "a" "b", connC6 "b" "c", connC6 "c" "a",
      connC6 "s1" "p1", connC6 "s2" "p2", connC6 "s3" "p3"],
    errors := [],
    config := NewDefaultPipelineConfig }

/-- C6 counterexample to the claim as stated: `pC6x` contains the
directed cycle a → b → c → a, yet with the in-degree map enumerated in
insertion order the produced order has full length (the three phantom
targets stand in for the three cycle members), so the topology order is
*not* empty. -/
theorem C6_counterexample :
    IsCycleE (connPairs pC6x.connections) ["a", "b", "c"] ∧
      (ValidateComprehensive pC6x
        ["a", "b", "c", "s1", "s2", "s3", "p1", "p2", "p3"]
        ).componentGraph.topologyOrder =
        ["s1", "s2", "s3", "p1", "p2", "p3"] ∧
      (ValidateComprehensive pC6x
        ["a", "b", "c", "s1", "s2", "s3", "p1", "p2", "p3"]
        ).componentGraph.topologyOrder ≠ [] :=
  ⟨⟨by decide, List.Chain.cons (by decide) (List.Chain.cons (by decide)
      (List.Chain.cons (by decide) List.Chain.nil))⟩,
    by decide, by decide⟩

/-- When no node has dependents, the Kahn loop drains the queue in order:
the output is exactly the seeded queue. -/
theorem kahnLoop_no_deps (depf : String → List String)
    (hdepf : ∀ u, depf u = []) :
    ∀ (queue : List String) (fuel : Nat) (inDeg : SMap Int)
      (acc : List String), queue.length < fuel →
      kahnLoop depf fuel queue inDeg acc = acc ++ queue := by
  intro queue
  induction queue with
  | nil =>
      intro fuel inDeg acc hf
      cases fuel with
      | zero => omega
      | succ f => simp [kahnLoop]
  | cons cur rest ih =>
      intro fuel inDeg acc hf
      cases fuel with
      | zero => omega
      | succ f =>
          have hunf : kahnLoop depf (f + 1) (cur :: rest) inDeg acc =
              kahnLoop depf f rest inDeg (acc ++ [cur]) := by
            simp only [kahnLoop, hdepf cur, kahnStepDecs, List.foldl_nil]
          rw [hunf, ih f inDeg (acc ++ [cur]) (by
            simp only [List.length_cons] at hf
            omega)]
          simp

/-- C3 (amended): the computed topological order is a function of the
pipeline together with the iteration order of the in-degree map, and ties
among simultaneously ready nodes are broken by that iteration order — not
by component insertion order.  In the all-ties case (a pipeline with no
connections) the computed order is exactly the enumeration order. -/
theorem C3_topo_order_follows_enumeration {V : Type} (p : Pipeline V)
    (qEnum : List String)
    (hnoconn : p.connections = [])
    (hq2 : ∀ x ∈ qEnum, x ∈ p.components.keys)
    (hlen : qEnum.length = p.components.keys.length) :
    (ValidateComprehensive p qEnum).componentGraph.topologyOrder = qEnum := by
  have hqkeys : ∀ x ∈ qEnum, x ∈ (initNodes p.components).keys := by
    intro x hx
    rw [initNodes_keys]
    exact hq2 x hx
  have hfilter : qEnum.filter
      (fun n => (((initInDegree (initNodes p.components)
        ([] : List GraphEdge)).get? n).getD 0 = 0)) = qEnum := by
    apply List.filter_eq_self.mpr
    intro x hx
    have hg := initInDegree_get? (initNodes p.components) [] x (hqkeys x hx)
    rw [hg]
    simp [indegE, edgePairs]
  have horder : kahnLoop (validatorDepf (initNodes p.components))
      (qEnum.length + ([] : List GraphEdge).length + 1) qEnum
      (initInDegree (initNodes p.components) []) [] = qEnum := by
    rw [kahnLoop_no_deps (validatorDepf (initNodes p.components))
      (validatorDepf_initNodes p.components) qEnum _ _ _ (by simp)]
    simp
  have hcalc : calculateTopologyOrder (initNodes p.components)
      ([] : List GraphEdge) qEnum = some qEnum := by
    simp only [calculateTopologyOrder]
    rw [hfilter, horder, if_pos (by rw [initNodes_keys]; exact hlen)]
  rw [validateComprehensive_graph]
  simp only [buildComponentGraph, graphAfterConns_def, hnoconn,
    List.foldl_nil, List.map_nil]
  rw [hcalc]

/-- Two isolated components: every topological order is a pure tie. -/
def pC3 : Pipeline Unit :=
  { name := "ties",
    components := [("a", nodeC6 "a"), ("b", nodeC6 "b")],
    connections := [],
    errors := [],
    config := NewDefaultPipelineConfig }

theorem C3_topo_order_follows_enumeration_witness :
    (ValidateComprehensive pC3 ["b", "a"]).componentGraph.topologyOrder =
      ["b", "a"] :=
  C3_topo_order_follows_enumeration pC3 ["b", "a"] rfl (by decide)
    (by decide)

/-- C3 counterexample to the claim as stated: on the same two-component
pipeline, two runs whose in-degree maps enumerate in different orders
(as Go map iteration may) return different topological orders, so the
computation is not deterministic across invocations and does not break
ties by insertion order. -/
theorem C3_counterexample :
    (ValidateComprehensive pC3 ["a", "b"]).componentGraph.topologyOrder =
        ["a", "b"] ∧
      (ValidateComprehensive pC3 ["b", "a"]).componentGraph.topologyOrder =
        ["b", "a"] ∧
      (ValidateComprehensive pC3 ["a", "b"]).componentGraph.topologyOrder ≠
        (ValidateComprehensive pC3 ["b", "a"]).componentGraph.topologyOrder :=
  ⟨by decide, by decide, by decide⟩

/-! ## Claim C1: a small-step model of `ConcurrentEngine.Run` -/

/-- The `component.port` data key used by both engines. -/
def keyOf (cn pn : String) : String := cn ++ "." ++ pn

/-- A single receive obligation of a worker's input scan: an external
input channel, or the internal channel of one matching connection. -/
inductive RSrc : Type where
  | ext : String → RSrc
  | ch : String → RSrc
  deriving DecidableEq, Repr

/-- The receive plan of `ConcurrentEngine.Run`'s input loop, one entry
per input port: an external input channel takes precedence; otherwise one
receive per matching connection, in connection order (each receive
overwrites `data`, which stays nil when there is no match). -/
def initPlan {V : Type} (extIn : SMap (List (Option V)))
    (conns : List Connection) (nm : String) (comp : Component V) :
    List (String × Option V × List RSrc) :=
  comp.inputs.map (fun port =>
    (port.name, none,
     if (extIn.get? port.name).isSome then [RSrc.ext port.name]
     else (conns.filter (fun c =>
         c.toComponent == nm && c.toPort == port.name)).map
       (fun c => RSrc.ch (chanKey c))))

/-- A worker's phase: receiving its inputs port by port, sending its
outputs entry by entry, or finished/failed. -/
inductive WPhase (V : Type) : Type where
  | gather : List (String × Option V × List RSrc) → SMap (Option V) →
      WPhase V
  | sends : List (String × Option V) → WPhase V
  | done : WPhase V
  | failed : String → WPhase V

/-- One goroutine of `ConcurrentEngine.Run`, with its private log of
writes to external output channels. -/
structure CWorker (V : Type) : Type where
  name : String
  comp : Component V
  phase : WPhase V
  elog : List (String × Option V)

/-- A configuration of the concurrent run: the workers (in component map
order) and the remaining external input streams. -/
structure CConfig (V : Type) : Type where
  workers : List (CWorker V)
  extIn : SMap (List (Option V))

/-- The keys of the channels allocated by `ConcurrentEngine.Run` (one per
distinct source endpoint among the connections). -/
def chanKeysOf (conns : List Connection) : List String :=
  conns.map chanKey

/-- The initial configuration: one goroutine per component. -/
def initConfig {V : Type} (p : Pipeline V)
    (extIn : SMap (List (Option V))) : CConfig V :=
  { workers := p.components.map (fun e =>
      { name := e.1, comp := e.2,
        phase := WPhase.gather (initPlan extIn p.connections e.1 e.2)
          SMap.empty,
        elog := [] }),
    extIn := extIn }

/-- The value a receive obligation delivers relative to a value map:
internal channels deliver the value their sender published. -/
def rsrcVal {V : Type} (data : SMap (Option V)) : RSrc → Option V
  | RSrc.ext _ => none
  | RSrc.ch k => (data.get? k).getD none

/-- Resolve a port's remaining receives against a value map (each receive
overwrites the previous value). -/
def consume {V : Type} (data : SMap (Option V)) (cur : Option V) :
    List RSrc → Option V
  | [] => cur
  | s :: rest => consume data (rsrcVal data s) rest

/-- Resolve a whole input scan against a value map. -/
def finishRow {V : Type} (data : SMap (Option V)) :
    List (String × Option V × List RSrc) → SMap (Option V) →
      SMap (Option V)
  | [], acc => acc
  | (pn, cur, srcs) :: rest, acc =>
      finishRow data rest (acc.insert pn (consume data cur srcs))

/-- The input map `ConcurrentEngine.Run` hands a component's process when
no external inputs are wired, with every internal receive resolved
against a value map. -/
def rowOf {V : Type} (data : SMap (Option V)) (conns : List Connection)
    (nm : String) (comp : Component V) : SMap (Option V) :=
  finishRow data (initPlan SMap.empty conns nm comp) SMap.empty

/-- A scheduler-autonomous step of one worker: finishing a port, invoking
the process, sending to an always-ready external output channel, skipping
an output with no channel, receiving an available external input, or
returning.  Internal-channel obligations need a rendezvous and are not
autonomous. -/
def advStep {V : Type} (extOutNames chanKeys : List String) (w : CWorker V)
    (extIn : SMap (List (Option V))) :
    Option (CWorker V × SMap (List (Option V))) :=
  match w.phase with
  | WPhase.gather [] acc =>
      match w.comp.process acc with
      | Except.ok outs => some ({ w with phase := WPhase.sends outs }, extIn)
      | Except.error e => some ({ w with phase := WPhase.failed e }, extIn)
  | WPhase.gather ((pn, cur, []) :: rest) acc =>
      some ({ w with phase := WPhase.gather rest (acc.insert pn cur) },
        extIn)
  | WPhase.gather ((pn, _, RSrc.ext en :: srcs) :: rest) acc =>
      match extIn.get? en with
      | some (v :: vs) =>
          some ({ w with
            phase := WPhase.gather ((pn, v, srcs) :: rest) acc },
            extIn.insert en vs)
      | _ => none
  | WPhase.gather ((_, _, RSrc.ch _ :: _) :: _) _ => none
  | WPhase.sends [] => some ({ w with phase := WPhase.done }, extIn)
  | WPhase.sends ((pn, v) :: rest) =>
      if pn ∈ extOutNames then
        some ({ w with
                  phase := WPhase.sends rest,
                  elog := w.elog ++ [(pn, v)] }, extIn)
      else if keyOf w.name pn ∈ chanKeys then none
      else some ({ w with phase := WPhase.sends rest }, extIn)
  | _ => none

/-- A rendezvous on an internal unbuffered channel: the sender's current
output entry is delivered to a worker waiting on that channel's key. -/
def commStep {V : Type} (extOutNames chanKeys : List String)
    (ws wr : CWorker V) : Option (CWorker V × CWorker V) :=
  match ws.phase, wr.phase with
  | WPhase.sends ((pn, v) :: srest),
    WPhase.gather ((qn, _, RSrc.ch k :: qsrcs) :: grest) acc =>
      if k = keyOf ws.name pn ∧ ¬ pn ∈ extOutNames ∧ k ∈ chanKeys then
        some ({ ws with phase := WPhase.sends srest },
              { wr with phase := WPhase.gather ((qn, v, qsrcs) :: grest) acc })
      else none
  | _, _ => none

/-- A schedule label: an autonomous step of worker `i`, or a rendezvous
from sender `i` to receiver `j`. -/
inductive CLabel : Type where
  | adv : Nat → CLabel
  | comm : Nat → Nat → CLabel
  deriving DecidableEq, Repr

/-- One scheduled step of the concurrent run. -/
def cstep {V : Type} (extOutNames chanKeys : List String)
    (conf : CConfig V) : CLabel → Option (CConfig V)
  | CLabel.adv i =>
      match conf.workers.get? i with
      | none => none
      | some w =>
          match advStep extOutNames chanKeys w conf.extIn with
          | none => none
          | some (w2, ext2) =>
              some { workers := conf.workers.set i w2, extIn := ext2 }
  | CLabel.comm i j =>
      if i = j then none
      else
        match conf.workers.get? i, conf.workers.get? j with
        | some wi, some wj =>
            match commStep extOutNames chanKeys wi wj with
            | none => none
            | some (wi2, wj2) =>
                some { conf with
                  workers := (conf.workers.set i wi2).set j wj2 }
        | _, _ => none

/-- Run a schedule from a configuration. -/
def crun {V : Type} (extOutNames chanKeys : List String) :
    List CLabel → CConfig V → Option (CConfig V)
  | [], conf => some conf
  | l :: rest, conf =>
      match cstep extOutNames chanKeys conf l with
      | none => none
      | some conf2 => crun extOutNames chanKeys rest conf2

/-- Whether a worker has returned normally. -/
def CWorker.isDone {V : Type} (w : CWorker V) : Bool :=
  match w.phase with
  | WPhase.done => true
  | _ => false

/-- Every goroutine returned without error: `wg.Wait` fires, `errCh`
closes empty and `Run` returns nil. -/
def isComplete {V : Type} (conf : CConfig V) : Bool :=
  conf.workers.all CWorker.isDone

/-- No step of any kind is enabled — with incomplete workers, a
deadlock. -/
def noStep {V : Type} (extOutNames chanKeys : List String)
    (conf : CConfig V) : Bool :=
  ((List.range conf.workers.length).all (fun i =>
      (cstep extOutNames chanKeys conf (CLabel.adv i)).isNone)) &&
    ((List.range conf.workers.length).all (fun i =>
      (List.range conf.workers.length).all (fun j =>
        (cstep extOutNames chanKeys conf (CLabel.comm i j)).isNone)))

/-- `noStep` really rules out every label. -/
theorem noStep_spec {V : Type} (extOutNames chanKeys : List String)
    (conf : CConfig V) (h : noStep extOutNames chanKeys conf = true) :
    ∀ l, cstep extOutNames chanKeys conf l = none := by
  rw [noStep, Bool.and_eq_true, List.all_eq_true, List.all_eq_true] at h
  obtain ⟨h1, h2⟩ := h
  intro l
  cases l with
  | adv i =>
      by_cases hi : i < conf.workers.length
      · have := h1 i (List.mem_range.mpr hi)
        exact Option.isNone_iff_eq_none.mp this
      · have hin : conf.workers[i]? = none :=
          List.getElem?_eq_none (by omega)
        simp [cstep, hin]
  | comm i j =>
      by_cases hij : i = j
      · simp [cstep, hij]
      · by_cases hi : i < conf.workers.length
        · by_cases hj : j < conf.workers.length
          · have := h2 i (List.mem_range.mpr hi)
            rw [List.all_eq_true] at this
            exact Option.isNone_iff_eq_none.mp
              (this j (List.mem_range.mpr hj))
          · have hjn : conf.workers[j]? = none :=
              List.getElem?_eq_none (by omega)
            cases hgi : conf.workers[i]? with
            | none => simp [cstep, hij, hgi, hjn]
            | some wi => simp [cstep, hij, hgi, hjn]
        · have hin : conf.workers[i]? = none :=
            List.getElem?_eq_none (by omega)
          cases hgj : conf.workers[j]? with
          | none => simp [cstep, hij, hin, hgj]
          | some wj => simp [cstep, hij, hin, hgj]

theorem mem_connPairs (conns : List Connection) (x : String × String) :
    x ∈ connPairs conns ↔
      ∃ c ∈ conns, x = (c.fromComponent, c.toComponent) := by
  simp only [connPairs, List.mem_map]
  constructor
  · rintro ⟨c, hc, rfl⟩
    exact ⟨c, hc, rfl⟩
  · rintro ⟨c, hc, rfl⟩
    exact ⟨c, hc, rfl⟩

/-- The pair fold of `NewGraph` splits into an adjacency fold and an
in-degree fold. -/
theorem newGraph_fold_split :
    ∀ (conns : List Connection) (st : SMap (List String) × SMap Int),
      conns.foldl (fun st c =>
        (st.1.insert c.fromComponent
           ((st.1.get? c.fromComponent).getD [] ++ [c.toComponent]),
         st.2.insert c.toComponent
           ((st.2.get? c.toComponent).getD 0 + 1))) st =
      (conns.foldl (fun m c => m.insert c.fromComponent
          ((m.get? c.fromComponent).getD [] ++ [c.toComponent])) st.1,
       conns.foldl (fun m c => m.insert c.toComponent
          ((m.get? c.toComponent).getD 0 + 1)) st.2) := by
  intro conns
  induction conns with
  | nil => intro st; rfl
  | cons c rest ih =>
      intro st
      rw [List.foldl_cons, ih]
      rfl

theorem adjFold_get? :
    ∀ (conns : List Connection) (m : SMap (List String)) (n : String),
      ((conns.foldl (fun m c => m.insert c.fromComponent
          ((m.get? c.fromComponent).getD [] ++ [c.toComponent])) m).get?
        n).getD [] =
      (m.get? n).getD [] ++ targetsOfE (connPairs conns) n := by
  intro conns
  induction conns with
  | nil =>
      intro m n
      simp [connPairs, targetsOfE]
  | cons c rest ih =>
      intro m n
      rw [List.foldl_cons, ih]
      rw [show connPairs (c :: rest) =
        (c.fromComponent, c.toComponent) :: connPairs rest from rfl,
        targetsOfE_cons]
      by_cases hn : c.fromComponent = n
      · subst hn
        rw [SMap.get?_insert_self]
        simp [List.append_assoc]
      · rw [SMap.get?_insert_ne _ _ _ _ hn,
          if_neg (show ¬ (c.fromComponent, c.toComponent).1 = n from hn)]
        simp

theorem degFold_get? :
    ∀ (conns : List Connection) (m : SMap Int) (v : String),
      (conns.foldl (fun m c => m.insert c.toComponent
          ((m.get? c.toComponent).getD 0 + 1)) m).get? v =
      if v ∈ conns.map Connection.toComponent then
        some ((m.get? v).getD 0 + (indegE (connPairs conns) v : Int))
      else m.get? v := by
  intro conns
  induction conns with
  | nil =>
      intro m v
      show m.get? v = if v ∈ ([] : List String) then _ else m.get? v
      simp
  | cons c rest ih =>
      intro m v
      rw [List.foldl_cons, ih]
      have hpair : connPairs (c :: rest) =
          (c.fromComponent, c.toComponent) :: connPairs rest := rfl
      rw [List.map_cons, hpair, indegE_cons]
      by_cases hv : c.toComponent = v
      · subst hv
        rw [if_pos (List.mem_cons_self _ _)]
        by_cases hm : c.toComponent ∈ rest.map Connection.toComponent
        · rw [if_pos hm, SMap.get?_insert_self]
          rw [if_pos (show (c.fromComponent, c.toComponent).2 =
            c.toComponent from rfl)]
          simp only [Option.getD_some]
          congr 1
          push_cast
          omega
        · rw [if_neg hm, SMap.get?_insert_self]
          rw [if_pos (show (c.fromComponent, c.toComponent).2 =
            c.toComponent from rfl)]
          have hz : indegE (connPairs rest) c.toComponent = 0 := by
            apply indegE_zero
            intro x hx hx2
            rcases (mem_connPairs rest x).mp hx with ⟨cd, hcd, rfl⟩
            exact hm (hx2 ▸ List.mem_map_of_mem Connection.toComponent hcd)
          rw [hz]
          congr 1
          try push_cast
          try omega
      · rw [if_neg (show ¬ (c.fromComponent, c.toComponent).2 = v from hv),
          SMap.get?_insert_ne _ _ _ _ hv]
        by_cases hm : v ∈ rest.map Connection.toComponent
        · rw [if_pos hm, if_pos (List.mem_cons_of_mem _ hm)]
          congr 1
          try push_cast
          try omega
        · rw [if_neg hm, if_neg (by
            intro hmem
            rcases List.mem_cons.mp hmem with h | h
            · exact hv h.symm
            · exact hm h)]

theorem foldZero_get? {α : Type} :
    ∀ (l : SMap α) (m : SMap Int) (v : String),
      ((l : List (String × α)).foldl
        (fun m e => m.insert e.1 0) m).get? v =
        if v ∈ l.keys then some 0 else m.get? v := by
  intro l
  induction l with
  | nil =>
      intro m v
      show m.get? v = if v ∈ ([] : List String) then some 0 else m.get? v
      simp
  | cons e rest ih =>
      intro m v
      obtain ⟨k0, x0⟩ := e
      rw [List.foldl_cons, ih]
      have hk : SMap.keys ((k0, x0) :: rest) = k0 :: SMap.keys rest := rfl
      rw [hk]
      by_cases hr : v ∈ SMap.keys rest
      · rw [if_pos hr, if_pos (List.mem_cons_of_mem _ hr)]
      · rw [if_neg hr]
        by_cases hv : k0 = v
        · subst hv
          rw [if_pos (List.mem_cons_self _ _), SMap.get?_insert_self]
        · rw [SMap.get?_insert_ne _ _ _ _ hv, if_neg (by
            intro hmem
            rcases List.mem_cons.mp hmem with h | h
            · exact hv h.symm
            · exact hr h)]

/-- `NewGraph`'s adjacency agrees with the connection targets. -/
theorem NewGraph_edges_get? {V : Type} (p : Pipeline V) (n : String) :
    (((NewGraph p).edges.get? n).getD []) =
      targetsOfE (connPairs p.connections) n := by
  simp only [NewGraph, newGraph_fold_split]
  rw [adjFold_get?]
  rfl

/-- `NewGraph`'s in-degree of a component counts its in-edges. -/
theorem NewGraph_inDegree_get? {V : Type} (p : Pipeline V) (v : String)
    (hv : v ∈ p.components.keys) :
    (NewGraph p).inDegree.get? v =
      some ((indegE (connPairs p.connections) v : Int)) := by
  simp only [NewGraph, newGraph_fold_split]
  rw [degFold_get?, foldZero_get?, if_pos hv]
  by_cases hm : v ∈ p.connections.map Connection.toComponent
  · rw [if_pos hm]
    simp
  · rw [if_neg hm]
    have hz : indegE (connPairs p.connections) v = 0 := by
      apply indegE_zero
      intro x hx hx2
      rcases (mem_connPairs p.connections x).mp hx with ⟨cd, hcd, rfl⟩
      exact hm (hx2 ▸ List.mem_map_of_mem Connection.toComponent hcd)
    rw [hz]
    rfl

theorem foldIns_keys {α : Type} :
    ∀ (l : SMap α) (m : SMap α), l.keys.Nodup →
      (∀ k ∈ l.keys, m.get? k = none) →
      ((l : List (String × α)).foldl
        (fun m e => m.insert e.1 e.2) m).keys = m.keys ++ l.keys := by
  intro l
  induction l with
  | nil =>
      intro m _ _
      show m.keys = m.keys ++ []
      simp
  | cons e rest ih =>
      intro m hnd hdis
      obtain ⟨k0, x0⟩ := e
      have hk : SMap.keys ((k0, x0) :: rest) = k0 :: SMap.keys rest := rfl
      rw [hk] at hnd hdis ⊢
      have hk0 : k0 ∉ m.keys := by
        intro hmem
        rcases (SMap.mem_keys_iff m k0).mp hmem with ⟨v, hv⟩
        rw [hdis k0 (List.mem_cons_self _ _)] at hv
        exact Option.noConfusion hv
      rw [List.foldl_cons, ih (m.insert k0 x0)
        (List.Nodup.of_cons hnd)
        (fun k hkr => by
          rw [SMap.get?_insert_ne _ _ _ _ (by
            rintro rfl
            exact (List.nodup_cons.mp hnd).1 hkr)]
          exact hdis k (List.mem_cons_of_mem _ hkr)),
        SMap.keys_insert, if_neg hk0]
      simp

theorem SMap.keys_length {α : Type} (m : SMap α) :
    m.keys.length = (m : List (String × α)).length := by
  induction m with
  | nil => rfl
  | cons e rest ih =>
      obtain ⟨k0, x0⟩ := e
      show (SMap.keys rest).length + 1 = rest.length + 1
      rw [ih]

theorem NewGraph_nodes_length {V : Type} (p : Pipeline V)
    (hnd : p.components.keys.Nodup) :
    ((NewGraph p).nodes : List (String × Component V)).length =
      p.components.keys.length := by
  simp only [NewGraph]
  rw [← SMap.keys_length,
    foldIns_keys p.components SMap.empty hnd (fun k _ => rfl)]
  rfl

/-- Properties of a successful `Graph.TopologicalSort`: the order is
duplicate-free, covers exactly the component names, and lists every
connection's source before its target. -/
theorem sorted_props {V : Type} (p : Pipeline V)
    (qEnum sorted : List String)
    (hnd : p.components.keys.Nodup)
    (hconn : ∀ c ∈ p.connections, c.fromComponent ∈ p.components.keys ∧
      c.toComponent ∈ p.components.keys)
    (hq1 : qEnum.Nodup) (hq2 : ∀ x ∈ qEnum, x ∈ p.components.keys)
    (hs : (NewGraph p).topologicalSort qEnum = some sorted) :
    sorted.Nodup ∧ (∀ x ∈ sorted, x ∈ p.components.keys) ∧
      (∀ (n : Nat) (w : String), sorted[n]? = some w →
        ∀ e ∈ connPairs p.connections, e.2 = w → e.1 ∈ sorted.take n) ∧
      (∀ k ∈ p.components.keys, k ∈ sorted) := by
  have hE2 : ∀ e ∈ connPairs p.connections,
      e.1 ∈ p.components.keys ∧ e.2 ∈ p.components.keys := by
    intro e he
    rcases (mem_connPairs p.connections e).mp he with ⟨c, hc, rfl⟩
    exact hconn c hc
  have hdeg0 : ∀ v ∈ p.components.keys, (NewGraph p).inDegree.get? v =
      some ((indegE (connPairs p.connections) v : Int)) :=
    fun v hv => NewGraph_inDegree_get? p v hv
  have hinit : KInv (connPairs p.connections) p.components.keys
      (NewGraph p).inDegree
      (qEnum.filter
        (fun n => (((NewGraph p).inDegree.get? n).getD 0 = 0))) [] := by
    apply KInv_init _ _ _ hdeg0
    · exact hq1.filter _
    · intro x hx
      exact hq2 x (List.mem_of_mem_filter hx)
    · intro x hx
      exact of_decide_eq_true (List.mem_filter.mp hx).2
  obtain ⟨hcnt, hsub, hord⟩ := kahnLoop_props (connPairs p.connections)
    p.components.keys hE2
    (fun n => (((NewGraph p).edges.get? n).getD []))
    (fun u _ => NewGraph_edges_get? p u)
    (qEnum.length + (NewGraph p).totalAdj + 1)
    (qEnum.filter
      (fun n => (((NewGraph p).inDegree.get? n).getD 0 = 0)))
    (NewGraph p).inDegree [] hinit
  simp only [ExecGraph.topologicalSort] at hs
  split at hs
  · rename_i hlen
    have hso : sorted = kahnLoop
        (fun n => (((NewGraph p).edges.get? n).getD []))
        (qEnum.length + (NewGraph p).totalAdj + 1)
        (qEnum.filter
          (fun n => (((NewGraph p).inDegree.get? n).getD 0 = 0)))
        (NewGraph p).inDegree [] := by
      injection hs with hs2
      exact hs2.symm
    rw [hso]
    refine ⟨List.nodup_iff_count_le_one.mpr hcnt, hsub, hord, ?_⟩
    intro k hk
    have hsp : List.Subperm (kahnLoop
        (fun n => (((NewGraph p).edges.get? n).getD []))
        (qEnum.length + (NewGraph p).totalAdj + 1)
        (qEnum.filter
          (fun n => (((NewGraph p).inDegree.get? n).getD 0 = 0)))
        (NewGraph p).inDegree []) p.components.keys :=
      List.subperm_of_subset (List.nodup_iff_count_le_one.mpr hcnt) hsub
    have hlen2 := NewGraph_nodes_length p hnd
    have hperm := hsp.perm_of_length_le (by
      rw [hlen, hlen2])
    exact (hperm.mem_iff).mpr hk
  · exact Option.noConfusion hs

instance {α : Type} : Membership (String × α) (SMap α) :=
  inferInstanceAs (Membership (String × α) (List (String × α)))

theorem SMap.insert_insert_self {α : Type} (m : SMap α) (k : String)
    (a b : α) : (m.insert k a).insert k b = m.insert k b := by
  induction m with
  | nil => simp [SMap.insert]
  | cons e rest ih =>
      obtain ⟨k0, v0⟩ := e
      by_cases h : k0 = k
      · simp [SMap.insert, h]
      · simp [SMap.insert, h, ih]

theorem SMap.get?_mem {α : Type} (m : SMap α) (k : String) (v : α)
    (h : m.get? k = some v) : (k, v) ∈ m := by
  induction m with
  | nil => exact absurd h (by simp [SMap.get?])
  | cons e rest ih =>
      obtain ⟨k0, v0⟩ := e
      by_cases hk : k0 = k
      · subst hk
        simp only [SMap.get?, if_pos rfl] at h
        injection h with h2
        subst h2
        exact List.mem_cons_self _ _
      · simp only [SMap.get?, if_neg hk] at h
        exact List.mem_cons_of_mem _ (ih h)

theorem SMap.isSome_insert {α : Type} (m : SMap α) (k0 k : String) (v : α)
    (h : ((m.insert k0 v).get? k).isSome = true) :
    k = k0 ∨ (m.get? k).isSome = true := by
  by_cases hk : k = k0
  · exact Or.inl hk
  · right
    rwa [SMap.get?_insert_ne _ _ _ _ (fun hh => hk hh.symm)] at h

/-- The last-match value of the gather scan for one port. -/
def gvalAux {V : Type} (data : SMap (Option V)) :
    Option V → List Connection → Option V
  | cur, [] => cur
  | _, c :: rest =>
      gvalAux data ((data.get? (chanKey c)).getD none) rest

theorem gvalAux_ne_nil {V : Type} (data : SMap (Option V))
    (a b : Option V) :
    ∀ ms : List Connection, ms ≠ [] →
      gvalAux data a ms = gvalAux data b ms := by
  intro ms h
  cases ms with
  | nil => exact absurd rfl h
  | cons c rest => rfl

theorem gvalAux_congr {V : Type} (d1 d2 : SMap (Option V)) :
    ∀ (ms : List Connection) (cur : Option V),
      (∀ c ∈ ms, d1.get? (chanKey c) = d2.get? (chanKey c)) →
      gvalAux d1 cur ms = gvalAux d2 cur ms := by
  intro ms
  induction ms with
  | nil => intro cur _; rfl
  | cons c rest ih =>
      intro cur h
      show gvalAux d1 ((d1.get? (chanKey c)).getD none) rest = _
      rw [h c (List.mem_cons_self _ _)]
      exact ih _ (fun x hx => h x (List.mem_cons_of_mem _ hx))

/-- `seqGatherPort` in closed form: with at least one matching connection
the port entry becomes the last match's value; with none the map is
untouched. -/
theorem seqGatherPort_eq {V : Type} (name : String) (port : Port)
    (data : SMap (Option V)) :
    ∀ (conns : List Connection) (acc : SMap (Option V)),
      seqGatherPort conns name data acc port =
        (if (conns.filter (fun c =>
            c.toComponent == name && c.toPort == port.name)) = [] then acc
         else acc.insert port.name
           (gvalAux data none (conns.filter (fun c =>
             c.toComponent == name && c.toPort == port.name)))) := by
  intro conns
  induction conns with
  | nil =>
      intro acc
      rfl
  | cons c rest ih =>
      intro acc
      by_cases hm : (c.toComponent == name && c.toPort == port.name) = true
      · have hstep : seqGatherPort (c :: rest) name data acc port =
            seqGatherPort rest name data
              (acc.insert port.name
                ((data.get? (c.fromComponent ++ "." ++ c.fromPort)).getD
                  none)) port := by
          show (rest.foldl _ (if (c.toComponent == name &&
              c.toPort == port.name) = true then _ else acc)) = _
          rw [if_pos hm]
          rfl
        rw [hstep, ih, List.filter_cons, if_pos hm]
        rw [if_neg (List.cons_ne_nil _ _)]
        by_cases hr : (rest.filter (fun c =>
            c.toComponent == name && c.toPort == port.name)) = []
        · rw [if_pos hr, hr]
          rfl
        · rw [if_neg hr, SMap.insert_insert_self]
          show _ = acc.insert port.name (gvalAux data
            ((data.get? (chanKey c)).getD none) _)
          rw [gvalAux_ne_nil data _ _ _ hr]
      · have hstep : seqGatherPort (c :: rest) name data acc port =
            seqGatherPort rest name data acc port := by
          show (rest.foldl _ (if (c.toComponent == name &&
              c.toPort == port.name) = true then _ else acc)) = _
          rw [if_neg hm]
          rfl
        rw [hstep, ih, List.filter_cons, if_neg hm]

/-- With no external inputs wired, the gather loop never blocks and
leaves the streams untouched. -/
theorem seqGatherPorts_no_ext {V : Type} (conns : List Connection)
    (name : String) (data : SMap (Option V)) :
    ∀ (ports : List Port) (acc : SMap (Option V)),
      seqGatherPorts conns name data ports acc SMap.empty =
        some (ports.foldl
          (fun acc port => seqGatherPort conns name data acc port) acc,
          SMap.empty) := by
  intro ports
  induction ports with
  | nil => intro acc; rfl
  | cons port rest ih =>
      intro acc
      show seqGatherPorts conns name data rest
        (seqGatherPort conns name data acc port) SMap.empty = _
      rw [ih, List.foldl_cons]

theorem consume_map {V : Type} (data : SMap (Option V)) :
    ∀ (ms : List Connection) (cur : Option V),
      consume data cur (ms.map (fun c => RSrc.ch (chanKey c))) =
        gvalAux data cur ms := by
  intro ms
  induction ms with
  | nil => intro cur; rfl
  | cons c rest ih =>
      intro cur
      show consume data ((data.get? (chanKey c)).getD none)
        (rest.map (fun c => RSrc.ch (chanKey c))) = _
      exact ih _

/-- With no external inputs, the sequential gather computes exactly the
resolved input row. -/
theorem gather_eq_row {V : Type} (conns : List Connection) (nm : String)
    (data : SMap (Option V)) (comp : Component V)
    (hfed : ∀ port ∈ comp.inputs, ¬ (conns.filter (fun c =>
      c.toComponent == nm && c.toPort == port.name)) = []) :
    comp.inputs.foldl
      (fun acc port => seqGatherPort conns nm data acc port) SMap.empty =
      rowOf data conns nm comp := by
  show _ = finishRow data (initPlan SMap.empty conns nm comp) SMap.empty
  have main : ∀ (ports : List Port) (acc : SMap (Option V)),
      (∀ port ∈ ports, ¬ (conns.filter (fun c =>
        c.toComponent == nm && c.toPort == port.name)) = []) →
      ports.foldl
        (fun acc port => seqGatherPort conns nm data acc port) acc =
      finishRow data (ports.map (fun port =>
        (port.name, (none : Option V),
         if ((SMap.empty : SMap (List (Option V))).get?
             port.name).isSome then [RSrc.ext port.name]
         else (conns.filter (fun c =>
             c.toComponent == nm && c.toPort == port.name)).map
           (fun c => RSrc.ch (chanKey c))))) acc := by
    intro ports
    induction ports with
    | nil => intro acc _; rfl
    | cons port rest ih =>
        intro acc hf
        rw [List.foldl_cons, List.map_cons]
        have hempty : ((SMap.empty : SMap (List (Option V))).get?
            port.name).isSome = false := rfl
        rw [show (if ((SMap.empty : SMap (List (Option V))).get?
            port.name).isSome then [RSrc.ext port.name]
          else (conns.filter (fun c =>
              c.toComponent == nm && c.toPort == port.name)).map
            (fun c => RSrc.ch (chanKey c))) =
          (conns.filter (fun c =>
              c.toComponent == nm && c.toPort == port.name)).map
            (fun c => RSrc.ch (chanKey c)) from by rw [hempty]; rfl]
        show _ = finishRow data _
          (acc.insert port.name (consume data none _))
        rw [consume_map, seqGatherPort_eq,
          if_neg (hf port (List.mem_cons_self _ _))]
        exact ih _ (fun x hx => hf x (List.mem_cons_of_mem _ hx))
  rw [main comp.inputs SMap.empty hfed]
  rfl

/-- Pointwise congruence of `finishRow` in the value map. -/
theorem consume_congr {V : Type} (d1 d2 : SMap (Option V)) :
    ∀ (srcs : List RSrc) (cur : Option V),
      (∀ k, RSrc.ch k ∈ srcs → d1.get? k = d2.get? k) →
      consume d1 cur srcs = consume d2 cur srcs := by
  intro srcs
  induction srcs with
  | nil => intro cur _; rfl
  | cons src rest ih =>
      intro cur h
      cases src with
      | ext en =>
          show consume d1 none rest = consume d2 none rest
          exact ih _ (fun k hk => h k (List.mem_cons_of_mem _ hk))
      | ch k0 =>
          show consume d1 ((d1.get? k0).getD none) rest = _
          rw [h k0 (List.mem_cons_self _ _)]
          exact ih _ (fun k hk => h k (List.mem_cons_of_mem _ hk))

theorem finishRow_congr {V : Type} (d1 d2 : SMap (Option V)) :
    ∀ (pending : List (String × Option V × List RSrc))
      (acc : SMap (Option V)),
      (∀ pn cur srcs, (pn, cur, srcs) ∈ pending →
        ∀ k, RSrc.ch k ∈ srcs → d1.get? k = d2.get? k) →
      finishRow d1 pending acc = finishRow d2 pending acc := by
  intro pending
  induction pending with
  | nil => intro acc _; rfl
  | cons job rest ih =>
      intro acc h
      obtain ⟨pn, cur, srcs⟩ := job
      show finishRow d1 rest (acc.insert pn (consume d1 cur srcs)) = _
      rw [consume_congr d1 d2 srcs cur
        (fun k hk => h pn cur srcs (List.mem_cons_self _ _) k hk)]
      exact ih _ (fun pn2 cur2 srcs2 hmem k hk =>
        h pn2 cur2 srcs2 (List.mem_cons_of_mem _ hmem) k hk)

/-- The resolved row only reads the value map at in-edge channel keys. -/
theorem rowOf_congr {V : Type} (conns : List Connection) (nm : String)
    (comp : Component V) (d1 d2 : SMap (Option V))
    (h : ∀ c ∈ conns, c.toComponent = nm →
      d1.get? (chanKey c) = d2.get? (chanKey c)) :
    rowOf d1 conns nm comp = rowOf d2 conns nm comp := by
  apply finishRow_congr
  intro pn cur srcs hmem k hk
  rcases List.mem_map.mp hmem with ⟨port, hport, heq⟩
  have hfalse : ((SMap.empty : SMap (List (Option V))).get?
      port.name).isSome = false := rfl
  rw [hfalse] at heq
  simp only [Bool.false_eq_true, if_false] at heq
  cases heq
  rcases List.mem_map.mp hk with ⟨c, hcf, hck⟩
  have hm := List.mem_filter.mp hcf
  have ht : c.toComponent = nm :=
    of_decide_eq_true (Bool.and_elim_left hm.2)
  have hkc : k = chanKey c := by
    injection hck with h2
    exact h2.symm
  rw [hkc]
  exact h c hm.1 ht

theorem seqEmit_snd {V : Type} (ext : List String) (nm : String) :
    ∀ (outs : List (String × Option V))
      (st0 : SMap (Option V) × List (String × Option V)),
      (seqEmit ext nm outs st0).2 =
        st0.2 ++ outs.filter (fun e => decide (e.1 ∈ ext)) := by
  intro outs
  induction outs with
  | nil =>
      intro st0
      show st0.2 = st0.2 ++ []
      simp
  | cons e rest ih =>
      intro st0
      obtain ⟨pn, v⟩ := e
      show (seqEmit ext nm rest
        (st0.1.insert (nm ++ "." ++ pn) v,
         if pn ∈ ext then st0.2 ++ [(pn, v)] else st0.2)).2 = _
      rw [ih, List.filter_cons]
      by_cases hm : pn ∈ ext
      · rw [if_pos hm, if_pos (by simpa using hm)]
        simp [List.append_assoc]
      · rw [if_neg hm, if_neg (by simpa using hm)]

theorem seqEmit_fst_get?_other {V : Type} (ext : List String)
    (nm : String) :
    ∀ (outs : List (String × Option V))
      (st0 : SMap (Option V) × List (String × Option V)) (k : String),
      (∀ pn v, (pn, v) ∈ outs → ¬ k = keyOf nm pn) →
      (seqEmit ext nm outs st0).1.get? k = st0.1.get? k := by
  intro outs
  induction outs with
  | nil => intro st0 k _; rfl
  | cons e rest ih =>
      intro st0 k h
      obtain ⟨pn, v⟩ := e
      show (seqEmit ext nm rest
        (st0.1.insert (nm ++ "." ++ pn) v, _)).1.get? k = _
      rw [ih _ _ (fun pn2 v2 hm =>
        h pn2 v2 (List.mem_cons_of_mem _ hm))]
      exact SMap.get?_insert_ne _ _ _ _
        (fun hh => h pn v (List.mem_cons_self _ _) hh.symm)

theorem seqEmit_fst_get?_mem {V : Type} (ext : List String)
    (nm : String) :
    ∀ (outs : List (String × Option V))
      (st0 : SMap (Option V) × List (String × Option V))
      (pn : String) (v : Option V),
      (pn, v) ∈ outs →
      (∀ pn1 v1 pn2 v2, (pn1, v1) ∈ outs → (pn2, v2) ∈ outs →
        keyOf nm pn1 = keyOf nm pn2 → pn1 = pn2) →
      (outs.map Prod.fst).Nodup →
      (seqEmit ext nm outs st0).1.get? (keyOf nm pn) = some v := by
  intro outs
  induction outs with
  | nil =>
      intro st0 pn v hm
      exact absurd hm (List.not_mem_nil _)
  | cons e rest ih =>
      intro st0 pn v hm hkinj hnd
      obtain ⟨pn0, v0⟩ := e
      rcases List.mem_cons.mp hm with heq | hm2
      · injection heq with h1 h2
        subst h1
        subst h2
        show (seqEmit ext nm rest
          (st0.1.insert (nm ++ "." ++ pn) v, _)).1.get? (keyOf nm pn) =
            some v
        rw [seqEmit_fst_get?_other ext nm rest _ _ (by
          intro pn2 v2 hmr heq2
          have hpn2 : pn2 ∈ rest.map Prod.fst :=
            List.mem_map_of_mem Prod.fst hmr
          have : pn = pn2 := hkinj pn v pn2 v2 (List.mem_cons_self _ _)
            (List.mem_cons_of_mem _ hmr) heq2
          rw [List.map_cons, List.nodup_cons] at hnd
          exact hnd.1 (this ▸ hpn2))]
        exact SMap.get?_insert_self _ _ _
      · show (seqEmit ext nm rest
          (st0.1.insert (nm ++ "." ++ pn0) v0, _)).1.get?
            (keyOf nm pn) = some v
        rw [List.map_cons, List.nodup_cons] at hnd
        exact ih _ pn v hm2
          (fun pn1 v1 pn2 v2 h1 h2 he => hkinj pn1 v1 pn2 v2
            (List.mem_cons_of_mem _ h1) (List.mem_cons_of_mem _ h2) he)
          hnd.2

theorem seqEmit_fst_isSome {V : Type} (ext : List String) (nm : String) :
    ∀ (outs : List (String × Option V))
      (st0 : SMap (Option V) × List (String × Option V)) (k : String),
      ((seqEmit ext nm outs st0).1.get? k).isSome = true →
      (st0.1.get? k).isSome = true ∨
        ∃ pn v, (pn, v) ∈ outs ∧ k = keyOf nm pn := by
  intro outs
  induction outs with
  | nil =>
      intro st0 k h
      exact Or.inl h
  | cons e rest ih =>
      intro st0 k h
      obtain ⟨pn0, v0⟩ := e
      rcases ih _ k h with h2 | ⟨pn, v, hm, hk⟩
      · rcases SMap.isSome_insert _ _ _ _ h2 with hk | h3
        · exact Or.inr ⟨pn0, v0, List.mem_cons_self _ _, hk⟩
        · exact Or.inl h3
      · exact Or.inr ⟨pn, v, List.mem_cons_of_mem _ hm, hk⟩

/-- Positions in a topological prefix: the current node's in-edge sources
lie in the processed prefix, as do those of every processed node. -/
theorem ord_prefix (conns : List Connection)
    (sorted done rest2 : List String) (cn : String)
    (hsplit : sorted = done ++ cn :: rest2)
    (hnd : sorted.Nodup)
    (hsord : ∀ (n : Nat) (w : String), sorted[n]? = some w →
      ∀ e ∈ connPairs conns, e.2 = w → e.1 ∈ sorted.take n) :
    (∀ c ∈ conns, c.toComponent = cn → c.fromComponent ∈ done) ∧
    (∀ cm ∈ done, ∀ c ∈ conns, c.toComponent = cm →
      c.fromComponent ∈ done) ∧
    cn ∉ done := by
  subst hsplit
  have hnotin : cn ∉ done := by
    rcases List.nodup_append.mp hnd with ⟨h1, h2, hdisj⟩
    intro hmem
    exact hdisj hmem (List.mem_cons_self _ _)
  refine ⟨?_, ?_, hnotin⟩
  · intro c hc ht
    have hn : (done ++ cn :: rest2)[done.length]? = some cn := by
      rw [List.getElem?_append_right (Nat.le_refl _)]
      simp
    have := hsord done.length cn hn (c.fromComponent, c.toComponent)
      ((mem_connPairs conns _).mpr ⟨c, hc, rfl⟩) ht
    rwa [List.take_left] at this
  · intro cm hcm c hc ht
    rcases List.mem_iff_getElem.mp hcm with ⟨m, hm, hgm⟩
    have hn : (done ++ cn :: rest2)[m]? = some cm := by
      rw [List.getElem?_append_left hm, List.getElem?_eq_getElem hm, hgm]
    have hmem := hsord m cm hn (c.fromComponent, c.toComponent)
      ((mem_connPairs conns _).mpr ⟨c, hc, rfl⟩) ht
    have htk : (done ++ cn :: rest2).take m = done.take m := by
      rw [List.take_append_eq_append_take]
      have hz : m - done.length = 0 := by omega
      rw [hz]
      simp
    rw [htk] at hmem
    exact List.take_subset m done hmem

/-- The main induction along the sorted order: a finished sequential run
computes, for every component, the process result on the resolved input
row of the final value map, publishes those outputs in the value map, and
logs exactly the external ones. -/
theorem seqLoop_facts {V : Type} (p : Pipeline V)
    (extOutNames : List String) (st : SeqState V) (sorted : List String)
    (Hout : ∀ cn comp, p.components.get? cn = some comp → ∀ ins outs,
      comp.process ins = Except.ok outs →
      outs.map Prod.fst = comp.outputs.map Port.name)
    (Hop : ∀ cn comp, p.components.get? cn = some comp →
      (comp.outputs.map Port.name).Nodup)
    (Hinj : ∀ cn comp pn cn2 comp2 pn2, p.components.get? cn = some comp →
      p.components.get? cn2 = some comp2 →
      pn ∈ comp.outputs.map Port.name →
      pn2 ∈ comp2.outputs.map Port.name →
      keyOf cn pn = keyOf cn2 pn2 → cn = cn2 ∧ pn = pn2)
    (Hport : ∀ c ∈ p.connections, ∃ comp,
      p.components.get? c.fromComponent = some comp ∧
      c.fromPort ∈ comp.outputs.map Port.name)
    (Hfed : ∀ cn comp, p.components.get? cn = some comp →
      ∀ port ∈ comp.inputs, ¬ (p.connections.filter (fun c =>
        c.toComponent == cn && c.toPort == port.name)) = [])
    (hsnd : sorted.Nodup)
    (hsord : ∀ (n : Nat) (w : String), sorted[n]? = some w →
      ∀ e ∈ connPairs p.connections, e.2 = w → e.1 ∈ sorted.take n) :
    ∀ (rest done : List String) (s : SeqState V),
      sorted = done ++ rest →
      s.extIn = SMap.empty →
      (∀ cn, cn ∈ done → ∀ comp, p.components.get? cn = some comp →
        ∃ outs, comp.process (rowOf s.data p.connections cn comp) =
          Except.ok outs ∧
          ∀ pn v, (pn, v) ∈ outs → s.data.get? (keyOf cn pn) = some v) →
      (∀ nm v, (nm, v) ∈ s.outLog ↔ ∃ cn, cn ∈ done ∧ ∃ comp outs,
        p.components.get? cn = some comp ∧
        comp.process (rowOf s.data p.connections cn comp) =
          Except.ok outs ∧ (nm, v) ∈ outs ∧ nm ∈ extOutNames) →
      (∀ k, ((s.data.get? k).isSome = true) → ∃ cn, cn ∈ done ∧
        ∃ comp pn, p.components.get? cn = some comp ∧
          pn ∈ comp.outputs.map Port.name ∧ k = keyOf cn pn) →
      seqLoop p.components p.connections extOutNames rest s =
        SeqOutcome.finished st →
      ((∀ cn, cn ∈ sorted → ∀ comp, p.components.get? cn = some comp →
          ∃ outs, comp.process (rowOf st.data p.connections cn comp) =
            Except.ok outs ∧
            ∀ pn v, (pn, v) ∈ outs →
              st.data.get? (keyOf cn pn) = some v) ∧
        (∀ nm v, (nm, v) ∈ st.outLog ↔ ∃ cn, cn ∈ sorted ∧
          ∃ comp outs, p.components.get? cn = some comp ∧
          comp.process (rowOf st.data p.connections cn comp) =
            Except.ok outs ∧ (nm, v) ∈ outs ∧ nm ∈ extOutNames)) := by
  intro rest
  induction rest with
  | nil =>
      intro done s hsplit hext hJ2 hJ3 hJ4 hloop
      have hst : st = s := by
        have h2 : SeqOutcome.finished s = SeqOutcome.finished st := hloop
        injection h2 with h3
        exact h3.symm
      subst hst
      rw [hsplit]
      simp only [List.append_nil]
      exact ⟨hJ2, hJ3⟩
  | cons cn rest2 ih =>
      intro done s hsplit hext hJ2 hJ3 hJ4 hloop
      cases hcomp : p.components.get? cn with
      | none =>
          simp only [seqLoop, hcomp] at hloop
          exact SeqOutcome.noConfusion hloop
      | some comp =>
          have hG : seqGatherPorts p.connections cn s.data comp.inputs
              SMap.empty s.extIn =
              some (rowOf s.data p.connections cn comp, SMap.empty) := by
            rw [hext, seqGatherPorts_no_ext,
              gather_eq_row p.connections cn s.data comp
                (Hfed cn comp hcomp)]
          simp only [seqLoop, hcomp, hG] at hloop
          cases hpr : comp.process (rowOf s.data p.connections cn comp)
            with
          | error e =>
              rw [hpr] at hloop
              exact SeqOutcome.noConfusion hloop
          | ok outs =>
              rw [hpr] at hloop
              obtain ⟨hP1, hP2, hcn_nd⟩ := ord_prefix p.connections sorted
                done rest2 cn hsplit hsnd hsord
              have houtnames : outs.map Prod.fst =
                  comp.outputs.map Port.name := Hout cn comp hcomp _ _ hpr
              have hnodup : (outs.map Prod.fst).Nodup := by
                rw [houtnames]
                exact Hop cn comp hcomp
              have hnowrite : ∀ c ∈ p.connections,
                  (c.toComponent = cn ∨ c.toComponent ∈ done) →
                  (seqEmit extOutNames cn outs (s.data, s.outLog)).1.get?
                    (chanKey c) = s.data.get? (chanKey c) := by
                intro c hc hct
                apply seqEmit_fst_get?_other
                intro pn v hm heqk
                rcases Hport c hc with ⟨compF, hcompF, hpF⟩
                have hpn : pn ∈ comp.outputs.map Port.name := by
                  rw [← houtnames]
                  exact List.mem_map_of_mem Prod.fst hm
                have hinj := Hinj c.fromComponent compF c.fromPort cn comp
                  pn hcompF hcomp hpF hpn heqk
                have hfrom_done : c.fromComponent ∈ done := by
                  rcases hct with h | h
                  · exact hP1 c hc h
                  · exact hP2 _ h c hc rfl
                rw [hinj.1] at hfrom_done
                exact hcn_nd hfrom_done
              have hnowrite2 : ∀ cm ∈ done, ∀ (compM : Component V)
                  (pn2 : String), pn2 ∈ compM.outputs.map Port.name →
                  p.components.get? cm = some compM →
                  (seqEmit extOutNames cn outs (s.data, s.outLog)).1.get?
                    (keyOf cm pn2) = s.data.get? (keyOf cm pn2) := by
                intro cm hcm compM pn2 hpn2 hcompM
                apply seqEmit_fst_get?_other
                intro pn v hm heqk
                have hpn : pn ∈ comp.outputs.map Port.name := by
                  rw [← houtnames]
                  exact List.mem_map_of_mem Prod.fst hm
                have hinj := Hinj cm compM pn2 cn comp pn hcompM hcomp
                  hpn2 hpn heqk
                exact hcn_nd (hinj.1 ▸ hcm)
              have hrowcg : ∀ cm, (cm = cn ∨ cm ∈ done) →
                  ∀ compM : Component V,
                  rowOf (seqEmit extOutNames cn outs
                    (s.data, s.outLog)).1 p.connections cm compM =
                  rowOf s.data p.connections cm compM := by
                intro cm hcm compM
                apply rowOf_congr
                intro c hc hct
                apply hnowrite c hc
                rcases hcm with rfl | h
                · exact Or.inl hct
                · exact Or.inr (hct ▸ h)
              have hkinj : ∀ pn1 v1 pn2 v2, (pn1, v1) ∈ outs →
                  (pn2, v2) ∈ outs → keyOf cn pn1 = keyOf cn pn2 →
                  pn1 = pn2 := by
                intro pn1 v1 pn2 v2 h1 h2 he
                have hp1 : pn1 ∈ comp.outputs.map Port.name := by
                  rw [← houtnames]
                  exact List.mem_map_of_mem Prod.fst h1
                have hp2 : pn2 ∈ comp.outputs.map Port.name := by
                  rw [← houtnames]
                  exact List.mem_map_of_mem Prod.fst h2
                exact (Hinj cn comp pn1 cn comp pn2 hcomp hcomp hp1 hp2
                  he).2
              have hJ2n : ∀ cm, cm ∈ done ++ [cn] →
                  ∀ compM, p.components.get? cm = some compM →
                  ∃ outs2, compM.process (rowOf
                    (seqEmit extOutNames cn outs (s.data, s.outLog)).1
                    p.connections cm compM) = Except.ok outs2 ∧
                    ∀ pn v, (pn, v) ∈ outs2 →
                      (seqEmit extOutNames cn outs
                        (s.data, s.outLog)).1.get? (keyOf cm pn) =
                        some v := by
                intro cm hcm compM hcompM
                rcases List.mem_append.mp hcm with h | h
                · obtain ⟨outs2, hpr2, hvals⟩ := hJ2 cm h compM hcompM
                  refine ⟨outs2, ?_, ?_⟩
                  · rw [hrowcg cm (Or.inr h) compM]
                    exact hpr2
                  · intro pn v hmv
                    have hpnm : pn ∈ compM.outputs.map Port.name := by
                      rw [← Hout cm compM hcompM _ _ hpr2]
                      exact List.mem_map_of_mem Prod.fst hmv
                    rw [hnowrite2 cm h compM pn hpnm hcompM]
                    exact hvals pn v hmv
                · have heq : cm = cn := List.mem_singleton.mp h
                  subst heq
                  have heqc : compM = comp := by
                    rw [hcomp] at hcompM
                    injection hcompM with h2
                    exact h2.symm
                  subst heqc
                  refine ⟨outs, ?_, ?_⟩
                  · rw [hrowcg cm (Or.inl rfl) compM]
                    exact hpr
                  · intro pn v hmv
                    exact seqEmit_fst_get?_mem extOutNames cm outs
                      (s.data, s.outLog) pn v hmv hkinj hnodup
              have hJ3n : ∀ nm v, (nm, v) ∈
                  (seqEmit extOutNames cn outs (s.data, s.outLog)).2 ↔
                  ∃ cm, cm ∈ done ++ [cn] ∧ ∃ compM outs2,
                    p.components.get? cm = some compM ∧
                    compM.process (rowOf (seqEmit extOutNames cn outs
                      (s.data, s.outLog)).1 p.connections cm compM) =
                      Except.ok outs2 ∧ (nm, v) ∈ outs2 ∧
                      nm ∈ extOutNames := by
                intro nm v
                rw [seqEmit_snd, List.mem_append]
                constructor
                · rintro (h | h)
                  · rcases (hJ3 nm v).mp h with
                      ⟨cm, hcm, compM, outs2, hcompM, hpr2, hmv, hnm⟩
                    refine ⟨cm, List.mem_append_left _ hcm, compM, outs2,
                      hcompM, ?_, hmv, hnm⟩
                    rw [hrowcg cm (Or.inr hcm) compM]
                    exact hpr2
                  · have hm := List.mem_filter.mp h
                    refine ⟨cn, List.mem_append_right _
                      (List.mem_singleton_self _), comp, outs, hcomp, ?_,
                      hm.1, of_decide_eq_true hm.2⟩
                    rw [hrowcg cn (Or.inl rfl) comp]
                    exact hpr
                · rintro ⟨cm, hcm, compM, outs2, hcompM, hpr2, hmv, hnm⟩
                  rcases List.mem_append.mp hcm with h | h
                  · left
                    rw [hrowcg cm (Or.inr h) compM] at hpr2
                    exact (hJ3 nm v).mpr
                      ⟨cm, h, compM, outs2, hcompM, hpr2, hmv, hnm⟩
                  · right
                    have heq : cm = cn := List.mem_singleton.mp h
                    subst heq
                    have heqc : compM = comp := by
                      rw [hcomp] at hcompM
                      injection hcompM with h2
                      exact h2.symm
                    subst heqc
                    rw [hrowcg cm (Or.inl rfl) compM, hpr] at hpr2
                    injection hpr2 with h2
                    subst h2
                    exact List.mem_filter.mpr ⟨hmv, decide_eq_true hnm⟩
              have hJ4n : ∀ k, (((seqEmit extOutNames cn outs
                  (s.data, s.outLog)).1.get? k).isSome = true) →
                  ∃ cm, cm ∈ done ++ [cn] ∧ ∃ compM pn,
                    p.components.get? cm = some compM ∧
                    pn ∈ compM.outputs.map Port.name ∧
                    k = keyOf cm pn := by
                intro k hk
                rcases seqEmit_fst_isSome extOutNames cn outs
                    (s.data, s.outLog) k hk with h | ⟨pn, v, hm, hkeq⟩
                · rcases hJ4 k h with ⟨cm, hcm, compM, pn, hcompM, hpn, hkeq⟩
                  exact ⟨cm, List.mem_append_left _ hcm, compM, pn,
                    hcompM, hpn, hkeq⟩
                · refine ⟨cn, List.mem_append_right _
                    (List.mem_singleton_self _), comp, pn, hcomp, ?_, hkeq⟩
                  rw [← houtnames]
                  exact List.mem_map_of_mem Prod.fst hm
              exact ih (done ++ [cn])
                { data := (seqEmit extOutNames cn outs
                    (s.data, s.outLog)).1,
                  extIn := SMap.empty,
                  outLog := (seqEmit extOutNames cn outs
                    (s.data, s.outLog)).2,
                  processed := s.processed ++ [cn] }
                (by rw [hsplit, List.append_assoc]; rfl) rfl hJ2n hJ3n
                hJ4n hloop

/-- Finished sequential runs: every component's process succeeds on the
resolved input row of the final value map and publishes its outputs
there, and the output log holds exactly the external output entries. -/
theorem DefaultEngineRun_facts {V : Type} (p : Pipeline V)
    (qEnum : List String) (extOutNames : List String) (st : SeqState V)
    (hnd : p.components.keys.Nodup)
    (hconn : ∀ c ∈ p.connections, c.fromComponent ∈ p.components.keys ∧
      c.toComponent ∈ p.components.keys)
    (hq1 : qEnum.Nodup) (hq2 : ∀ x ∈ qEnum, x ∈ p.components.keys)
    (Hout : ∀ cn comp, p.components.get? cn = some comp → ∀ ins outs,
      comp.process ins = Except.ok outs →
      outs.map Prod.fst = comp.outputs.map Port.name)
    (Hop : ∀ cn comp, p.components.get? cn = some comp →
      (comp.outputs.map Port.name).Nodup)
    (Hinj : ∀ cn comp pn cn2 comp2 pn2, p.components.get? cn = some comp →
      p.components.get? cn2 = some comp2 →
      pn ∈ comp.outputs.map Port.name →
      pn2 ∈ comp2.outputs.map Port.name →
      keyOf cn pn = keyOf cn2 pn2 → cn = cn2 ∧ pn = pn2)
    (Hport : ∀ c ∈ p.connections, ∃ comp,
      p.components.get? c.fromComponent = some comp ∧
      c.fromPort ∈ comp.outputs.map Port.name)
    (Hfed : ∀ cn comp, p.components.get? cn = some comp →
      ∀ port ∈ comp.inputs, ¬ (p.connections.filter (fun c =>
        c.toComponent == cn && c.toPort == port.name)) = [])
    (hseq : DefaultEngineRun p qEnum SMap.empty extOutNames =
      SeqOutcome.finished st) :
    (∀ cn comp, p.components.get? cn = some comp →
      ∃ outs, comp.process (rowOf st.data p.connections cn comp) =
        Except.ok outs ∧
        ∀ pn v, (pn, v) ∈ outs → st.data.get? (keyOf cn pn) = some v) ∧
    (∀ nm v, (nm, v) ∈ st.outLog ↔ ∃ cn comp outs,
      p.components.get? cn = some comp ∧
      comp.process (rowOf st.data p.connections cn comp) =
        Except.ok outs ∧ (nm, v) ∈ outs ∧ nm ∈ extOutNames) := by
  cases hs : (NewGraph p).topologicalSort qEnum with
  | none =>
      simp only [DefaultEngineRun, hs] at hseq
      exact SeqOutcome.noConfusion hseq
  | some sorted =>
      simp only [DefaultEngineRun, hs] at hseq
      obtain ⟨hsnd, hsub, hsord, hcompl⟩ :=
        sorted_props p qEnum sorted hnd hconn hq1 hq2 hs
      have hmain := seqLoop_facts p extOutNames st sorted Hout Hop Hinj
        Hport Hfed hsnd hsord sorted []
        { data := SMap.empty, extIn := SMap.empty, outLog := [],
          processed := [] }
        (by simp) rfl
        (by intro cn hcn; exact absurd hcn (List.not_mem_nil cn))
        (by intro nm v; simp)
        (by intro k hk; simp [SMap.empty, SMap.get?] at hk)
        hseq
      constructor
      · intro cn comp hcomp
        have hk : cn ∈ p.components.keys :=
          (SMap.mem_keys_iff p.components cn).mpr ⟨comp, hcomp⟩
        exact hmain.1 cn (hcompl cn hk) comp hcomp
      · intro nm v
        rw [hmain.2 nm v]
        constructor
        · rintro ⟨cn, hcn, comp, outs, hcomp, hpr, hmv, hnm⟩
          exact ⟨cn, comp, outs, hcomp, hpr, hmv, hnm⟩
        · rintro ⟨cn, comp, outs, hcomp, hpr, hmv, hnm⟩
          have hk : cn ∈ p.components.keys :=
            (SMap.mem_keys_iff p.components cn).mpr ⟨comp, hcomp⟩
          exact ⟨cn, hcompl cn hk, comp, outs, hcomp, hpr, hmv, hnm⟩


/-- For a map with distinct keys, membership determines lookup. -/
theorem SMap.get?_eq_of_mem {α : Type} (m : SMap α) (k : String) (v : α)
    (hnd : m.keys.Nodup) (h : (k, v) ∈ m) : m.get? k = some v := by
  induction m with
  | nil => exact absurd h (List.not_mem_nil _)
  | cons e rest ih =>
      obtain ⟨k0, v0⟩ := e
      have hnd2 : k0 ∉ SMap.keys rest ∧ (SMap.keys rest).Nodup :=
        List.nodup_cons.mp hnd
      rcases List.mem_cons.mp h with h1 | h1
      · injection h1 with hk hv
        subst hk
        subst hv
        show (if k = k then some v else SMap.get? rest k) = some v
        rw [if_pos rfl]
      · have hg := ih hnd2.2 h1
        have hk0 : k0 ≠ k := by
          intro he
          subst he
          exact hnd2.1 ((SMap.mem_keys_iff rest k0).mpr ⟨v, hg⟩)
        show (if k0 = k then some v0 else SMap.get? rest k) = some v
        rw [if_neg hk0]
        exact hg

/-- The per-worker invariant of the concurrent run relative to a value
map `D`: a gathering worker's remaining scan still resolves to its input
row, a sending worker has logged exactly the external entries among the
outputs already sent, and a finished worker has logged exactly its
external outputs. -/
def WQ {V : Type} (D : SMap (Option V)) (conns : List Connection)
    (extOutNames : List String) (nm : String) (comp : Component V)
    (w : CWorker V) : Prop :=
  w.name = nm ∧ w.comp = comp ∧
  ((∃ pending acc, w.phase = WPhase.gather pending acc ∧ w.elog = [] ∧
      finishRow D pending acc = rowOf D conns nm comp) ∨
   (∃ outs pre srest,
      comp.process (rowOf D conns nm comp) = Except.ok outs ∧
      outs = pre ++ srest ∧ w.phase = WPhase.sends srest ∧
      w.elog = pre.filter (fun e => decide (e.1 ∈ extOutNames))) ∨
   (∃ outs, comp.process (rowOf D conns nm comp) = Except.ok outs ∧
      w.phase = WPhase.done ∧
      w.elog = outs.filter (fun e => decide (e.1 ∈ extOutNames))))

/-- The configuration invariant: no external input remains, and worker
`i` mirrors component `i`. -/
def CInv {V : Type} (D : SMap (Option V)) (conns : List Connection)
    (extOutNames : List String) (comps : List (String × Component V))
    (conf : CConfig V) : Prop :=
  conf.extIn = SMap.empty ∧
  conf.workers.length = comps.length ∧
  ∀ (i : Nat) (e : String × Component V) (w : CWorker V),
    comps[i]? = some e → conf.workers[i]? = some w →
    WQ D conns extOutNames e.1 e.2 w

/-- The initial configuration with no external inputs satisfies the
invariant. -/
theorem CInv_initial {V : Type} (p : Pipeline V) (D : SMap (Option V))
    (extOutNames : List String) :
    CInv D p.connections extOutNames p.components
      (initConfig p SMap.empty) := by
  refine ⟨rfl, ?_, ?_⟩
  · simp [initConfig]
  · intro i e w hci hwi
    simp only [initConfig] at hwi
    rw [List.getElem?_map, hci] at hwi
    simp only [Option.map_some'] at hwi
    injection hwi with h2
    subst h2
    exact ⟨rfl, rfl, Or.inl ⟨initPlan SMap.empty p.connections e.1 e.2,
      SMap.empty, rfl, rfl, rfl⟩⟩

/-- One scheduled step preserves the configuration invariant, provided
every component's process succeeds on its input row of `D` and publishes
its outputs in `D`. -/
theorem cstep_CInv {V : Type} (D : SMap (Option V))
    (conns : List Connection) (extOutNames chanKeys : List String)
    (comps : List (String × Component V))
    (Hrun : ∀ (i : Nat) (e : String × Component V), comps[i]? = some e →
      ∃ outs, e.2.process (rowOf D conns e.1 e.2) = Except.ok outs ∧
        ∀ pn v, (pn, v) ∈ outs → D.get? (keyOf e.1 pn) = some v)
    (conf conf2 : CConfig V) (l : CLabel)
    (hinv : CInv D conns extOutNames comps conf)
    (hstep : cstep extOutNames chanKeys conf l = some conf2) :
    CInv D conns extOutNames comps conf2 := by
  obtain ⟨hext, hlen, hq⟩ := hinv
  cases l with
  | adv i =>
      cases hwi : conf.workers.get? i with
      | none =>
          simp only [cstep, hwi] at hstep
          exact Option.noConfusion hstep
      | some w =>
          cases hadv : advStep extOutNames chanKeys w conf.extIn with
          | none =>
              simp only [cstep, hwi, hadv] at hstep
              exact Option.noConfusion hstep
          | some pr =>
              obtain ⟨w2, ext2⟩ := pr
              simp only [cstep, hwi, hadv] at hstep
              have hconf2 : conf2 =
                  { workers := conf.workers.set i w2, extIn := ext2 } := by
                injection hstep with h2
                exact h2.symm
              subst hconf2
              have hi : i < conf.workers.length := by
                by_contra hcon
                push_neg at hcon
                rw [List.get?_eq_getElem?, List.getElem?_eq_none hcon]
                  at hwi
                exact Option.noConfusion hwi
              have hi2 : i < comps.length := by omega
              cases hci : comps[i]? with
              | none =>
                  have h3 := List.getElem?_eq_getElem hi2
                  rw [hci] at h3
                  exact Option.noConfusion h3
              | some e =>
                  have hwi2 : conf.workers[i]? = some w := by
                    rw [← List.get?_eq_getElem?]
                    exact hwi
                  obtain ⟨hnm, hcm, hcase⟩ := hq i e w hci hwi2
                  obtain ⟨outs0, hpr0, hvals0⟩ := Hrun i e hci
                  have hkey : ext2 = conf.extIn ∧
                      WQ D conns extOutNames e.1 e.2 w2 := by
                    rcases hcase with ⟨pending, acc, hph, helog, hrow⟩ |
                      ⟨outs, pre, srest, hpr, hsp, hph, helog⟩ |
                      ⟨outs, hpr, hph, helog⟩
                    · rcases pending with _ | ⟨⟨pn, cur, srcs⟩, rest⟩
                      · have hacc : acc = rowOf D conns e.1 e.2 := hrow
                        simp only [advStep, hph, hcm, hacc, hpr0] at hadv
                        injection hadv with h3
                        injection h3 with h4 h5
                        subst h4
                        refine ⟨h5.symm, hnm, rfl,
                          Or.inr (Or.inl ⟨outs0, [], outs0, hpr0, rfl,
                            rfl, ?_⟩)⟩
                        show w.elog = _
                        rw [helog]
                        rfl
                      · rcases srcs with _ | ⟨src, srcs2⟩
                        · simp only [advStep, hph] at hadv
                          injection hadv with h3
                          injection h3 with h4 h5
                          subst h4
                          refine ⟨h5.symm, hnm, hcm,
                            Or.inl ⟨rest, acc.insert pn cur, rfl, helog,
                              ?_⟩⟩
                          exact hrow
                        · cases src with
                          | ext en =>
                              simp only [advStep, hph, hext, SMap.empty,
                                SMap.get?] at hadv
                              exact Option.noConfusion hadv
                          | ch k =>
                              simp only [advStep, hph] at hadv
                              exact Option.noConfusion hadv
                    · rcases srest with _ | ⟨⟨pn, v⟩, srest2⟩
                      · simp only [advStep, hph] at hadv
                        injection hadv with h3
                        injection h3 with h4 h5
                        subst h4
                        refine ⟨h5.symm, hnm, hcm,
                          Or.inr (Or.inr ⟨outs, hpr, rfl, ?_⟩)⟩
                        show w.elog = _
                        rw [helog, hsp, List.append_nil]
                      · simp only [advStep, hph] at hadv
                        by_cases hpe : pn ∈ extOutNames
                        · rw [if_pos hpe] at hadv
                          injection hadv with h3
                          injection h3 with h4 h5
                          subst h4
                          refine ⟨h5.symm, hnm, hcm,
                            Or.inr (Or.inl ⟨outs, pre ++ [(pn, v)], srest2,
                              hpr, by rw [hsp, List.append_assoc]; rfl, rfl, ?_⟩)⟩
                          show w.elog ++ [(pn, v)] = _
                          rw [helog, List.filter_append]
                          simp [hpe]
                        · rw [if_neg hpe] at hadv
                          by_cases hk : keyOf w.name pn ∈ chanKeys
                          · rw [if_pos hk] at hadv
                            exact Option.noConfusion hadv
                          · rw [if_neg hk] at hadv
                            injection hadv with h3
                            injection h3 with h4 h5
                            subst h4
                            refine ⟨h5.symm, hnm, hcm,
                              Or.inr (Or.inl ⟨outs, pre ++ [(pn, v)],
                                srest2, hpr, by rw [hsp, List.append_assoc]; rfl, rfl, ?_⟩)⟩
                            show w.elog = _
                            rw [helog, List.filter_append]
                            simp [hpe]
                    · simp only [advStep, hph] at hadv
                      exact Option.noConfusion hadv
                  refine ⟨?_, ?_, ?_⟩
                  · show ext2 = SMap.empty
                    rw [hkey.1, hext]
                  · simp only [List.length_set]
                    exact hlen
                  · intro j e2 w3 hcj hwj
                    by_cases hji : j = i
                    · subst hji
                      rw [List.getElem?_set_eq_of_lt w2 hi] at hwj
                      injection hwj with h6
                      subst h6
                      rw [hci] at hcj
                      injection hcj with h7
                      subst h7
                      exact hkey.2
                    · rw [List.getElem?_set_ne (Ne.symm hji)] at hwj
                      exact hq j e2 w3 hcj hwj
  | comm i j =>
      by_cases hij : i = j
      · subst hij
        simp only [cstep] at hstep
        rw [if_pos trivial] at hstep
        exact Option.noConfusion hstep
      · cases hwi : conf.workers.get? i with
        | none =>
            simp only [cstep, if_neg hij, hwi] at hstep
            exact Option.noConfusion hstep
        | some wi =>
            cases hwj : conf.workers.get? j with
            | none =>
                simp only [cstep, if_neg hij, hwi, hwj] at hstep
                exact Option.noConfusion hstep
            | some wj =>
                cases hcs : commStep extOutNames chanKeys wi wj with
                | none =>
                    simp only [cstep, if_neg hij, hwi, hwj, hcs] at hstep
                    exact Option.noConfusion hstep
                | some pr2 =>
                    obtain ⟨wi2, wj2⟩ := pr2
                    simp only [cstep, if_neg hij, hwi, hwj, hcs] at hstep
                    have hconf2 : conf2 =
                        { workers := (conf.workers.set i wi2).set j wj2,
                          extIn := conf.extIn } := by
                      injection hstep with h2
                      exact h2.symm
                    subst hconf2
                    have hi : i < conf.workers.length := by
                      by_contra hcon
                      push_neg at hcon
                      rw [List.get?_eq_getElem?,
                        List.getElem?_eq_none hcon] at hwi
                      exact Option.noConfusion hwi
                    have hj : j < conf.workers.length := by
                      by_contra hcon
                      push_neg at hcon
                      rw [List.get?_eq_getElem?,
                        List.getElem?_eq_none hcon] at hwj
                      exact Option.noConfusion hwj
                    have hi2 : i < comps.length := by omega
                    have hj2 : j < comps.length := by omega
                    cases hci : comps[i]? with
                    | none =>
                        have h3 := List.getElem?_eq_getElem hi2
                        rw [hci] at h3
                        exact Option.noConfusion h3
                    | some ei =>
                    cases hcj0 : comps[j]? with
                    | none =>
                        have h3 := List.getElem?_eq_getElem hj2
                        rw [hcj0] at h3
                        exact Option.noConfusion h3
                    | some ej =>
                    have hwi2g : conf.workers[i]? = some wi := by
                      rw [← List.get?_eq_getElem?]
                      exact hwi
                    have hwj2g : conf.workers[j]? = some wj := by
                      rw [← List.get?_eq_getElem?]
                      exact hwj
                    obtain ⟨hnmi, hcmi, hcasei⟩ := hq i ei wi hci hwi2g
                    obtain ⟨hnmj, hcmj, hcasej⟩ := hq j ej wj hcj0 hwj2g
                    rcases hcasei with ⟨pending, acc, hphi, helogi, hrowi⟩ |
                      ⟨outs, pre, srest, hpri, hspi, hphi, helogi⟩ |
                      ⟨outs, hpri, hphi, helogi⟩
                    rotate_left
                    rotate_left
                    · simp only [commStep, hphi] at hcs
                      exact Option.noConfusion hcs
                    · simp only [commStep, hphi] at hcs
                      exact Option.noConfusion hcs
                    · rcases srest with _ | ⟨⟨pn, v⟩, srest2⟩
                      · simp only [commStep, hphi] at hcs
                        exact Option.noConfusion hcs
                      rcases hcasej with
                        ⟨pendingj, accj, hphj, helogj, hrowj⟩ |
                        ⟨outsj, prej, srestj, hprj, hspj, hphj, helogj⟩ |
                        ⟨outsj, hprj, hphj, helogj⟩
                      rotate_left
                      · simp only [commStep, hphi, hphj] at hcs
                        exact Option.noConfusion hcs
                      · simp only [commStep, hphi, hphj] at hcs
                        exact Option.noConfusion hcs
                      · rcases pendingj with _ | ⟨⟨qn, cur, qsrcs⟩, grest⟩
                        · simp only [commStep, hphi, hphj] at hcs
                          exact Option.noConfusion hcs
                        rcases qsrcs with _ | ⟨qsrc, qsrcs2⟩
                        · simp only [commStep, hphi, hphj] at hcs
                          exact Option.noConfusion hcs
                        cases qsrc with
                        | ext en =>
                            simp only [commStep, hphi, hphj] at hcs
                            exact Option.noConfusion hcs
                        | ch k =>
                        simp only [commStep, hphi, hphj] at hcs
                        by_cases hgd : k = keyOf wi.name pn ∧
                            ¬ pn ∈ extOutNames ∧ k ∈ chanKeys
                        · rw [if_pos hgd] at hcs
                          obtain ⟨hkeq, hnpe, hkck⟩ := hgd
                          injection hcs with h3
                          injection h3 with h4 h5
                          subst h4
                          subst h5
                          obtain ⟨outsi0, hpr0, hvals0⟩ := Hrun i ei hci
                          rw [hpri] at hpr0
                          injection hpr0 with houts2
                          have hmemv : (pn, v) ∈ outsi0 := by
                            rw [← houts2, hspi]
                            exact List.mem_append_right _
                              (List.mem_cons_self _ _)
                          have hDv : D.get? (keyOf ei.1 pn) = some v :=
                            hvals0 pn v hmemv
                          have hcons : consume D cur
                              (RSrc.ch k :: qsrcs2) =
                              consume D v qsrcs2 := by
                            show consume D (rsrcVal D (RSrc.ch k))
                              qsrcs2 = _
                            rw [show rsrcVal D (RSrc.ch k) =
                              (D.get? k).getD none from rfl, hkeq, hnmi,
                              hDv]
                            rfl
                          refine ⟨hext, ?_, ?_⟩
                          · simp only [List.length_set]
                            exact hlen
                          · intro m e2 w3 hcm2 hwm
                            by_cases hmj : m = j
                            · subst hmj
                              rw [List.getElem?_set_eq_of_lt _
                                (by rw [List.length_set]; exact hj)] at hwm
                              injection hwm with h6
                              subst h6
                              rw [hcj0] at hcm2
                              injection hcm2 with h7
                              subst h7
                              refine ⟨hnmj, hcmj,
                                Or.inl ⟨(qn, v, qsrcs2) :: grest, accj,
                                  rfl, helogj, ?_⟩⟩
                              show finishRow D grest
                                (accj.insert qn (consume D v qsrcs2)) = _
                              rw [← hcons]
                              exact hrowj
                            · by_cases hmi : m = i
                              · subst hmi
                                rw [List.getElem?_set_ne (Ne.symm hmj),
                                  List.getElem?_set_eq_of_lt _ hi] at hwm
                                injection hwm with h6
                                subst h6
                                rw [hci] at hcm2
                                injection hcm2 with h7
                                subst h7
                                refine ⟨hnmi, hcmi,
                                  Or.inr (Or.inl ⟨outs, pre ++ [(pn, v)],
                                    srest2, hpri, by rw [hspi, List.append_assoc]; rfl, rfl,
                                    ?_⟩)⟩
                                show wi.elog = _
                                rw [helogi, List.filter_append]
                                simp [hnpe]
                              · rw [List.getElem?_set_ne (Ne.symm hmj),
                                  List.getElem?_set_ne (Ne.symm hmi)]
                                  at hwm
                                exact hq m e2 w3 hcm2 hwm
                        · rw [if_neg hgd] at hcs
                          exact Option.noConfusion hcs


/-- Running any schedule preserves the configuration invariant. -/
theorem crun_CInv {V : Type} (D : SMap (Option V))
    (conns : List Connection) (extOutNames chanKeys : List String)
    (comps : List (String × Component V))
    (Hrun : ∀ (i : Nat) (e : String × Component V), comps[i]? = some e →
      ∃ outs, e.2.process (rowOf D conns e.1 e.2) = Except.ok outs ∧
        ∀ pn v, (pn, v) ∈ outs → D.get? (keyOf e.1 pn) = some v) :
    ∀ (sched : List CLabel) (conf conf2 : CConfig V),
      CInv D conns extOutNames comps conf →
      crun extOutNames chanKeys sched conf = some conf2 →
      CInv D conns extOutNames comps conf2 := by
  intro sched
  induction sched with
  | nil =>
      intro conf conf2 hinv h
      injection h with h2
      rw [← h2]
      exact hinv
  | cons l rest ih =>
      intro conf conf2 hinv h
      cases hs : cstep extOutNames chanKeys conf l with
      | none =>
          simp only [crun, hs] at h
          exact Option.noConfusion h
      | some confm =>
          simp only [crun, hs] at h
          exact ih confm conf2
            (cstep_CInv D conns extOutNames chanKeys comps Hrun conf confm
              l hinv hs) h

/-- In a complete invariant configuration the union of the workers'
external output logs is exactly the per-component external outputs. -/
theorem CInv_complete {V : Type} (D : SMap (Option V))
    (conns : List Connection) (extOutNames : List String)
    (comps : List (String × Component V)) (conf : CConfig V)
    (hinv : CInv D conns extOutNames comps conf)
    (hc : isComplete conf = true) :
    ∀ nm v, (∃ w, w ∈ conf.workers ∧ (nm, v) ∈ w.elog) ↔
      ∃ (i : Nat) (e : String × Component V), comps[i]? = some e ∧
        ∃ outs, e.2.process (rowOf D conns e.1 e.2) = Except.ok outs ∧
          (nm, v) ∈ outs ∧ nm ∈ extOutNames := by
  obtain ⟨hext, hlen, hq⟩ := hinv
  rw [isComplete, List.all_eq_true] at hc
  intro nm v
  constructor
  · rintro ⟨w, hw, hm⟩
    obtain ⟨i, hwi⟩ := List.mem_iff_getElem?.mp hw
    have hi : i < conf.workers.length := by
      by_contra hcon
      push_neg at hcon
      rw [List.getElem?_eq_none hcon] at hwi
      exact Option.noConfusion hwi
    have hi2 : i < comps.length := by omega
    cases hci : comps[i]? with
    | none =>
        have h3 := List.getElem?_eq_getElem hi2
        rw [hci] at h3
        exact Option.noConfusion h3
    | some e =>
        obtain ⟨hnm, hcm, hcase⟩ := hq i e w hci hwi
        have hdone := hc w hw
        rcases hcase with ⟨pending, acc, hph, helog, hrow⟩ |
          ⟨outs, pre, srest, hpr, hsp, hph, helog⟩ |
          ⟨outs, hpr, hph, helog⟩
        · rw [CWorker.isDone, hph] at hdone
          exact Bool.noConfusion hdone
        · rw [CWorker.isDone, hph] at hdone
          exact Bool.noConfusion hdone
        · rw [helog] at hm
          have hm2 := List.mem_filter.mp hm
          exact ⟨i, e, hci, outs, hpr, hm2.1,
            of_decide_eq_true hm2.2⟩
  · rintro ⟨i, e, hci, outs, hpr, hm, hnm⟩
    have hi2 : i < comps.length := by
      by_contra hcon
      push_neg at hcon
      rw [List.getElem?_eq_none hcon] at hci
      exact Option.noConfusion hci
    have hi : i < conf.workers.length := by omega
    cases hwi : conf.workers[i]? with
    | none =>
        have h3 := List.getElem?_eq_getElem hi
        rw [hwi] at h3
        exact Option.noConfusion h3
    | some w =>
        have hw : w ∈ conf.workers := List.getElem?_mem hwi
        obtain ⟨hnm2, hcm, hcase⟩ := hq i e w hci hwi
        have hdone := hc w hw
        rcases hcase with ⟨pending, acc, hph, helog, hrow⟩ |
          ⟨outs2, pre, srest, hpr2, hsp, hph, helog⟩ |
          ⟨outs2, hpr2, hph, helog⟩
        · rw [CWorker.isDone, hph] at hdone
          exact Bool.noConfusion hdone
        · rw [CWorker.isDone, hph] at hdone
          exact Bool.noConfusion hdone
        · refine ⟨w, hw, ?_⟩
          rw [hpr] at hpr2
          injection hpr2 with h4
          rw [helog, ← h4]
          exact List.mem_filter.mpr ⟨hm, decide_eq_true hnm⟩


/-- Output-labelling obligation, checked member by member. -/
theorem Hout_of_mem {V : Type} (m : SMap (Component V))
    (h : ∀ e ∈ (m : List (String × Component V)), ∀ ins outs,
      e.2.process ins = Except.ok outs →
      outs.map Prod.fst = e.2.outputs.map Port.name) :
    ∀ cn comp, m.get? cn = some comp → ∀ ins outs,
      comp.process ins = Except.ok outs →
      outs.map Prod.fst = comp.outputs.map Port.name :=
  fun cn comp hg => h (cn, comp) (SMap.get?_mem m cn comp hg)

/-- Distinct declared output ports, checked member by member. -/
theorem Hop_of_mem {V : Type} (m : SMap (Component V))
    (h : ∀ e ∈ (m : List (String × Component V)),
      (e.2.outputs.map Port.name).Nodup) :
    ∀ cn comp, m.get? cn = some comp →
      (comp.outputs.map Port.name).Nodup :=
  fun cn comp hg => h (cn, comp) (SMap.get?_mem m cn comp hg)

/-- Injectivity of the data keys, checked member by member. -/
theorem Hinj_of_mem {V : Type} (m : SMap (Component V))
    (h : ∀ e1 ∈ (m : List (String × Component V)),
      ∀ e2 ∈ (m : List (String × Component V)),
      ∀ pn1 ∈ e1.2.outputs.map Port.name,
      ∀ pn2 ∈ e2.2.outputs.map Port.name,
      keyOf e1.1 pn1 = keyOf e2.1 pn2 → e1.1 = e2.1 ∧ pn1 = pn2) :
    ∀ cn comp pn cn2 comp2 pn2, m.get? cn = some comp →
      m.get? cn2 = some comp2 →
      pn ∈ comp.outputs.map Port.name →
      pn2 ∈ comp2.outputs.map Port.name →
      keyOf cn pn = keyOf cn2 pn2 → cn = cn2 ∧ pn = pn2 :=
  fun cn comp pn cn2 comp2 pn2 h1 h2 hp1 hp2 hk =>
    h (cn, comp) (SMap.get?_mem m cn comp h1)
      (cn2, comp2) (SMap.get?_mem m cn2 comp2 h2) pn hp1 pn2 hp2 hk

/-- Every input port fed, checked member by member via a length test. -/
theorem Hfed_of_mem {V : Type} (m : SMap (Component V))
    (conns : List Connection)
    (h : ∀ e ∈ (m : List (String × Component V)), ∀ port ∈ e.2.inputs,
      (conns.filter (fun c =>
        c.toComponent == e.1 && c.toPort == port.name)).length ≠ 0) :
    ∀ cn comp, m.get? cn = some comp → ∀ port ∈ comp.inputs,
      ¬ (conns.filter (fun c =>
        c.toComponent == cn && c.toPort == port.name)) = [] := by
  intro cn comp hg port hp heq
  have h2 := h (cn, comp) (SMap.get?_mem m cn comp hg) port hp
  rw [heq] at h2
  exact h2 rfl

/-- C1 (amended): for a well-formed pipeline — distinct component names,
connection endpoints and source ports declared, every input port fed by
some connection, process results labelled by the declared output ports,
and injective `component.port` data keys — if the sequential engine
finishes, then every complete concurrent run (one in which every
goroutine returned) produced exactly the sequential run's external
outputs: a `(name, value)` pair is in some worker's external output log
iff it is in the sequential run's output log.  The original claim's
unconditional agreement, "including when one source output port fans out
to multiple sink input ports", is refuted separately: fan-out shares one
unbuffered channel and a single send, so a fan-out pipeline has a
schedule reaching a deadlocked, incomplete configuration. -/
theorem C1_engine_agreement {V : Type} (p : Pipeline V)
    (qEnum : List String) (extOutNames : List String) (st : SeqState V)
    (sched : List CLabel) (conf : CConfig V)
    (hnd : p.components.keys.Nodup)
    (hconn : ∀ c ∈ p.connections, c.fromComponent ∈ p.components.keys ∧
      c.toComponent ∈ p.components.keys)
    (hq1 : qEnum.Nodup) (hq2 : ∀ x ∈ qEnum, x ∈ p.components.keys)
    (Hout : ∀ cn comp, p.components.get? cn = some comp → ∀ ins outs,
      comp.process ins = Except.ok outs →
      outs.map Prod.fst = comp.outputs.map Port.name)
    (Hop : ∀ cn comp, p.components.get? cn = some comp →
      (comp.outputs.map Port.name).Nodup)
    (Hinj : ∀ cn comp pn cn2 comp2 pn2, p.components.get? cn = some comp →
      p.components.get? cn2 = some comp2 →
      pn ∈ comp.outputs.map Port.name →
      pn2 ∈ comp2.outputs.map Port.name →
      keyOf cn pn = keyOf cn2 pn2 → cn = cn2 ∧ pn = pn2)
    (Hport : ∀ c ∈ p.connections, ∃ comp,
      p.components.get? c.fromComponent = some comp ∧
      c.fromPort ∈ comp.outputs.map Port.name)
    (Hfed : ∀ cn comp, p.components.get? cn = some comp →
      ∀ port ∈ comp.inputs, ¬ (p.connections.filter (fun c =>
        c.toComponent == cn && c.toPort == port.name)) = [])
    (hseq : DefaultEngineRun p qEnum SMap.empty extOutNames =
      SeqOutcome.finished st)
    (hrun : crun extOutNames (chanKeysOf p.connections) sched
      (initConfig p SMap.empty) = some conf)
    (hcomp : isComplete conf = true) :
    ∀ nm v, ((∃ w, w ∈ conf.workers ∧ (nm, v) ∈ w.elog) ↔
      (nm, v) ∈ st.outLog) := by
  obtain ⟨F1, F2⟩ := DefaultEngineRun_facts p qEnum extOutNames st hnd
    hconn hq1 hq2 Hout Hop Hinj Hport Hfed hseq
  have Hrun : ∀ (comps : List (String × Component V)),
      comps = p.components → ∀ (i : Nat) (e : String × Component V),
      comps[i]? = some e →
      ∃ outs, e.2.process (rowOf st.data p.connections e.1 e.2) =
        Except.ok outs ∧
        ∀ pn v, (pn, v) ∈ outs → st.data.get? (keyOf e.1 pn) = some v := by
    intro comps hcomps i e hie
    subst hcomps
    have hg : p.components.get? e.1 = some e.2 :=
      SMap.get?_eq_of_mem p.components e.1 e.2 hnd
        (List.getElem?_mem hie)
    exact F1 e.1 e.2 hg
  have hinv := crun_CInv st.data p.connections extOutNames
    (chanKeysOf p.connections) p.components (Hrun p.components rfl) sched
    (initConfig p SMap.empty) conf
    (CInv_initial p st.data extOutNames) hrun
  have hiff := CInv_complete st.data p.connections extOutNames
    p.components conf hinv hcomp
  intro nm v
  rw [hiff nm v, F2 nm v]
  constructor
  · rintro ⟨i, e, hie, outs, hpr, hm, hnm⟩
    have hg : p.components.get? e.1 = some e.2 :=
      SMap.get?_eq_of_mem p.components e.1 e.2 hnd
        (List.getElem?_mem hie)
    exact ⟨e.1, e.2, outs, hg, hpr, hm, hnm⟩
  · rintro ⟨cn, comp, outs, hg, hpr, hm, hnm⟩
    have hmem : (cn, comp) ∈ p.components :=
      SMap.get?_mem p.components cn comp hg
    obtain ⟨i, hie⟩ := List.mem_iff_getElem?.mp hmem
    exact ⟨i, (cn, comp), hie, outs, hpr, hm, hnm⟩


/-- A source component for the C1 witness. -/
def s1C1 : Component Nat :=
  { name := "s1", inputs := [],
    outputs := [{ name := "out", type := GoType.tint }],
    process := fun _ => Except.ok [("out", some 1)] }

/-- A second source component for the C1 witness. -/
def s2C1 : Component Nat :=
  { name := "s2", inputs := [],
    outputs := [{ name := "out", type := GoType.tint }],
    process := fun _ => Except.ok [("out", some 2)] }

/-- A two-input adder for the C1 witness. -/
def tC1 : Component Nat :=
  { name := "t",
    inputs := [{ name := "a", type := GoType.tint },
               { name := "b", type := GoType.tint }],
    outputs := [{ name := "res", type := GoType.tint }],
    process := fun ins => Except.ok
      [("res", some ((((ins.get? "a").getD none).getD 0) +
        (((ins.get? "b").getD none).getD 0)))] }

/-- The fan-in pipeline of the C1 witness: two sources feeding one
adder. -/
def pC1 : Pipeline Nat :=
  { name := "fanin"
    components := [("s1", s1C1), ("s2", s2C1), ("t", tC1)]
    connections :=
      [{ fromComponent := "s1", fromPort := "out", toComponent := "t",
         toPort := "a" },
       { fromComponent := "s2", fromPort := "out", toComponent := "t",
         toPort := "b" }]
    errors := []
    config := NewDefaultPipelineConfig }

/-- A complete schedule for the concurrent run of `pC1`. -/
def schedC1 : List CLabel :=
  [CLabel.adv 0, CLabel.comm 0 2, CLabel.adv 0, CLabel.adv 2,
   CLabel.adv 1, CLabel.comm 1 2, CLabel.adv 1, CLabel.adv 2,
   CLabel.adv 2, CLabel.adv 2, CLabel.adv 2]

/-- A source component for the C1 counterexample. -/
def sFan : Component Nat :=
  { name := "s", inputs := [],
    outputs := [{ name := "out", type := GoType.tint }],
    process := fun _ => Except.ok [("out", some 1)] }

/-- A first consumer for the C1 counterexample. -/
def t1Fan : Component Nat :=
  { name := "t1",
    inputs := [{ name := "in", type := GoType.tint }],
    outputs := [{ name := "res1", type := GoType.tint }],
    process := fun ins => Except.ok
      [("res1", (ins.get? "in").getD none)] }

/-- A second consumer for the C1 counterexample. -/
def t2Fan : Component Nat :=
  { name := "t2",
    inputs := [{ name := "in", type := GoType.tint }],
    outputs := [{ name := "res2", type := GoType.tint }],
    process := fun ins => Except.ok
      [("res2", (ins.get? "in").getD none)] }

/-- The fan-out pipeline of the C1 counterexample: one source output port
wired to two sink input ports. -/
def pFan : Pipeline Nat :=
  { name := "fanout"
    components := [("s", sFan), ("t1", t1Fan), ("t2", t2Fan)]
    connections :=
      [{ fromComponent := "s", fromPort := "out", toComponent := "t1",
         toPort := "in" },
       { fromComponent := "s", fromPort := "out", toComponent := "t2",
         toPort := "in" }]
    errors := []
    config := NewDefaultPipelineConfig }

/-- A schedule for `pFan` that serves the first consumer only: the single
value on the shared channel is delivered to `t1`, the source returns, and
`t2` blocks forever. -/
def schedFan : List CLabel :=
  [CLabel.adv 0, CLabel.comm 0 1, CLabel.adv 0, CLabel.adv 1,
   CLabel.adv 1, CLabel.adv 1, CLabel.adv 1]


/-- The sequential outcome state of `pC1`. -/
def stC1 : SeqState Nat :=
  { data := [("s1.out", some 1), ("s2.out", some 2), ("t.res", some 3)]
    extIn := SMap.empty
    outLog := [("res", some 3)]
    processed := ["s1", "s2", "t"] }

/-- The complete concurrent configuration `schedC1` reaches on `pC1`. -/
def confC1 : CConfig Nat :=
  { workers :=
      [{ name := "s1", comp := s1C1, phase := WPhase.done, elog := [] },
       { name := "s2", comp := s2C1, phase := WPhase.done, elog := [] },
       { name := "t", comp := tC1, phase := WPhase.done,
         elog := [("res", some 3)] }]
    extIn := SMap.empty }

/-- Witness for C1 on the fan-in pipeline: the sequential engine finishes
with external output `res = 3`, the schedule completes the concurrent
run, and the worker logs agree with the sequential output log. -/
theorem C1_engine_agreement_witness :
    DefaultEngineRun pC1 ["s1", "s2", "t"] SMap.empty ["res"] =
      SeqOutcome.finished stC1 ∧
    crun ["res"] (chanKeysOf pC1.connections) schedC1
      (initConfig pC1 SMap.empty) = some confC1 ∧
    isComplete confC1 = true ∧
    ((∃ w, w ∈ confC1.workers ∧ ("res", some 3) ∈ w.elog) ↔
      ("res", some 3) ∈ stC1.outLog) := by
  refine ⟨rfl, rfl, rfl, ?_⟩
  exact C1_engine_agreement pC1 ["s1", "s2", "t"] ["res"] stC1 schedC1
    confC1 (by decide) (by decide) (by decide) (by decide)
    (Hout_of_mem pC1.components (by
      intro e he ins outs h
      rcases List.mem_cons.mp he with rfl | he
      · injection h with h2
        subst h2
        rfl
      rcases List.mem_cons.mp he with rfl | he
      · injection h with h2
        subst h2
        rfl
      rcases List.mem_cons.mp he with rfl | he
      · injection h with h2
        subst h2
        rfl
      exact absurd he (List.not_mem_nil _)))
    (Hop_of_mem pC1.components (by decide))
    (Hinj_of_mem pC1.components (by decide))
    (by
      intro c hc
      rcases List.mem_cons.mp hc with rfl | hc
      · exact ⟨s1C1, rfl, by decide⟩
      rcases List.mem_cons.mp hc with rfl | hc
      · exact ⟨s2C1, rfl, by decide⟩
      exact absurd hc (List.not_mem_nil _))
    (Hfed_of_mem pC1.components pC1.connections (by decide))
    rfl rfl rfl "res" (some 3)

/-- The sequential outcome state of `pFan`. -/
def stFan : SeqState Nat :=
  { data := [("s.out", some 1), ("t1.res1", some 1), ("t2.res2", some 1)]
    extIn := SMap.empty
    outLog := [("res1", some 1), ("res2", some 1)]
    processed := ["s", "t1", "t2"] }

/-- C1 counterexample for the claim as stated ("including when one source
output port fans out to multiple sink input ports"): on the fan-out
pipeline `pFan` the sequential engine finishes with both external
outputs, but the concurrent engine allocates a single unbuffered channel
for the shared source endpoint and the source sends exactly once, so the
schedule `schedFan` reaches a configuration that is incomplete (`t2`
never returned) yet has no enabled step — a deadlock, not agreement. -/
theorem C1_counterexample :
    DefaultEngineRun pFan ["s", "t1", "t2"] SMap.empty
      ["res1", "res2"] = SeqOutcome.finished stFan ∧
    ("res1", some 1) ∈ stFan.outLog ∧
    ("res2", some 1) ∈ stFan.outLog ∧
    (crun ["res1", "res2"] (chanKeysOf pFan.connections) schedFan
        (initConfig pFan SMap.empty)).map
      (fun (conf : CConfig Nat) => (isComplete conf,
        noStep ["res1", "res2"] (chanKeysOf pFan.connections) conf)) =
      some (false, true) :=
  ⟨rfl, by decide, by decide, rfl⟩

end GoFlow
